import Mathlib

/-!
Verification of the JSON subsystem of the miscsrc repository (src/json.c,
src/json.h), against its natural-language specification.

Modelling conventions (shallow embedding of the C source):

* C byte strings are `List Nat` of byte values (never containing the NUL
  terminator 0; a terminator is implicit at the end of the list).
* C `double` values are modelled exactly: a finite double is an exact decimal
  number, represented as a mantissa/decimal-exponent pair of integers
  (every finite binary double is an exact decimal), plus tags for NaN and
  the two infinities.  `snprintf("%g", x)` is modelled by `fmt_g` (precision
  6, correctly rounded, as C's `%g` behaves on an exact value), and `atof`
  by exact decimal parsing (`atof_num`).
* 32-bit unsigned overflow is explicit: `% 2^32` (`u32`).
* Allocation never fails in the model (all `malloc`-failure branches of the
  source are elided); reference counting is elided except where a claim is
  about it: `ht_put` additionally returns the value that the C code
  `json_release`s when an existing key is overwritten.
* String interning (`str_intern`) deduplicates equal contents and returns a
  buffer with the same bytes; at the level of values it is the identity on
  content, and is modelled as such.
* The compile-time configuration is the default one of the source:
  `JSON_COMMENTS=1`, `JSON_REENTRANT=1`, `JSON_INTERN_STRINGS=1`;
  `JSON_BAD_NUMBERS_AS_STRINGS` is a `Bool` parameter of the serializer
  (default `false`).
* The process-wide error sink `json_error` is modelled as a list of formatted
  messages accumulated in the parser context (newest first).
-/

namespace MiscJson

/-! ## C character classification (ctype.h, C locale) and small helpers -/

/-- ASCII bytes of a Lean string literal (used for message/input literals). -/
def ascii (s : String) : List Nat := s.data.map Char.toNat

/-- C `isspace` in the C locale: space, \t, \n, \v, \f, \r. -/
def isspace (c : Nat) : Bool := c = 32 || (9 ≤ c && c ≤ 13)

/-- C `isdigit`. -/
def isdigit (c : Nat) : Bool := 48 ≤ c && c ≤ 57

/-- C `isalpha` in the C locale. -/
def isalpha (c : Nat) : Bool := (65 ≤ c && c ≤ 90) || (97 ≤ c && c ≤ 122)

/-- C `isxdigit`. -/
def isxdigit (c : Nat) : Bool :=
  isdigit c || (65 ≤ c && c ≤ 70) || (97 ≤ c && c ≤ 102)

/-- C `tolower`. -/
def tolower (c : Nat) : Nat := if 65 ≤ c && c ≤ 90 then c + 32 else c

/-- C `strchr(s, c) != NULL` for a literal set `s`: note that `strchr` also
finds the NUL terminator, so byte 0 always matches. -/
def strchrB (s : List Nat) (c : Nat) : Bool := c ∈ s || c = 0

/-- Truncated 32-bit value (unsigned overflow is reduction mod 2^32). -/
def u32 (n : Nat) : Nat := n % 4294967296

/-- 32-bit unsigned subtraction `a - b` (wraps around). -/
def u32sub (a b : Nat) : Nat := (a + 4294967296 - b % 4294967296) % 4294967296

/-! ## Numbers: exact model of C doubles

`DVal` models the `double` stored in a number Value.  A finite double is an
exact decimal `m * 10^e`; NaN and the infinities are tags. -/

inductive DVal where
  | fin (m : Int) (e : Int)
  | nan
  | inf
  | ninf
deriving DecidableEq, Repr

/-- Numeric equality of two finite decimals `m1*10^e1 = m2*10^e2`
(cross-scaled integer comparison; this is C `==` on the doubles). -/
def decValEq (m1 e1 m2 e2 : Int) : Bool :=
  if e1 ≥ e2 then m1 * (10 : Int) ^ (e1 - e2).toNat = m2
  else m1 = m2 * (10 : Int) ^ (e2 - e1).toNat

/-- Equality of number payloads as the serializer/deep-equality see them.
`nan`/`inf`/`ninf` compare by tag (deep equality for trees without NaN is
unaffected by the NaN convention chosen here). -/
def dvalEq : DVal → DVal → Bool
  | .fin m1 e1, .fin m2 e2 => decValEq m1 e1 m2 e2
  | .nan, .nan => true
  | .inf, .inf => true
  | .ninf, .ninf => true
  | _, _ => false

/-! ## The JSON value model (`struct json` of the source)

A JSON object owns a `HashTable`: `allocated` slots (`slots.length` here),
of which `count` are occupied; an array owns a growable `Array` of values
(capacity is elided: it only affects allocation).  The `type` tag is the
constructor. -/

inductive JValue where
  | jnull
  | jtrue
  | jfalse
  | jnum (d : DVal)
  | jstr (s : List Nat)
  | jarr (elems : List JValue)
  | jobj (slots : List (Option (List Nat × JValue))) (count : Nat)

/-- Slot array of an object's hash table. -/
abbrev Slots := List (Option (List Nat × JValue))

/-! ## Hash table (`ht_*` of the source) -/

/-- FNV-1a hash, 32-bit version (`hash` in the source). -/
def hashStr (s : List Nat) : Nat :=
  s.foldl (fun h c => u32 ((h ^^^ c) * 16777619)) 2166136261

/-- The probe loop of `find_entry`: starting at slot `h`, linear probing with
wrap-around via `(h+1) & mask`, stopping at the first slot that is empty or
holds `name`.  The C loop has no fuel; it terminates whenever an empty or
matching slot is reachable, which the table invariant guarantees.  `fuel` is
set to the slot count by `find_entry`, which is always enough (the probe
sequence visits every slot within `slots.length` steps). -/
def probe (slots : Slots) (mask : Nat) (name : List Nat) : Nat → Nat → Option Nat
  | 0, _ => none
  | fuel+1, h =>
    match slots.getD h none with
    | none => some h
    | some (k, _) => if k = name then some h else probe slots mask name fuel ((h+1) &&& mask)

/-- `find_entry(elements, mask, name)` of the source, returning the slot index
instead of a pointer (`none` only when the probe cannot terminate, which the
invariant rules out). -/
def find_entry (slots : Slots) (name : List Nat) : Option Nat :=
  probe slots (slots.length - 1) name slots.length (hashStr name &&& (slots.length - 1))

/-- HASH_SIZE: initial slot count of `ht_create`. -/
def HASH_SIZE : Nat := 8

/-- Fresh table of `ht_create`: 8 empty (calloc'd) slots, count 0. -/
def ht_create : Slots × Nat := (List.replicate HASH_SIZE none, 0)

/-- One reinsertion step of the growth loop in `ht_put`: probe the new array
for the entry's key and store the pair there. -/
def reinsert (ns : Slots) (p : List Nat × JValue) : Slots :=
  match find_entry ns p.1 with
  | none => ns
  | some i => ns.set i (some p)

/-- The growth path of `ht_put`: allocate a zeroed array of double size, then
rehash every occupied slot of the old array, in slot order, into it. -/
def growTable (slots : Slots) : Slots :=
  (slots.filterMap id).foldl reinsert (List.replicate (2 * slots.length) none)

/-- `ht_put(ht, name, j)`.  Returns the new slot array, the new count, and the
value that the C code releases when it replaces an existing entry (the claim
about duplicate keys is about that release).  The `none` branches of
`find_entry` are unreachable under the table invariant (in C the probe loop
would not terminate on a full table, which the load factor prevents). -/
def ht_put (slots : Slots) (count : Nat) (name : List Nat) (v : JValue) :
    Slots × Nat × Option JValue :=
  match find_entry slots name with
  | none => (slots, count, none)
  | some f =>
    match slots.getD f none with
    | some (_, old) =>
      -- replacing an existing entry: release old name and old value
      (slots.set f (some (name, v)), count, some old)
    | none =>
      -- new entry
      if count ≥ slots.length * 3 / 4 then
        let slots2 := growTable slots
        match find_entry slots2 name with
        | none => (slots, count, none)
        | some f2 => (slots2.set f2 (some (name, v)), count + 1, none)
      else
        (slots.set f (some (name, v)), count + 1, none)

/-- `ht_get(ht, name)`: probe identically; a found occupied slot yields its
value, a found empty slot yields NULL. -/
def ht_get (slots : Slots) (name : List Nat) : Option JValue :=
  match find_entry slots name with
  | none => none
  | some f =>
    match slots.getD f none with
    | some (_, v) => some v
    | none => none

/-- Scan phase of `ht_next`: `while(!table[h].name) if(++h >= allocated)
return NULL;` — first occupied slot at index ≥ h, in slot order. -/
def htScan (slots : Slots) : Nat → Nat → Option (List Nat)
  | 0, _ => none
  | fuel+1, h =>
    match slots.getD h none with
    | some (k, _) => some k
    | none => if h + 1 ≥ slots.length then none else htScan slots fuel (h+1)

/-- Find phase of `ht_next` for a non-NULL `name`: walk the probe sequence
while the slot's key differs from `name`.  (The C loop calls `strcmp` before
its NULL check, so hitting an empty slot is undefined behavior in C; it is
modelled as the intended `return NULL`, and is unreachable for the present
keys `ht_next` is used with.) -/
def htFindKey (slots : Slots) (mask : Nat) (name : List Nat) : Nat → Nat → Option Nat
  | 0, _ => none
  | fuel+1, h =>
    match slots.getD h none with
    | none => none
    | some (k, _) => if k = name then some h else htFindKey slots mask name fuel ((h+1) &&& mask)

/-- `ht_next(ht, name)`: forward iteration over present keys in slot order. -/
def ht_next (slots : Slots) (name : Option (List Nat)) : Option (List Nat) :=
  match name with
  | none => htScan slots slots.length 0
  | some nm =>
    match htFindKey slots (slots.length - 1) nm slots.length
        (hashStr nm &&& (slots.length - 1)) with
    | none => none
    | some h =>
      if h + 1 ≥ slots.length then none
      else htScan slots slots.length (h+1)

/-- Occupied entries of the table in slot order (used by specifications). -/
def entriesList (slots : Slots) : List (List Nat × JValue) := slots.filterMap id

end MiscJson

namespace MiscJson

/-! ## Decimal formatting: the C `snprintf("%g", x)` model

`%g` with the default precision 6: the value is correctly rounded to 6
significant decimal digits; style `e` is used when the decimal exponent `X`
satisfies `X < -4` or `X >= 6`, else style `f`; trailing zeros are removed
from the fractional part and a trailing decimal point is removed.  On the
exact decimal `m * 10^e` this is computed with integer arithmetic only. -/

/-- Decimal digit bytes of `n`, most significant first (fuel-based so that it
reduces in the kernel; the fuel `n` always suffices). -/
def natDigsAux : Nat → Nat → List Nat → List Nat
  | 0, n, acc => (n % 10 + 48) :: acc
  | f+1, n, acc => if n < 10 then (n + 48) :: acc else natDigsAux f (n / 10) ((n % 10 + 48) :: acc)

/-- Decimal digit bytes of `n`, most significant first. -/
def natDigits (n : Nat) : List Nat := natDigsAux n n []

/-- The 6 decimal digit bytes of `M` (for `10^5 ≤ M < 10^6`). -/
def sixDigits (M : Nat) : List Nat :=
  [M / 100000 % 10 + 48, M / 10000 % 10 + 48, M / 1000 % 10 + 48,
   M / 100 % 10 + 48, M / 10 % 10 + 48, M % 10 + 48]

/-- Remove trailing `'0'` bytes. -/
def stripZeros (l : List Nat) : List Nat := (l.reverse.dropWhile (fun c => c = 48)).reverse

/-- Round `a / p` to the nearest integer, ties to even (how a correctly
rounded conversion rounds an exact value). -/
def roundHalfEven (a p : Nat) : Nat :=
  let q := a / p
  let r := a % p
  if p < 2 * r then q + 1
  else if 2 * r < p then q
  else if q % 2 = 0 then q else q + 1

/-- Exponent digits of `%g`: at least two, zero-padded. -/
def expDigits (n : Nat) : List Nat := if n < 10 then [48, n + 48] else natDigits n

/-- Render the rounded 6-digit significand `M` (`10^5 ≤ M < 10^6`) with
decimal exponent `X`, choosing the `%f`/`%e` style as `%g` does. -/
def gBody (M : Nat) (X : Int) : List Nat :=
  let D := sixDigits M
  if 0 ≤ X ∧ X < 6 then
    let ip := D.take (X.toNat + 1)
    let fp := stripZeros (D.drop (X.toNat + 1))
    ip ++ (if fp = [] then [] else 46 :: fp)
  else if -4 ≤ X ∧ X < 0 then
    48 :: 46 :: (List.replicate (X.natAbs - 1) 48 ++ stripZeros D)
  else
    let fp := stripZeros (D.drop 1)
    D.take 1 ++ (if fp = [] then [] else 46 :: fp)
      ++ [101] ++ (if X < 0 then [45] else [43]) ++ expDigits X.natAbs

/-- The text `snprintf(buffer, 32, "%g", x)` produces for the exact decimal
`x = m * 10^e` (the 32-byte buffer never truncates a `%g` of a double). -/
def fmt_g (m : Int) (e : Int) : List Nat :=
  if m = 0 then [48]
  else
    let sign : List Nat := if m < 0 then [45] else []
    let a : Nat := m.natAbs
    let dg : Nat := (natDigits a).length
    let e0 : Int := (dg : Int) - 1 + e
    let M : Nat := if dg ≤ 6 then a * 10 ^ (6 - dg) else roundHalfEven a (10 ^ (dg - 6))
    if M = 10 ^ 6 then sign ++ gBody (10 ^ 5) (e0 + 1) else sign ++ gBody M e0

/-! ## `atof` on a lexed number token (exact decimal reading) -/

/-- Longest leading run of decimal digit bytes, and the rest. -/
def takeDigits : List Nat → List Nat × List Nat
  | [] => ([], [])
  | c :: cs =>
    if isdigit c then
      let (ds, r) := takeDigits cs
      (c :: ds, r)
    else ([], c :: cs)

/-- Numeric value of a digit-byte run. -/
def digitsVal (ds : List Nat) : Nat := ds.foldl (fun a c => a * 10 + (c - 48)) 0

/-- C `atof` (i.e. `strtod`) on a token produced by the lexer's number rule:
optional sign, digit run, optional fraction, optional exponent; an exponent
with no digits is ignored (the longest valid prefix is converted).  The
result is the exact decimal value. -/
def atof_num (s : List Nat) : DVal :=
  let (neg, s1) : Bool × List Nat := match s with | 45 :: r => (true, r) | _ => (false, s)
  let (ids, s2) := takeDigits s1
  let (fds, s3) : List Nat × List Nat := match s2 with | 46 :: r => takeDigits r | _ => ([], s2)
  let ex : Int :=
    match s3 with
    | c :: r =>
      if c = 101 ∨ c = 69 then
        let (esgn, r1) : Bool × List Nat :=
          match r with
          | 43 :: r2 => (false, r2)
          | 45 :: r2 => (true, r2)
          | _ => (false, r)
        let (eds, _) := takeDigits r1
        if eds = [] then 0
        else if esgn then -(digitsVal eds : Int) else (digitsVal eds : Int)
      else 0
    | [] => 0
  let mant : Int := (digitsVal (ids ++ fds) : Int)
  .fin (if neg then -mant else mant) (ex - (fds.length : Int))

/-! ## The lexer (`getsym` and helpers) -/

/-- Token codes of the source (`P_*`); punctuation tokens are the byte value
of the character, which never collides with these. -/
def P_ERROR : Int := -1

/-- End-of-input token code. -/
def P_END : Int := 0

/-- Number token code. -/
def P_NUMBER : Int := 1

/-- String token code. -/
def P_STRING : Int := 2

/-- Keyword token codes. -/
def P_NULL : Int := 3

/-- Keyword token code for `true`. -/
def P_TRUE : Int := 4

/-- Keyword token code for `false`. -/
def P_FALSE : Int := 5

/-- The `ParserContext` of the source: remaining input, current symbol,
line counter, token text buffer, and the messages reported through the
`json_error` sink so far (newest first).  The intern pool is content-neutral
and is not part of the state. -/
structure PC where
  inp : List Nat
  sym : Int
  lineno : Nat
  buf : List Nat
  errs : List (List Nat)
deriving Repr

/-- Bytes of the C string in the token buffer: a C string ends at the first
NUL byte (relevant when a `\u0000` escape put a NUL into the buffer). -/
def cstr (l : List Nat) : List Nat := l.takeWhile (fun c => c ≠ 0)

/-- Whitespace skipping at the head of `getsym` (counting newlines). -/
def skipSpace : List Nat → Nat → List Nat × Nat
  | [], ln => ([], ln)
  | c :: cs, ln =>
    if isspace c then skipSpace cs (if c = 10 then ln + 1 else ln) else (c :: cs, ln)

/-- Rest of the line for a `//` comment (the newline is not consumed; the
whitespace skip of the next round counts it). -/
def skipLine : List Nat → List Nat
  | [] => []
  | c :: cs => if c = 10 then c :: cs else skipLine cs

/-- Result of skipping a `/* ... */` comment: either the rest of the input
and updated line number, or end-of-file inside the comment. -/
inductive BlockRes where
  | done (inp : List Nat) (ln : Nat)
  | eof (ln : Nat)

/-- The block-comment loop of `getsym`.  The loop condition of the source is
`while(in[0] != '*' && in[1] != '/')`, so it also exits early when the second
character is a `/`; this is transcribed as-is. -/
def skipBlock : List Nat → Nat → BlockRes
  | [], ln => .eof ln
  | c :: cs, ln =>
    if c ≠ 42 && cs.getD 0 0 ≠ 47 then
      skipBlock cs (if c = 10 then ln + 1 else ln)
    else .done ((c :: cs).drop 2) ln

/-- Longest leading alphabetic run (the keyword scan). -/
def takeAlpha : List Nat → List Nat × List Nat
  | [] => ([], [])
  | c :: cs =>
    if isalpha c then
      let (ds, r) := takeAlpha cs
      (c :: ds, r)
    else ([], c :: cs)

/-- The number rule of `getsym`: optional `-`, digit run, optional `.` and
digit run, optional `e`/`E` with optional sign and digit run.  Returns the
token text (the bytes appended to the buffer) and the rest of the input.
When the input ends right after the `e`, the source's `strchr("+-", in[0])`
matches the NUL terminator and appends it; transcribed as-is. -/
def lexNumber (inp : List Nat) : List Nat × List Nat :=
  let (sgn, s1) : List Nat × List Nat := match inp with | 45 :: r => ([45], r) | _ => ([], inp)
  let (ids, s2) := takeDigits s1
  let (dot, s3) : List Nat × List Nat :=
    match s2 with
    | 46 :: r =>
      let (ds, r2) := takeDigits r
      (46 :: ds, r2)
    | _ => ([], s2)
  let (ed, s4) : List Nat × List Nat :=
    match s3 with
    | c :: r =>
      if tolower c = 101 then
        let c2 := r.getD 0 0
        let (sg, r2) : List Nat × List Nat :=
          if strchrB [43, 45] c2 then ([c2], r.drop 1) else ([], r)
        let (eds, r3) := takeDigits r2
        (c :: (sg ++ eds), r3)
      else ([], s3)
    | [] => ([], [])
  (sgn ++ ids ++ dot ++ ed, s4)

/-- `check_4_hex_digits` of the source. -/
def check_4_hex_digits (inp : List Nat) : Bool :=
  isxdigit (inp.getD 0 0) && isxdigit (inp.getD 1 0) &&
    isxdigit (inp.getD 2 0) && isxdigit (inp.getD 3 0)

/-- One hex digit as in `read_4_hex_digits`: `c <= '9'` takes the digit
branch, anything else the letter branch. -/
def hexDigVal (c : Nat) : Nat := if c ≤ 57 then c - 48 else tolower c - 97 + 10

/-- `read_4_hex_digits` of the source (the four bytes exist, as checked by
`check_4_hex_digits` before every call). -/
def read_4_hex_digits (inp : List Nat) : Nat :=
  ((hexDigVal (inp.getD 0 0) * 16 + hexDigVal (inp.getD 1 0)) * 16
    + hexDigVal (inp.getD 2 0)) * 16 + hexDigVal (inp.getD 3 0)

/-- `codepoint_to_utf8` of the source: UTF-8 bytes appended for a decoded
code point (1-4 bytes; `?` for values above 0x10FFFF). -/
def codepoint_to_utf8 (cp : Nat) : List Nat :=
  if cp ≤ 0x7F then [cp]
  else if cp ≤ 0x7FF then [0xC0 ||| (cp >>> 6), 0x80 ||| (cp &&& 0x3F)]
  else if cp ≤ 0xFFFF then
    [0xE0 ||| (cp >>> 12), 0x80 ||| ((cp >>> 6) &&& 0x3F), 0x80 ||| (cp &&& 0x3F)]
  else if cp ≤ 0x10FFFF then
    [0xF0 ||| (cp >>> 18), 0x80 ||| ((cp >>> 12) &&& 0x3F),
     0x80 ||| ((cp >>> 6) &&& 0x3F), 0x80 ||| (cp &&& 0x3F)]
  else [63]

/-- Uppercase hex digit byte. -/
def hexDigitU (n : Nat) : Nat := if n < 10 then n + 48 else n + 55

/-- `%04X` of a value below 0x10000 (all `\uXXXX` values are). -/
def hex4X (u : Nat) : List Nat :=
  [hexDigitU (u / 4096 % 16), hexDigitU (u / 256 % 16),
   hexDigitU (u / 16 % 16), hexDigitU (u % 16)]

/-- Result of the string-literal loop: token bytes and rest, or an error
message (as `set_textf` builds it) and the cursor where the loop stopped. -/
inductive StrRes where
  | ok (buf : List Nat) (rest : List Nat)
  | err (msg : List Nat) (rest : List Nat)

/-- The string-literal loop of `getsym` (after the opening quote).  Each
iteration consumes at least one byte, so the initial input length is enough
fuel; `set_textf` messages are truncated to the 64-byte buffer.  The
surrogate-pair continuation check is the source's
`if(pc->in[0] != '\\' && pc->in[1] != 'u')`, transcribed as-is. -/
def lexStr : Nat → List Nat → List Nat → StrRes
  | 0, inp, _ => .err (ascii "unterminated string literal") inp
  | fuel+1, inp, buf =>
    match inp with
    | [] => .err (ascii "unterminated string literal") []
    | c :: rest =>
      if c = 34 then .ok buf rest
      else if c = 10 then .err (ascii "unterminated string literal") (c :: rest)
      else if c = 92 then
        match rest with
        | [] => .err (ascii "unterminated string literal") []
        | e :: rest2 =>
          if e = 34 then lexStr fuel rest2 (buf ++ [34])
          else if e = 92 then lexStr fuel rest2 (buf ++ [92])
          else if e = 47 then lexStr fuel rest2 (buf ++ [47])
          else if e = 98 then lexStr fuel rest2 (buf ++ [8])
          else if e = 102 then lexStr fuel rest2 (buf ++ [12])
          else if e = 110 then lexStr fuel rest2 (buf ++ [10])
          else if e = 114 then lexStr fuel rest2 (buf ++ [13])
          else if e = 116 then lexStr fuel rest2 (buf ++ [9])
          else if e = 117 then
            if check_4_hex_digits rest2 then
              let u := read_4_hex_digits rest2
              let rest3 := rest2.drop 4
              if 0xD800 ≤ u ∧ u ≤ 0xDFFF then
                if rest3.getD 0 0 ≠ 92 ∧ rest3.getD 1 0 ≠ 117 then
                  .err ((ascii "expected a surrogate pair with \\u" ++ hex4X u).take 63) rest3
                else
                  let rest4 := rest3.drop 2
                  if check_4_hex_digits rest4 then
                    let ls := read_4_hex_digits rest4
                    let cp := u32 (u32sub u 0xD800 * 0x400 + u32sub ls 0xDC00 + 0x10000)
                    lexStr fuel (rest4.drop 4) (buf ++ codepoint_to_utf8 cp)
                  else .err ((ascii "bad '\\uXXXX' sequence").take 63) rest4
              else lexStr fuel rest3 (buf ++ codepoint_to_utf8 u)
            else .err ((ascii "bad '\\uXXXX' sequence").take 63) rest2
          else .err ((ascii "bad escape sequence '\\" ++ [e, 39]).take 63) (e :: rest2)
      else lexStr fuel rest (buf ++ [c])

/-- The token dispatch of `getsym` after whitespace and comments: the buffer
has been cleared by `start_text`.  The punctuation test is the source's
`strchr("{}[]:,", in[0])`, which also matches a NUL (so trailing whitespace
yields `P_END` through this branch, the byte value 0 being `P_END`). -/
def lexDispatch (pc : PC) : PC :=
  let c := pc.inp.getD 0 0
  if isalpha c then
    let (run, rest) := takeAlpha pc.inp
    if run = ascii "null" then { pc with inp := rest, buf := run, sym := P_NULL }
    else if run = ascii "true" then { pc with inp := rest, buf := run, sym := P_TRUE }
    else if run = ascii "false" then { pc with inp := rest, buf := run, sym := P_FALSE }
    else
      { pc with
        inp := rest
        sym := P_ERROR
        buf := (ascii "unknown keyword '" ++ run ++ [39]).take 63 }
  else if isdigit c || c = 45 then
    let (tok, rest) := lexNumber pc.inp
    { pc with inp := rest, buf := tok, sym := P_NUMBER }
  else if c = 34 then
    match lexStr pc.inp.length (pc.inp.drop 1) [] with
    | .ok buf rest => { pc with inp := rest, buf := buf, sym := P_STRING }
    | .err msg rest => { pc with inp := rest, buf := msg, sym := P_ERROR }
  else if strchrB (ascii "\x7b\x7d[]:,") c then
    { pc with inp := pc.inp.drop 1, buf := [], sym := (c : Int) }
  else
    { pc with buf := (ascii "Unexpected token '" ++ [c, 39]).take 63, sym := P_ERROR }

/-- The `goto start` loop of `getsym`: end-of-input check, whitespace skip,
comment skip (the default `JSON_COMMENTS=1` configuration), then dispatch.
Each loop iteration consumes at least the two comment-opening bytes, so the
input length is enough fuel. -/
def getsymAux : Nat → PC → PC
  | 0, pc => { pc with sym := P_ERROR }
  | fuel+1, pc =>
    if pc.inp = [] then { pc with sym := P_END }
    else
      let (inp1, ln1) := skipSpace pc.inp pc.lineno
      if inp1.getD 0 0 = 47 && inp1.getD 1 0 = 47 then
        getsymAux fuel { pc with inp := skipLine (inp1.drop 2), lineno := ln1 }
      else if inp1.getD 0 0 = 47 && inp1.getD 1 0 = 42 then
        match skipBlock (inp1.drop 2) ln1 with
        | .eof ln2 =>
          { pc with
            inp := []
            lineno := ln2
            sym := P_ERROR
            buf := (ascii "unexpected end of file").take 63 }
        | .done inp2 ln2 => getsymAux fuel { pc with inp := inp2, lineno := ln2 }
      else
        lexDispatch { pc with inp := inp1, lineno := ln1, buf := [] }

/-- `getsym` of the source. -/
def getsym (pc : PC) : PC := getsymAux (pc.inp.length + 1) pc

end MiscJson

namespace MiscJson

/-! ## The recursive-descent parser

The parser functions of the source mutate a `ParserContext` and return a
`JSON*` (NULL on failure); here they transform a `PC` and return an
`Option JValue`.  They are fuel-structural: every mutual call decrements the
fuel once, and the recursion depth is bounded by the input length (each
nesting level consumes at least one input byte), so the fuel chosen by
`json_parse` never runs out where the C code terminates. -/

/-- Append a `json_error` report to the sink. -/
def pushErr (pc : PC) (m : List Nat) : PC := { pc with errs := m :: pc.errs }

/-- The formatted message of `json_error("line %d: %s", lineno, msg)`. -/
def json_error_fmt (ln : Nat) (msg : List Nat) : List Nat :=
  ascii "line " ++ natDigits ln ++ ascii ": " ++ msg

/-- `accept(pc, sym)` of the source: on a symbol match advance the lexer and
report a lexical error if the new symbol is `P_ERROR`. -/
def accept (pc : PC) (s : Int) : Bool × PC :=
  if pc.sym = s then
    let pc2 := getsym pc
    if pc2.sym = P_ERROR then
      (false, pushErr pc2 (json_error_fmt pc2.lineno pc2.buf))
    else (true, pc2)
  else (false, pc)

mutual

/-- `json_parse_value` of the source. -/
def json_parse_value : Nat → PC → Option JValue × PC
  | 0, pc => (none, pc)
  | fuel+1, pc =>
    if pc.sym = 123 then json_parse_object fuel pc
    else if pc.sym = 91 then json_parse_array fuel pc
    else
      let v? : Option JValue :=
        if pc.sym = P_NUMBER then some (.jnum (atof_num (cstr pc.buf)))
        else if pc.sym = P_STRING then some (.jstr (cstr pc.buf))
        else if pc.sym = P_TRUE then some .jtrue
        else if pc.sym = P_FALSE then some .jfalse
        else if pc.sym = P_NULL then some .jnull
        else none
      match v? with
      | none => (none, pushErr pc (json_error_fmt pc.lineno pc.buf))
      | some v =>
        let pc2 := getsym pc
        -- on a lexical error here the source releases `v` and returns NULL
        -- without reporting through the sink
        if pc2.sym = P_ERROR then (none, pc2) else (some v, pc2)

/-- `json_parse_object` of the source: `json_new_object()` creates the fresh
8-slot table; the result of `accept(pc, '{')` is ignored, as in the source. -/
def json_parse_object : Nat → PC → Option JValue × PC
  | 0, pc => (none, pc)
  | fuel+1, pc =>
    let (_, pc1) := accept pc 123
    let st :=
      if pc1.sym ≠ 125 then json_parse_members fuel pc1 (List.replicate 8 none) 0
      else (some (List.replicate 8 none, 0), pc1)
    match st with
    | (none, pc2) => (none, pc2)
    | (some (slots, count), pc2) =>
      let (ok, pc3) := accept pc2 125
      if ok then (some (.jobj slots count), pc3)
      else (none, pushErr pc3 (json_error_fmt pc3.lineno (ascii "'\x7d' expected")))

/-- The member do-while loop of `json_parse_object`, carrying the table being
built. -/
def json_parse_members : Nat → PC → Slots → Nat → Option (Slots × Nat) × PC
  | 0, pc, _, _ => (none, pc)
  | fuel+1, pc, slots, count =>
    if pc.sym ≠ P_STRING then
      (none, pushErr pc (json_error_fmt pc.lineno (ascii "string expected")))
    else
      let key := cstr pc.buf
      let pc1 := getsym pc
      if pc1.sym = P_ERROR then
        (none, pushErr pc1 (json_error_fmt pc1.lineno pc1.buf))
      else
        let (okc, pc2) := accept pc1 58
        if ¬okc then
          (none,
            if pc2.sym ≠ P_ERROR then
              pushErr pc2 (json_error_fmt pc2.lineno (ascii "':' expected"))
            else pc2)
        else
          match json_parse_value fuel pc2 with
          | (none, pc3) => (none, pc3)
          | (some value, pc3) =>
            let (slots2, count2, _released) := ht_put slots count key value
            let (cont, pc4) := accept pc3 44
            if cont then json_parse_members fuel pc4 slots2 count2
            else (some (slots2, count2), pc4)

/-- `json_parse_array` of the source. -/
def json_parse_array : Nat → PC → Option JValue × PC
  | 0, pc => (none, pc)
  | fuel+1, pc =>
    let (_, pc1) := accept pc 91
    let st :=
      if pc1.sym ≠ 93 then json_parse_elems fuel pc1 []
      else (some [], pc1)
    match st with
    | (none, pc2) => (none, pc2)
    | (some elems, pc2) =>
      let (ok, pc3) := accept pc2 93
      if ok then (some (.jarr elems), pc3)
      else (none, pushErr pc3 (json_error_fmt pc3.lineno (ascii "']' expected")))

/-- The element do-while loop of `json_parse_array`. -/
def json_parse_elems : Nat → PC → List JValue → Option (List JValue) × PC
  | 0, pc, _ => (none, pc)
  | fuel+1, pc, acc =>
    match json_parse_value fuel pc with
    | (none, pc1) => (none, pc1)
    | (some v, pc1) =>
      let (cont, pc2) := accept pc1 44
      if cont then json_parse_elems fuel pc2 (acc ++ [v])
      else (some (acc ++ [v]), pc2)

end

/-- `json_parse(text)` of the source: skip a UTF-8 byte-order mark, load the
first symbol (`init_parser`), then parse one value.  Returns the value (or
NULL) together with every message reported through the `json_error` sink,
newest first. -/
def json_parse_full (text : List Nat) : Option JValue × List (List Nat) :=
  let text1 := if text.take 3 = [0xEF, 0xBB, 0xBF] then text.drop 3 else text
  let pc0 : PC := ⟨text1, 0, 1, [], []⟩
  let pc := getsym pc0
  if pc.sym = P_ERROR then
    (none, (pushErr pc (json_error_fmt pc.lineno pc.buf)).errs)
  else
    let (v, pc1) := json_parse_value (2 * text1.length + 8) pc
    (v, pc1.errs)

/-- The value returned by `json_parse`. -/
def json_parse (text : List Nat) : Option JValue := (json_parse_full text).1

/-! ## The serializer (`serialize_string`, `serialize_value`) -/

/-- Body of `serialize_string`: the while loop over the bytes.  The source
escapes exactly the eight bytes of `"\"\\/\b\f\n\r\t"`; every other byte is
emitted verbatim (there is no `\uXXXX` re-encoding). -/
def serialize_string_body : List Nat → List Nat
  | [] => []
  | c :: cs =>
    (if strchrB [34, 92, 47, 8, 12, 10, 13, 9] c then
      92 ::
        (if c = 34 then [34]
         else if c = 92 then [92]
         else if c = 47 then [47]
         else if c = 8 then [98]
         else if c = 12 then [102]
         else if c = 10 then [110]
         else if c = 13 then [114]
         else if c = 9 then [116]
         else [])
     else [c]) ++ serialize_string_body cs

/-- `serialize_string` of the source. -/
def serialize_string (s : List Nat) : List Nat := 34 :: serialize_string_body s ++ [34]

/-- The key iteration of the serializer's object case: `ht_next(h, NULL)`,
then repeatedly `ht_next(h, key)`.  Successive results are at strictly
increasing slot indices, so the slot count as fuel is always enough. -/
def htChainAux (slots : Slots) : Nat → Option (List Nat) → List (List Nat)
  | 0, _ => []
  | _, none => []
  | fuel+1, some k => k :: htChainAux slots fuel (ht_next slots (some k))

/-- Keys an object's serializer visits, in visiting order. -/
def htChain (slots : Slots) : List (List Nat) := htChainAux slots (slots.length + 1) (ht_next slots none)

/-- Join serialized entries with commas: the source emits `,` after an entry
exactly when another key follows, and in pretty mode a newline after every
entry. -/
def sepJoin (pretty : Bool) : List (List Nat) → List Nat
  | [] => []
  | [x] => x ++ (if pretty then [10] else [])
  | x :: y :: xs => x ++ [44] ++ (if pretty then [10] else []) ++ sepJoin pretty (y :: xs)

mutual

/-- Depth of a value tree (bounds the recursion depth of the serializer). -/
def jdepth : JValue → Nat
  | .jnull => 0
  | .jtrue => 0
  | .jfalse => 0
  | .jnum _ => 0
  | .jstr _ => 0
  | .jarr elems => jdepthList elems + 1
  | .jobj slots _ => jdepthSlots slots + 1

/-- Depth of a list of values. -/
def jdepthList : List JValue → Nat
  | [] => 0
  | v :: vs => max (jdepth v) (jdepthList vs)

/-- Depth of the values stored in a slot array. -/
def jdepthSlots : Slots → Nat
  | [] => 0
  | none :: ss => jdepthSlots ss
  | some (_, v) :: ss => max (jdepth v) (jdepthSlots ss)

end

/-- `serialize_value(e, j, pretty, indent)` of the source, as the bytes it
appends to the emitter.  `bad` is the compile-time flag
`JSON_BAD_NUMBERS_AS_STRINGS`.  Fuel-structural; the fuel is decremented on
each recursion into a child, so any fuel above the tree depth is enough.
A NULL child from `ht_get` serializes as `null` (the `!j` branch). -/
def serialize_value : Nat → Bool → Bool → Nat → JValue → List Nat
  | 0, _, _, _, _ => []
  | fuel+1, bad, pretty, indent, v =>
    match v with
    | .jstr s => serialize_string s
    | .jnum d =>
      match d with
      | .nan => if bad then ascii "\"NaN\"" else ascii "null"
      | .inf => if bad then ascii "\"Infinity\"" else ascii "null"
      | .ninf => if bad then ascii "\"-Infinity\"" else ascii "null"
      | .fin m e => fmt_g m e
    | .jobj slots _count =>
      let ks := htChain slots
      let pad := if pretty then List.replicate (indent * 2) 32 else []
      let items := ks.map (fun k =>
        pad ++ serialize_string k ++ (if pretty then [32] else []) ++ [58]
          ++ (if pretty then [32] else [])
          ++ (match ht_get slots k with
              | none => ascii "null"
              | some w => serialize_value fuel bad pretty (indent + 1) w))
      123 ::
        ((if ks = [] then []
          else (if pretty then [10] else []) ++ sepJoin pretty items
            ++ (if pretty then List.replicate ((indent - 1) * 2) 32 else []))
          ++ [125])
    | .jarr elems =>
      let pad := if pretty then List.replicate (indent * 2) 32 else []
      let items := elems.map (fun w => pad ++ serialize_value fuel bad pretty (indent + 1) w)
      91 ::
        ((if elems.isEmpty then []
          else (if pretty then [10] else []) ++ sepJoin pretty items
            ++ (if pretty then List.replicate ((indent - 1) * 2) 32 else []))
          ++ [93])
    | .jtrue => ascii "true"
    | .jfalse => ascii "false"
    | .jnull => ascii "null"

/-- `json_serialize` (compact mode, default number policy). -/
def json_serialize (v : JValue) : List Nat := serialize_value (jdepth v + 1) false false 1 v

/-- `json_pretty` (indented mode, default number policy). -/
def json_pretty (v : JValue) : List Nat := serialize_value (jdepth v + 1) false true 1 v

/-- `json_serialize` as compiled with `JSON_BAD_NUMBERS_AS_STRINGS=1` (the
opt-in mode that serializes NaN and the infinities as strings). -/
def json_serialize_badnum (v : JValue) : List Nat :=
  serialize_value (jdepth v + 1) true false 1 v

/-! ## Accessors relevant to the claims -/

/-- `json_array_get(array, n)` of the source: the C comparison
`n < array->value.array->n` converts the `int n` to the unsigned `size_t`,
so a negative `n` becomes a huge unsigned value and fails the range test.
The element is only read when the test passes. -/
def json_array_get (elems : List JValue) (n : Int) : Option JValue :=
  let un : Nat := (n % (18446744073709551616 : Int)).toNat
  if un < elems.length then elems.get? un else none

/-- `json_obj_get(j, name)` of the source. -/
def json_obj_get (slots : Slots) (name : List Nat) : Option JValue := ht_get slots name

/-! ## Structural deep equality (the specification's definition)

Same tag; equal numbers; byte-equal strings; same-length arrays with
pairwise-equal elements; objects with the same set of (key, equal-value)
pairs irrespective of order.  Fuel-structural (any fuel above both depths is
enough; `deepEqTop` chooses one). -/

def deepEq : Nat → JValue → JValue → Bool
  | 0, _, _ => false
  | fuel+1, v, w =>
    match v, w with
    | .jnull, .jnull => true
    | .jtrue, .jtrue => true
    | .jfalse, .jfalse => true
    | .jnum a, .jnum b => dvalEq a b
    | .jstr a, .jstr b => a = b
    | .jarr xs, .jarr ys =>
      xs.length = ys.length && (xs.zip ys).all (fun p => deepEq fuel p.1 p.2)
    | .jobj s1 _, .jobj s2 _ =>
      let e1 := entriesList s1
      let e2 := entriesList s2
      e1.all (fun p => e2.any (fun q => p.1 = q.1 && deepEq fuel p.2 q.2)) &&
        e2.all (fun q => e1.any (fun p => p.1 = q.1 && deepEq fuel p.2 q.2))
    | _, _ => false

/-- Deep equality at sufficient fuel. -/
def deepEqTop (v w : JValue) : Bool := deepEq (jdepth v + 1) v w

/-! ## Well-formedness of a value tree

What holds of every tree built through the construction API: strings are
NUL-free byte strings, and every object's hash table satisfies the table
invariant that `ht_put` maintains: the slot count is `8 * 2^k`; `count`
matches the occupied slots and keeps the load factor at or below 3/4; and
probing for any present key finds exactly its slot. -/

/-- Byte-string well-formedness (a C string: bytes 1..255). -/
def strOk (s : List Nat) : Bool := s.all (fun c => 1 ≤ c && c ≤ 255)

/-- The slot-count/count/probe invariant of a hash table. -/
def htWfB (slots : Slots) (count : Nat) : Bool :=
  (List.range (slots.length + 1)).any (fun m => 3 ≤ m && slots.length = 2 ^ m) &&
    count = (entriesList slots).length &&
    count * 4 ≤ slots.length * 3 &&
    (List.range slots.length).all (fun j =>
      match slots.getD j none with
      | none => true
      | some (k, _) => find_entry slots k = some j)

mutual

/-- Well-formedness of a value tree. -/
def wfB : JValue → Bool
  | .jnull => true
  | .jtrue => true
  | .jfalse => true
  | .jnum _ => true
  | .jstr s => strOk s
  | .jarr elems => wfList elems
  | .jobj slots count => htWfB slots count && wfSlots slots

/-- Well-formedness of every element of a list. -/
def wfList : List JValue → Bool
  | [] => true
  | v :: vs => wfB v && wfList vs

/-- Well-formedness of keys and values in a slot array. -/
def wfSlots : Slots → Bool
  | [] => true
  | none :: ss => wfSlots ss
  | some (k, v) :: ss => strOk k && k ≠ [] && wfB v && wfSlots ss

end

mutual

/-- Every number of the tree is finite and survives the `%g`/`atof`
round-trip (numerically). -/
def goodNums : JValue → Bool
  | .jnum (.fin m e) => dvalEq (atof_num (fmt_g m e)) (.fin m e)
  | .jnum _ => false
  | .jstr _ => true
  | .jnull => true
  | .jtrue => true
  | .jfalse => true
  | .jarr elems => goodNumsList elems
  | .jobj slots _ => goodNumsSlots slots

/-- Number condition over a list of values. -/
def goodNumsList : List JValue → Bool
  | [] => true
  | v :: vs => goodNums v && goodNumsList vs

/-- Number condition over a slot array. -/
def goodNumsSlots : Slots → Bool
  | [] => true
  | none :: ss => goodNumsSlots ss
  | some (_, v) :: ss => goodNums v && goodNumsSlots ss

end

end MiscJson

namespace MiscJson

/-! ## Basic lemmas about the probe loop -/

/-- Key stored at a slot index. -/
def keyAt (slots : Slots) (i : Nat) : Option (List Nat) := (slots.getD i none).map (fun p => p.1)

theorem probe_zero (slots : Slots) (mask : Nat) (name : List Nat) (h : Nat) :
    probe slots mask name 0 h = none := rfl

theorem probe_succ (slots : Slots) (mask : Nat) (name : List Nat) (f h : Nat) :
    probe slots mask name (f+1) h =
      match slots.getD h none with
      | none => some h
      | some (k, _) => if k = name then some h else probe slots mask name f ((h+1) &&& mask) := rfl

theorem probe_occupied_key {slots : Slots} {mask : Nat} {name : List Nat} :
    ∀ {fuel h j : Nat}, probe slots mask name fuel h = some j →
      ∀ {k : List Nat} {w : JValue}, slots.getD j none = some (k, w) → k = name := by
  intro fuel
  induction fuel with
  | zero => intro h j hp; rw [probe_zero] at hp; cases hp
  | succ f ih =>
    intro h j hp k w hj
    rw [probe_succ] at hp
    cases hs : slots.getD h none with
    | none =>
      rw [hs] at hp
      simp only [Option.some.injEq] at hp
      subst hp
      rw [hs] at hj
      cases hj
    | some p =>
      obtain ⟨k1, w1⟩ := p
      rw [hs] at hp
      simp only at hp
      by_cases hke : k1 = name
      · rw [if_pos hke] at hp
        simp only [Option.some.injEq] at hp
        subst hp
        rw [hs] at hj
        cases hj
        exact hke
      · rw [if_neg hke] at hp
        exact ih hp hj

theorem probe_keys_congr {slots slots' : Slots} {mask : Nat} {name : List Nat}
    (hk : ∀ i, keyAt slots' i = keyAt slots i) :
    ∀ (fuel h : Nat), probe slots' mask name fuel h = probe slots mask name fuel h := by
  intro fuel
  induction fuel with
  | zero => intro h; rw [probe_zero, probe_zero]
  | succ f ih =>
    intro h
    have hkh := hk h
    simp only [keyAt] at hkh
    rw [probe_succ, probe_succ]
    cases hs : slots.getD h none with
    | none =>
      rw [hs] at hkh
      cases hs2 : slots'.getD h none with
      | none => rfl
      | some p => rw [hs2] at hkh; simp at hkh
    | some p =>
      obtain ⟨k1, w1⟩ := p
      rw [hs] at hkh
      cases hs2 : slots'.getD h none with
      | none => rw [hs2] at hkh; simp at hkh
      | some q =>
        obtain ⟨k2, w2⟩ := q
        rw [hs2] at hkh
        simp only [Option.map_some'] at hkh
        injection hkh with hkq
        subst hkq
        show (if k2 = name then some h else probe slots' mask name f ((h+1) &&& mask))
          = (if k2 = name then some h else probe slots mask name f ((h+1) &&& mask))
        by_cases he : k2 = name
        · rw [if_pos he, if_pos he]
        · rw [if_neg he, if_neg he, ih]

end MiscJson

namespace MiscJson

theorem getD_set_self {α : Type} {l : List α} {i : Nat} (h : i < l.length) (a d : α) :
    (l.set i a).getD i d = a := by
  simp [List.getD_eq_getElem?_getD, List.getElem?_set_self', List.getElem?_eq_getElem h]

theorem getD_set_ne {α : Type} {l : List α} {i j : Nat} (h : i ≠ j) (a d : α) :
    (l.set i a).getD j d = l.getD j d := by
  simp [List.getD_eq_getElem?_getD, List.getElem?_set_ne h]

/-! ## C4: duplicate keys -/

/-- Replacing a present key: the slot found for `k` holds `k` itself, the old
value is released, the new value is installed, and a subsequent `ht_get`
returns the new value. -/
theorem ht_put_replace {slots : Slots} {count : Nat} {k : List Nat} {old : JValue}
    (hget : ht_get slots k = some old) (v : JValue) :
    ht_get (ht_put slots count k v).1 k = some v ∧
      (ht_put slots count k v).2.2 = some old := by
  unfold ht_get at hget
  cases hfe : find_entry slots k with
  | none => rw [hfe] at hget; cases hget
  | some f =>
    rw [hfe] at hget
    simp only at hget
    cases hslot : slots.getD f none with
    | none => rw [hslot] at hget; cases hget
    | some p =>
      obtain ⟨k1, w1⟩ := p
      rw [hslot] at hget
      simp only [Option.some.injEq] at hget
      subst hget
      have hk1 : k1 = k := probe_occupied_key hfe hslot
      subst hk1
      have hflt : f < slots.length := by
        by_contra hge
        push_neg at hge
        rw [List.getD_eq_default _ _ hge] at hslot
        cases hslot
      constructor
      · show ht_get (ht_put slots count k1 v).1 k1 = some v
        unfold ht_put
        rw [hfe]
        simp only
        rw [hslot]
        unfold ht_get
        have hkeys : ∀ i, keyAt (slots.set f (some (k1, v))) i = keyAt slots i := by
          intro i
          unfold keyAt
          by_cases hif : i = f
          · subst hif
            rw [getD_set_self hflt, hslot]
            rfl
          · rw [getD_set_ne (fun he => hif he.symm)]
        have hfe2 : find_entry (slots.set f (some (k1, v))) k1 = some f := by
          unfold find_entry
          rw [List.length_set]
          rw [probe_keys_congr hkeys]
          exact hfe
        rw [hfe2]
        simp only
        rw [getD_set_self hflt]
      · unfold ht_put
        rw [hfe]
        simp only
        rw [hslot]

/-- C4: parsing the input `{"x":1,"x":2}` succeeds and produces an object
where looking up key `x` yields the number 2; in general, a `ht_put` on a
key that is present installs the new value (the last write wins) and
releases the previous value for that key. -/
theorem c4_duplicate_keys_last_write_wins :
    (∃ slots count, json_parse (ascii "\x7b\"x\":1,\"x\":2\x7d") = some (.jobj slots count) ∧
        ht_get slots (ascii "x") = some (.jnum (.fin 2 0))) ∧
    (∀ (slots : Slots) (count : Nat) (k : List Nat) (old v : JValue),
        ht_get slots k = some old →
          ht_get (ht_put slots count k v).1 k = some v ∧
            (ht_put slots count k v).2.2 = some old) := by
  constructor
  · refine ⟨(json_parse (ascii "\x7b\"x\":1,\"x\":2\x7d")).elim (List.replicate 8 none)
      (fun v => match v with | .jobj s _ => s | _ => List.replicate 8 none), 1, ?_, ?_⟩
    · rfl
    · rfl
  · intro slots count k old v hget
    exact ht_put_replace hget v

end MiscJson

namespace MiscJson

/-- A concrete one-entry table used by witnesses: `x` mapped to the number 1
by a fresh `ht_put`. -/
def demoTable : Slots × Nat :=
  let r := ht_put (List.replicate 8 none) 0 (ascii "x") (.jnum (.fin 1 0))
  (r.1, r.2.1)

/-- Whether `pat` occurs contiguously in `s` (used to state what a reported
message does not say). -/
def containsSeq (pat s : List Nat) : Bool :=
  (List.range (s.length + 1)).any (fun i => (s.drop i).take pat.length = pat)

/-- C4 (witness): the general last-write-wins clause applied to a concrete
table: replacing `x` installs the new value and releases the old one. -/
theorem c4_duplicate_keys_witness :
    ht_get (ht_put demoTable.1 demoTable.2 (ascii "x") (.jnum (.fin 2 0))).1 (ascii "x")
        = some (.jnum (.fin 2 0)) ∧
      (ht_put demoTable.1 demoTable.2 (ascii "x") (.jnum (.fin 2 0))).2.2
        = some (.jnum (.fin 1 0)) := by
  exact c4_duplicate_keys_last_write_wins.2 demoTable.1 demoTable.2 (ascii "x")
    (.jnum (.fin 1 0)) (.jnum (.fin 2 0)) rfl

/-- C9: parsing the input `"\uD83D\uDE00"` — a string literal consisting of
one surrogate-pair escape — produces a string Value whose UTF-8 bytes are the
4-byte encoding of code point 0x1F600: F0 9F 98 80. -/
theorem c9_surrogate_pair_utf8 :
    json_parse (ascii "\"\\uD83D\\uDE00\"") = some (.jstr [240, 159, 152, 128]) := by
  rfl

/-- C3 (failing input): the lexer accepts `"\uD83Dxu0061"` although the high
surrogate is not followed by a `\uXXXX` escape.  The continuation check at
json.c:903 is `if(pc->in[0] != '\\' && pc->in[1] != 'u')` — `&&` where `||`
was meant — so the bytes `xu` pass it; the two bytes are then skipped, the
following `0061` is read as the low half, and the wrapped 32-bit arithmetic
produces code point 0x11861, which is emitted as UTF-8 `F0 91 A1 A1`.  No
error is reported; the parse succeeds with a garbage string. -/
theorem c3_malformed_surrogate_accepted :
    json_parse (ascii "\"\\uD83Dxu0061\"") = some (.jstr [240, 145, 161, 161]) ∧
      (json_parse_full (ascii "\"\\uD83Dxu0061\"")).2 = [] := by
  exact ⟨rfl, rfl⟩

/-- C7 (counterexample): parsing `{"a": }` does fail and does report an error
citing line 1, but the message is the text of the offending token — empty for
the token `}` — so the single report is exactly `line 1: `, which indicates
nothing about an expected value: it contains neither `value` nor `expect`. -/
theorem c7_counterexample_empty_message :
    json_parse (ascii "\x7b\"a\": \x7d") = none ∧
      (json_parse_full (ascii "\x7b\"a\": \x7d")).2 = [ascii "line 1: "] ∧
      containsSeq (ascii "value") (ascii "line 1: ") = false ∧
      containsSeq (ascii "expect") (ascii "line 1: ") = false := by
  exact ⟨rfl, rfl, by decide, by decide⟩

/-- C7 (amended): parsing `{"a": }` fails — NULL is returned, no partial
tree — and one SyntaxError is reported through the sink, citing line number
1; but its message part is `pc->e.buffer`, the text of the offending token,
which is empty for `}`: the report is exactly `line 1: ` (no `value
expected` wording). -/
theorem c7_malformed_input_line1 :
    json_parse (ascii "\x7b\"a\": \x7d") = none ∧
      (json_parse_full (ascii "\x7b\"a\": \x7d")).2 = [json_error_fmt 1 []] := by
  exact ⟨rfl, rfl⟩

/-- C2 (counterexample): the sticky-error check in `getsym` is commented out
(json.c:802), so the lexer resumes scanning after an error.  On input
`nulx 1` the first call returns Error (unknown keyword), and the second call
consumes input and returns a Number token. -/
theorem c2_counterexample_lexer_resumes :
    (getsym ⟨ascii "nulx 1", 0, 1, [], []⟩).sym = P_ERROR ∧
      (getsym (getsym ⟨ascii "nulx 1", 0, 1, [], []⟩)).sym = P_NUMBER ∧
      (getsym (getsym ⟨ascii "nulx 1", 0, 1, [], []⟩)).inp.length <
        (getsym ⟨ascii "nulx 1", 0, 1, [], []⟩).inp.length := by
  exact ⟨rfl, rfl, by decide⟩

/-- C2 (amended): once the lexer has produced an Error token the parse is
aborted without consuming further input: `accept` never matches the Error
token (so it does not call the lexer again), and `json_parse_value` fails at
once, leaving the cursor where it was.  The lexer itself, called directly
again, is not sticky (the check is commented out in the source) and may
resume, as the counterexample shows. -/
theorem c2_error_aborts_parse (pc : PC) (h : pc.sym = P_ERROR) (s : Int)
    (hs : s ≠ P_ERROR) (fuel : Nat) :
    accept pc s = (false, pc) ∧
      (json_parse_value fuel pc).1 = none ∧
      (json_parse_value fuel pc).2.inp = pc.inp := by
  have hacc : accept pc s = (false, pc) := by
    unfold accept
    rw [h, if_neg (fun he => hs he.symm)]
  refine ⟨hacc, ?_, ?_⟩ <;>
  · cases fuel with
    | zero => rfl
    | succ f =>
      unfold json_parse_value
      rw [h]
      simp [P_ERROR, P_NUMBER, P_STRING, P_TRUE, P_FALSE, P_NULL, pushErr]

/-- C2 (witness): the amended theorem applied to a concrete context holding
an Error token. -/
theorem c2_error_aborts_parse_witness :
    accept ⟨ascii "rest", P_ERROR, 1, [], []⟩ 123 = (false, ⟨ascii "rest", P_ERROR, 1, [], []⟩) ∧
      (json_parse_value 5 ⟨ascii "rest", P_ERROR, 1, [], []⟩).1 = none ∧
      (json_parse_value 5 ⟨ascii "rest", P_ERROR, 1, [], []⟩).2.inp = ascii "rest" := by
  exact c2_error_aborts_parse ⟨ascii "rest", P_ERROR, 1, [], []⟩ rfl 123 (by decide) 5

/-- C6 (counterexample): the serializer special-cases eight bytes, not seven:
the forward slash is escaped too.  Serializing the one-byte string `/`
yields `"\/"`, and the set of bytes whose emission is not verbatim is
exactly the eight-element set backspace, tab, newline, form feed, carriage
return, quote, slash, backslash. -/
theorem c6_counterexample_slash_escaped :
    json_serialize (.jstr [47]) = [34, 92, 47, 34] ∧
      (List.range' 1 255).filter (fun b => decide (serialize_string_body [b] ≠ [b]))
        = [8, 9, 10, 12, 13, 34, 47, 92] := by
  exact ⟨rfl, by decide⟩

/-- C6 (amended): for every string Value, the serializer special-cases
exactly eight bytes — the seven named control escapes plus the forward
slash — emitting `\` followed by the escape letter; every other byte of the
string passes through to the output verbatim, and no `\uXXXX` re-encoding
of bytes above the ASCII range is performed. -/
theorem c6_string_serialization (s : List Nat) (h : 0 ∉ s) :
    serialize_value 1 false false 1 (.jstr s) =
      34 :: (s.flatMap (fun c =>
        if c ∈ [34, 92, 47, 8, 12, 10, 13, 9] then
          [92, if c = 34 then 34 else if c = 92 then 92 else if c = 47 then 47
            else if c = 8 then 98 else if c = 12 then 102 else if c = 10 then 110
            else if c = 13 then 114 else 116]
        else [c]) ++ [34]) := by
  have key : ∀ t : List Nat, 0 ∉ t → serialize_string_body t =
      t.flatMap (fun c =>
        if c ∈ [34, 92, 47, 8, 12, 10, 13, 9] then
          [92, if c = 34 then 34 else if c = 92 then 92 else if c = 47 then 47
            else if c = 8 then 98 else if c = 12 then 102 else if c = 10 then 110
            else if c = 13 then 114 else 116]
        else [c]) := by
    intro t
    induction t with
    | nil => intro _; rfl
    | cons c cs ih =>
      intro hn
      have hc : c ≠ 0 := fun he => hn (he ▸ List.mem_cons_self c cs)
      have hcs : 0 ∉ cs := fun hm => hn (List.mem_cons_of_mem c hm)
      rw [List.flatMap_cons, serialize_string_body, ih hcs]
      congr 1
      by_cases hmem : c ∈ [34, 92, 47, 8, 12, 10, 13, 9]
      · have hstr : strchrB [34, 92, 47, 8, 12, 10, 13, 9] c = true := by
          simp [strchrB, hmem]
        rw [hstr, if_pos hmem]
        simp only [if_true]
        fin_cases hmem <;> rfl
      · have hstr : strchrB [34, 92, 47, 8, 12, 10, 13, 9] c = false := by
          simp [strchrB, hmem, hc]
        rw [hstr, if_neg hmem]
        simp
  show serialize_string s = _
  unfold serialize_string
  rw [key s h, List.cons_append]

/-- C6 (witness): the amended string-serialization law at the concrete
string `a/b` (the slash is escaped, the letters pass verbatim). -/
theorem c6_string_serialization_witness :
    serialize_value 1 false false 1 (.jstr (ascii "a/b")) =
      34 :: ((ascii "a/b").flatMap (fun c =>
        if c ∈ [34, 92, 47, 8, 12, 10, 13, 9] then
          [92, if c = 34 then 34 else if c = 92 then 92 else if c = 47 then 47
            else if c = 8 then 98 else if c = 12 then 102 else if c = 10 then 110
            else if c = 13 then 114 else 116]
        else [c]) ++ [34]) := by
  exact c6_string_serialization (ascii "a/b") (by decide)

/-- C8: a NaN or infinite number Value serializes as `null` in the default
mode and as the quoted strings `"NaN"`, `"Infinity"`, `"-Infinity"` in the
opt-in `JSON_BAD_NUMBERS_AS_STRINGS` mode; finite numbers are rendered by
the `%g` formatter model. -/
theorem c8_nan_infinity_policy :
    (json_serialize (.jnum .nan) = ascii "null" ∧
      json_serialize (.jnum .inf) = ascii "null" ∧
      json_serialize (.jnum .ninf) = ascii "null") ∧
    (json_serialize_badnum (.jnum .nan) = ascii "\"NaN\"" ∧
      json_serialize_badnum (.jnum .inf) = ascii "\"Infinity\"" ∧
      json_serialize_badnum (.jnum .ninf) = ascii "\"-Infinity\"") ∧
    (∀ m e : Int, json_serialize (.jnum (.fin m e)) = fmt_g m e) := by
  exact ⟨⟨rfl, rfl, rfl⟩, ⟨rfl, rfl, rfl⟩, fun m e => rfl⟩

/-- C10: `json_array_get` with a negative index returns NULL and reads
nothing out of bounds: the `int` index is converted to the unsigned `size_t`
by the comparison `n < array->value.array->n`, so it fails the range test
for every array a machine can hold (the function only reads the array; the
embedding is a pure function of it). -/
theorem c10_array_get_negative (xs : List JValue) (n : Int) (hneg : n < 0)
    (hint : -2147483648 ≤ n) (hlen : (xs.length : Int) < 18446744071562067968) :
    json_array_get xs n = none := by
  unfold json_array_get
  have hmod : n % (18446744073709551616 : Int) = n + 18446744073709551616 := by
    omega
  rw [hmod]
  have hge : 18446744071562067968 ≤ (n + 18446744073709551616).toNat := by omega
  rw [if_neg]
  omega

/-- C10 (witness): a negative index on a one-element array yields NULL. -/
theorem c10_array_get_negative_witness :
    json_array_get [JValue.jnull] (-1) = none := by
  exact c10_array_get_negative [JValue.jnull] (-1) (by decide) (by decide) (by decide)

/-- C1 (counterexample): the round-trip fails for the finite, non-NaN number
1234567 built via `json_new_number`: `%g` keeps six significant digits, so
it serializes as `1.23457e+06`, which parses back to 1234570 — not
deep-equal to the original tree. -/
theorem c1_counterexample_precision_loss :
    json_serialize (.jnum (.fin 1234567 0)) = ascii "1.23457e+06" ∧
      json_parse (ascii "1.23457e+06") = some (.jnum (.fin 123457 1)) ∧
      deepEqTop (.jnum (.fin 1234567 0)) (.jnum (.fin 123457 1)) = false ∧
      wfB (.jnum (.fin 1234567 0)) = true := by
  exact ⟨rfl, rfl, by decide, rfl⟩

end MiscJson

namespace MiscJson

/-! ## Hash table invariant theory

The table invariant maintained by `ht_put` (§3/§4.1 of the spec): the slot
count is a power of two (`8 * 2^k`), `count` counts the occupied slots and
keeps the load factor at or below 3/4, and probing for any stored key finds
exactly its slot. -/

/-- Probe part of the invariant (what the growth loop maintains while the
count bookkeeping is in flux). -/
structure ProbeInv (slots : Slots) : Prop where
  pow2 : ∃ m, slots.length = 2 ^ m
  inv : ∀ j k w, slots.getD j none = some (k, w) → find_entry slots k = some j

/-- The full `ht_put` invariant. -/
structure HTWF (slots : Slots) (count : Nat) : Prop where
  pow2 : ∃ m, 3 ≤ m ∧ slots.length = 2 ^ m
  cnt : count = (entriesList slots).length
  load : count * 4 ≤ slots.length * 3
  inv : ∀ j k w, slots.getD j none = some (k, w) → find_entry slots k = some j

theorem HTWF.probeInv {slots : Slots} {count : Nat} (h : HTWF slots count) :
    ProbeInv slots :=
  ⟨h.pow2.imp (fun _ hm => hm.2), h.inv⟩

theorem pow2_pos {slots : Slots} (h : ∃ m, slots.length = 2 ^ m) : 0 < slots.length := by
  obtain ⟨m, hm⟩ := h
  rw [hm]
  exact Nat.pos_pow_of_pos m (by omega)

theorem mask_mod {slots : Slots} (h : ∃ m, slots.length = 2 ^ m) (x : Nat) :
    x &&& (slots.length - 1) = x % slots.length := by
  obtain ⟨m, hm⟩ := h
  rw [hm]
  exact Nat.and_pow_two_sub_one_eq_mod x m

theorem probe_lt {slots : Slots} {name : List Nat} (hp : ∃ m, slots.length = 2 ^ m) :
    ∀ {fuel h j : Nat}, h < slots.length →
      probe slots (slots.length - 1) name fuel h = some j → j < slots.length := by
  intro fuel
  induction fuel with
  | zero => intro h j _ hpr; rw [probe_zero] at hpr; cases hpr
  | succ f ih =>
    intro h j hh hpr
    rw [probe_succ] at hpr
    cases hs : slots.getD h none with
    | none =>
      rw [hs] at hpr
      simp only [Option.some.injEq] at hpr
      exact hpr ▸ hh
    | some p =>
      obtain ⟨k1, w1⟩ := p
      rw [hs] at hpr
      simp only at hpr
      by_cases hke : k1 = name
      · rw [if_pos hke] at hpr
        simp only [Option.some.injEq] at hpr
        exact hpr ▸ hh
      · rw [if_neg hke, mask_mod hp] at hpr
        exact ih (Nat.mod_lt _ (pow2_pos hp)) hpr

theorem probe_result {slots : Slots} {mask : Nat} {name : List Nat} :
    ∀ {fuel h j : Nat}, probe slots mask name fuel h = some j →
      slots.getD j none = none ∨ ∃ w, slots.getD j none = some (name, w) := by
  intro fuel
  induction fuel with
  | zero => intro h j hpr; rw [probe_zero] at hpr; cases hpr
  | succ f ih =>
    intro h j hpr
    rw [probe_succ] at hpr
    cases hs : slots.getD h none with
    | none =>
      rw [hs] at hpr
      simp only [Option.some.injEq] at hpr
      exact Or.inl (hpr ▸ hs)
    | some p =>
      obtain ⟨k1, w1⟩ := p
      rw [hs] at hpr
      simp only at hpr
      by_cases hke : k1 = name
      · rw [if_pos hke] at hpr
        simp only [Option.some.injEq] at hpr
        exact Or.inr ⟨w1, hpr ▸ (hke ▸ hs)⟩
      · rw [if_neg hke] at hpr
        exact ih hpr

theorem probe_none_path {slots : Slots} {name : List Nat} (hp : ∃ m, slots.length = 2 ^ m) :
    ∀ {fuel h : Nat}, h < slots.length →
      probe slots (slots.length - 1) name fuel h = none →
      ∀ i < fuel, ∃ k w, slots.getD ((h + i) % slots.length) none = some (k, w) ∧ k ≠ name := by
  intro fuel
  induction fuel with
  | zero => intro h _ _ i hi; omega
  | succ f ih =>
    intro h hh hpr i hi
    rw [probe_succ] at hpr
    cases hs : slots.getD h none with
    | none => rw [hs] at hpr; cases hpr
    | some p =>
      obtain ⟨k1, w1⟩ := p
      rw [hs] at hpr
      simp only at hpr
      by_cases hke : k1 = name
      · rw [if_pos hke] at hpr; cases hpr
      · rw [if_neg hke, mask_mod hp] at hpr
        cases i with
        | zero =>
          refine ⟨k1, w1, ?_, hke⟩
          rw [Nat.add_zero, Nat.mod_eq_of_lt hh]
          exact hs
        | succ i' =>
          have := ih (Nat.mod_lt _ (pow2_pos hp)) hpr i' (by omega)
          obtain ⟨k, w, hkw, hkn⟩ := this
          refine ⟨k, w, ?_, hkn⟩
          rw [Nat.mod_add_mod (h+1) slots.length i'] at hkw
          have harith : h + 1 + i' = h + (i' + 1) := by omega
          rw [harith] at hkw
          exact hkw

theorem exists_empty_index {slots : Slots}
    (h : (entriesList slots).length < slots.length) :
    ∃ j, j < slots.length ∧ slots.getD j none = none := by
  induction slots with
  | nil => simp at h
  | cons s t ih =>
    cases s with
    | none => exact ⟨0, by simp, rfl⟩
    | some p =>
      have ht : (entriesList t).length < t.length := by
        simpa [entriesList, List.filterMap_cons] using h
      obtain ⟨j, hj, hget⟩ := ih ht
      exact ⟨j + 1, by simpa using hj, hget⟩

theorem probe_total {slots : Slots} {name : List Nat} (hp : ∃ m, slots.length = 2 ^ m)
    {h : Nat} (hh : h < slots.length)
    (hempty : ∃ j, j < slots.length ∧ slots.getD j none = none) :
    probe slots (slots.length - 1) name slots.length h ≠ none := by
  intro hnone
  obtain ⟨j, hj, hjn⟩ := hempty
  have hpath := probe_none_path hp hh hnone ((j + slots.length - h) % slots.length)
    (Nat.mod_lt _ (pow2_pos hp))
  obtain ⟨k, w, hkw, _⟩ := hpath
  rw [Nat.add_mod_mod] at hkw
  have harith : h + (j + slots.length - h) = j + slots.length := by omega
  rw [harith, Nat.add_mod_right, Nat.mod_eq_of_lt hj] at hkw
  rw [hjn] at hkw
  cases hkw

theorem find_entry_total {slots : Slots} {name : List Nat}
    (hp : ∃ m, slots.length = 2 ^ m)
    (hempty : ∃ j, j < slots.length ∧ slots.getD j none = none) :
    ∃ f, find_entry slots name = some f ∧ f < slots.length := by
  unfold find_entry
  rw [mask_mod hp]
  have hh : hashStr name % slots.length < slots.length := Nat.mod_lt _ (pow2_pos hp)
  cases hfe : probe slots (slots.length - 1) name slots.length (hashStr name % slots.length) with
  | none => exact absurd hfe (probe_total hp hh hempty)
  | some f => exact ⟨f, rfl, probe_lt hp hh hfe⟩

end MiscJson

namespace MiscJson

theorem probe_set_other {slots : Slots} {mask s : Nat} {k : List Nat} {v : JValue}
    (hsempty : slots.getD s none = none) {name : List Nat} :
    ∀ {fuel h j : Nat}, probe slots mask name fuel h = some j →
      ∀ {w : JValue}, slots.getD j none = some (name, w) →
      probe (slots.set s (some (k, v))) mask name fuel h = some j := by
  intro fuel
  induction fuel with
  | zero => intro h j hpr; rw [probe_zero] at hpr; cases hpr
  | succ f ih =>
    intro h j hpr w hj
    rw [probe_succ] at hpr
    cases hs : slots.getD h none with
    | none =>
      rw [hs] at hpr
      simp only [Option.some.injEq] at hpr
      subst hpr
      rw [hj] at hs
      cases hs
    | some p =>
      obtain ⟨k1, w1⟩ := p
      rw [hs] at hpr
      simp only at hpr
      have hhs : h ≠ s := by
        intro he
        rw [he, hsempty] at hs
        cases hs
      have hset : (slots.set s (some (k, v))).getD h none = some (k1, w1) := by
        rw [getD_set_ne (fun he => hhs he.symm)]
        exact hs
      rw [probe_succ, hset]
      simp only
      by_cases hke : k1 = name
      · rw [if_pos hke]
        rw [if_pos hke] at hpr
        exact hpr
      · rw [if_neg hke]
        rw [if_neg hke] at hpr
        exact ih hpr hj

theorem probe_set_self {slots : Slots} {mask s : Nat} {k : List Nat} {v : JValue}
    (hsempty : slots.getD s none = none) (hslt : s < slots.length) :
    ∀ {fuel h : Nat}, probe slots mask k fuel h = some s →
      probe (slots.set s (some (k, v))) mask k fuel h = some s := by
  intro fuel
  induction fuel with
  | zero => intro h hpr; rw [probe_zero] at hpr; cases hpr
  | succ f ih =>
    intro h hpr
    rw [probe_succ] at hpr
    cases hs : slots.getD h none with
    | none =>
      rw [hs] at hpr
      simp only [Option.some.injEq] at hpr
      subst hpr
      rw [probe_succ, getD_set_self hslt]
      simp
    | some p =>
      obtain ⟨k1, w1⟩ := p
      rw [hs] at hpr
      simp only at hpr
      have hhs : h ≠ s := by
        intro he
        rw [he, hsempty] at hs
        cases hs
      have hset : (slots.set s (some (k, v))).getD h none = some (k1, w1) := by
        rw [getD_set_ne (fun he => hhs he.symm)]
        exact hs
      rw [probe_succ, hset]
      simp only
      by_cases hke : k1 = k
      · rw [if_pos hke] at hpr
        simp only [Option.some.injEq] at hpr
        subst hpr
        rw [hs] at hsempty
        cases hsempty
      · rw [if_neg hke]
        rw [if_neg hke] at hpr
        exact ih hpr

/-- Membership in the entry list is having a slot. -/
theorem mem_entries_iff {slots : Slots} {p : List Nat × JValue} :
    p ∈ entriesList slots ↔ ∃ j, slots.getD j none = some p := by
  unfold entriesList
  rw [List.mem_filterMap]
  constructor
  · rintro ⟨a, ha, hap⟩
    subst hap
    obtain ⟨j, hj, hget⟩ := List.mem_iff_getElem.mp ha
    refine ⟨j, ?_⟩
    rw [List.getD_eq_getElem?_getD, List.getElem?_eq_getElem hj, hget]
    rfl
  · rintro ⟨j, hj⟩
    have hjlt : j < slots.length := by
      by_contra hge
      push_neg at hge
      rw [List.getD_eq_default _ _ hge] at hj
      cases hj
    refine ⟨some p, ?_, rfl⟩
    rw [List.getD_eq_getElem?_getD, List.getElem?_eq_getElem hjlt] at hj
    have : slots[j] = some p := by
      cases hq : slots[j] with
      | none => rw [hq] at hj; cases hj
      | some q => rw [hq] at hj; exact congrArg some (by exact Option.some.inj hj)
    exact this ▸ List.getElem_mem hjlt

/-- What `ht_get` returns, in terms of the slots (under the probe invariant). -/
theorem ht_get_some_iff {slots : Slots} (hpi : ProbeInv slots) {k : List Nat} {w : JValue} :
    ht_get slots k = some w ↔ ∃ j, slots.getD j none = some (k, w) := by
  constructor
  · intro hget
    unfold ht_get at hget
    cases hfe : find_entry slots k with
    | none => rw [hfe] at hget; cases hget
    | some f =>
      rw [hfe] at hget
      simp only at hget
      cases hs : slots.getD f none with
      | none => rw [hs] at hget; cases hget
      | some p =>
        obtain ⟨k1, w1⟩ := p
        rw [hs] at hget
        simp only [Option.some.injEq] at hget
        subst hget
        have : k1 = k := probe_occupied_key hfe hs
        exact ⟨f, this ▸ hs⟩
  · rintro ⟨j, hj⟩
    have hfe := hpi.inv j k w hj
    unfold ht_get
    rw [hfe]
    simp only
    rw [hj]

/-- Inserting a fresh pair at the probed empty slot preserves the probe
invariant. -/
theorem probeInv_set_new {slots : Slots} {k : List Nat} {v : JValue} {f : Nat}
    (hpi : ProbeInv slots) (hfe : find_entry slots k = some f)
    (hempty : slots.getD f none = none) (hflt : f < slots.length) :
    ProbeInv (slots.set f (some (k, v))) := by
  constructor
  · rw [List.length_set]
    exact hpi.pow2
  · intro j k' w' hj
    by_cases hjf : j = f
    · subst hjf
      rw [getD_set_self hflt] at hj
      injection hj with hj2
      cases hj2
      unfold find_entry at hfe ⊢
      rw [List.length_set]
      exact probe_set_self hempty hflt hfe
    · rw [getD_set_ne (fun he => hjf he.symm)] at hj
      have hold := hpi.inv j k' w' hj
      unfold find_entry at hold ⊢
      rw [List.length_set]
      exact probe_set_other hempty hold hj

end MiscJson

namespace MiscJson

theorem getElem_none_of_getD {slots : Slots} {f : Nat} (hflt : f < slots.length)
    (hempty : slots.getD f none = none) : slots[f] = none := by
  rw [List.getD_eq_getElem?_getD, List.getElem?_eq_getElem hflt] at hempty
  cases hq : slots[f] with
  | none => rfl
  | some q => rw [hq] at hempty; cases hempty

/-- Filling an empty slot adds the pair to the entry list (as a multiset). -/
theorem entries_set_new {slots : Slots} {f : Nat} {p : List Nat × JValue}
    (hflt : f < slots.length) (hempty : slots.getD f none = none) :
    List.Perm (entriesList (slots.set f (some p))) (p :: entriesList slots) := by
  have hset := List.set_eq_take_cons_drop (some p) hflt
  have hdropf : slots.drop f = none :: slots.drop (f+1) := by
    rw [List.drop_eq_getElem_cons hflt, getElem_none_of_getD hflt hempty]
  have hslots := (List.take_append_drop f slots).symm
  rw [hdropf] at hslots
  unfold entriesList
  rw [hset]
  conv_rhs => rw [hslots]
  rw [List.filterMap_append, List.filterMap_append, List.filterMap_cons, List.filterMap_cons]
  simp only [id]
  exact List.perm_middle

/-- Overwriting an occupied slot keeps the entry count. -/
theorem entries_set_replace {slots : Slots} {f : Nat} {p q : List Nat × JValue}
    (hflt : f < slots.length) (hocc : slots.getD f none = some q) :
    (entriesList (slots.set f (some p))).length = (entriesList slots).length := by
  have hset := List.set_eq_take_cons_drop (some p) hflt
  have hq : slots[f] = some q := by
    rw [List.getD_eq_getElem?_getD, List.getElem?_eq_getElem hflt] at hocc
    cases hg : slots[f] with
    | none => rw [hg] at hocc; cases hocc
    | some r => rw [hg] at hocc; exact congrArg some (Option.some.inj hocc)
  have hdropf : slots.drop f = some q :: slots.drop (f+1) := by
    rw [List.drop_eq_getElem_cons hflt, hq]
  have hslots := (List.take_append_drop f slots).symm
  rw [hdropf] at hslots
  unfold entriesList
  rw [hset]
  conv_rhs => rw [hslots]
  rw [List.filterMap_append, List.filterMap_append, List.filterMap_cons, List.filterMap_cons]
  simp [id]

theorem keys_nodup_aux : ∀ (l : Slots),
    (∀ i j ki wi kj wj, l.getD i none = some (ki, wi) → l.getD j none = some (kj, wj) →
      ki = kj → i = j) →
    ((l.filterMap id).map Prod.fst).Nodup := by
  intro l
  induction l with
  | nil => intro _; simp
  | cons s t ih =>
    intro hinj
    cases s with
    | none =>
      rw [List.filterMap_cons]
      simp only [id]
      apply ih
      intro i j ki wi kj wj hi hj hk
      have h2 := hinj (i+1) (j+1) ki wi kj wj
        (by rw [List.getD_cons_succ]; exact hi)
        (by rw [List.getD_cons_succ]; exact hj) hk
      omega
    | some p =>
      rw [List.filterMap_cons]
      simp only [id, List.map_cons]
      rw [List.nodup_cons]
      constructor
      · intro hmem
        obtain ⟨q, hq, hq1⟩ := List.mem_map.mp hmem
        have hslot : ∃ j, t.getD j none = some q := mem_entries_iff.mp hq
        obtain ⟨j, hj⟩ := hslot
        have h0 : (some p :: t).getD 0 none = some (p.1, p.2) := by simp [List.getD_cons_zero]
        have hj1 : (some p :: t).getD (j+1) none = some (q.1, q.2) := by
          rw [List.getD_cons_succ]
          simpa using hj
        have := hinj 0 (j+1) p.1 p.2 q.1 q.2 h0 hj1 hq1.symm
        omega
      · apply ih
        intro i j ki wi kj wj hi hj hk
        have h2 := hinj (i+1) (j+1) ki wi kj wj
          (by rw [List.getD_cons_succ]; exact hi)
          (by rw [List.getD_cons_succ]; exact hj) hk
        omega

/-- Under the probe invariant, no key occurs twice among the entries. -/
theorem entries_keys_nodup {slots : Slots} (hpi : ProbeInv slots) :
    ((entriesList slots).map Prod.fst).Nodup := by
  apply keys_nodup_aux
  intro i j ki wi kj wj hi hj hk
  have h1 := hpi.inv i ki wi hi
  have h2 := hpi.inv j kj wj hj
  rw [hk] at h1
  rw [h1] at h2
  exact Option.some.inj h2

/-- A key that `ht_get` does not find occupies no slot. -/
theorem keyAt_none_of_get_none {slots : Slots} (hpi : ProbeInv slots) {k : List Nat}
    (hget : ht_get slots k = none) : ∀ j, keyAt slots j ≠ some k := by
  intro j hkey
  unfold keyAt at hkey
  cases hs : slots.getD j none with
  | none => rw [hs] at hkey; cases hkey
  | some q =>
    rw [hs] at hkey
    simp only [Option.map_some'] at hkey
    injection hkey with hk1
    have : ht_get slots k = some q.2 := by
      rw [ht_get_some_iff hpi]
      exact ⟨j, by rw [hs, ← hk1]⟩
    rw [this] at hget
    cases hget

end MiscJson

namespace MiscJson

theorem getD_replicate_none {n j : Nat} :
    (List.replicate n (none : Option (List Nat × JValue))).getD j none = none := by
  rw [List.getD_eq_getElem?_getD, List.getElem?_replicate]
  split <;> rfl

theorem entriesList_replicate {n : Nat} :
    entriesList (List.replicate n none) = [] := by
  induction n with
  | zero => rfl
  | succ m ih =>
    rw [List.replicate_succ]
    unfold entriesList at ih ⊢
    rw [List.filterMap_cons]
    exact ih

/-- The reinsertion fold of `ht_put`'s growth: rehashing a list of fresh,
distinct-keyed pairs into a table with enough room preserves the probe
invariant and adds exactly those pairs to the entry list. -/
theorem foldl_reinsert_spec :
    ∀ (ps : List (List Nat × JValue)) (ns : Slots),
      ProbeInv ns →
      (∀ p ∈ ps, ∀ j, keyAt ns j ≠ some p.1) →
      (ps.map Prod.fst).Nodup →
      (entriesList ns).length + ps.length < ns.length →
      ProbeInv (ps.foldl reinsert ns) ∧
        List.Perm (entriesList (ps.foldl reinsert ns)) (ps ++ entriesList ns) ∧
        (ps.foldl reinsert ns).length = ns.length := by
  intro ps
  induction ps with
  | nil => intro ns hpi _ _ _; exact ⟨hpi, by simp, rfl⟩
  | cons p rest ih =>
    intro ns hpi hfresh hnodup hbound
    have hempty : ∃ j, j < ns.length ∧ ns.getD j none = none :=
      exists_empty_index (by simp at hbound; omega)
    obtain ⟨f, hfe, hflt⟩ := find_entry_total hpi.pow2 hempty
    have hfempty : ns.getD f none = none := by
      rcases probe_result hfe with hnone | ⟨w, hw⟩
      · exact hnone
      · exact absurd (by unfold keyAt; rw [hw]; rfl)
          (hfresh p (List.mem_cons_self p rest) f)
    have hre : reinsert ns p = ns.set f (some p) := by
      unfold reinsert
      rw [hfe]
    have hpi2 : ProbeInv (ns.set f (some p)) := by
      obtain ⟨k0, v0⟩ := p
      exact probeInv_set_new hpi hfe hfempty hflt
    have hent2 : List.Perm (entriesList (ns.set f (some p))) (p :: entriesList ns) :=
      entries_set_new hflt hfempty
    rw [List.map_cons, List.nodup_cons] at hnodup
    have hfresh2 : ∀ q ∈ rest, ∀ j, keyAt (ns.set f (some p)) j ≠ some q.1 := by
      intro q hq j hkey
      by_cases hjf : j = f
      · subst hjf
        unfold keyAt at hkey
        rw [getD_set_self hflt] at hkey
        simp only [Option.map_some'] at hkey
        injection hkey with hk1
        exact hnodup.1 (hk1 ▸ List.mem_map_of_mem Prod.fst hq)
      · unfold keyAt at hkey
        rw [getD_set_ne (fun he => hjf he.symm)] at hkey
        exact hfresh q (List.mem_cons_of_mem p hq) j (by unfold keyAt; exact hkey)
    have hbound2 : (entriesList (ns.set f (some p))).length + rest.length
        < (ns.set f (some p)).length := by
      rw [List.length_set, hent2.length_eq]
      simp only [List.length_cons] at hbound ⊢
      omega
    obtain ⟨hpiF, hpermF, hlenF⟩ := ih (ns.set f (some p)) hpi2 hfresh2 hnodup.2 hbound2
    rw [List.foldl_cons, hre]
    refine ⟨hpiF, ?_, by rw [hlenF, List.length_set]⟩
    refine hpermF.trans ((List.Perm.append_left rest hent2).trans ?_)
    rw [List.cons_append]
    exact List.perm_middle

/-- Growth (`ht_put`'s rehash) doubles the slot count, preserves the probe
invariant, and keeps exactly the same entries. -/
theorem growTable_spec {slots : Slots} {count : Nat} (hw : HTWF slots count) :
    ProbeInv (growTable slots) ∧ (growTable slots).length = 2 * slots.length ∧
      List.Perm (entriesList (growTable slots)) (entriesList slots) := by
  have hlenr : (List.replicate (2 * slots.length) (none : Option (List Nat × JValue))).length
      = 2 * slots.length := List.length_replicate _ _
  have hfreshInv : ProbeInv (List.replicate (2 * slots.length) none) := by
    constructor
    · obtain ⟨m, _, hm⟩ := hw.pow2
      exact ⟨m + 1, by rw [hlenr, hm, Nat.pow_succ]; omega⟩
    · intro j k w hj
      rw [getD_replicate_none] at hj
      cases hj
  have hfresh : ∀ p ∈ entriesList slots, ∀ j,
      keyAt (List.replicate (2 * slots.length) none) j ≠ some p.1 := by
    intro p _ j hkey
    unfold keyAt at hkey
    rw [getD_replicate_none] at hkey
    cases hkey
  have hcountlt : (entriesList slots).length < slots.length := by
    have h1 := hw.load
    have h2 := hw.cnt
    have h3 := pow2_pos (hw.probeInv.pow2)
    omega
  have hbound : (entriesList (List.replicate (2 * slots.length) none)).length
      + (entriesList slots).length
      < (List.replicate (2 * slots.length) (none : Option (List Nat × JValue))).length := by
    rw [entriesList_replicate, hlenr]
    simp only [List.length_nil]
    omega
  obtain ⟨hpiF, hpermF, hlenF⟩ := foldl_reinsert_spec (entriesList slots)
    (List.replicate (2 * slots.length) none) hfreshInv hfresh
    (entries_keys_nodup hw.probeInv) hbound
  have hgt : growTable slots
      = (entriesList slots).foldl reinsert (List.replicate (2 * slots.length) none) := rfl
  refine ⟨hpiF, by rw [hgt, hlenF, hlenr], ?_⟩
  have : List.Perm (entriesList (growTable slots))
      ((entriesList slots) ++ entriesList (List.replicate (2 * slots.length) none)) := hpermF
  rw [entriesList_replicate, List.append_nil] at this
  exact this

end MiscJson

namespace MiscJson

theorem HTWF.entries_lt {slots : Slots} {count : Nat} (hw : HTWF slots count) :
    (entriesList slots).length < slots.length := by
  have h1 := hw.load
  have h2 := hw.cnt
  have h3 := pow2_pos hw.probeInv.pow2
  omega

theorem HTWF.len8 {slots : Slots} {count : Nat} (hw : HTWF slots count) :
    8 ≤ slots.length := by
  obtain ⟨m, hm, hlen⟩ := hw.pow2
  rw [hlen]
  calc 8 = 2 ^ 3 := rfl
    _ ≤ 2 ^ m := Nat.pow_le_pow_right (by omega) hm

/-- Gets after inserting a fresh pair at its probed empty slot. -/
theorem set_new_get {slots : Slots} {k : List Nat} {v : JValue} {f : Nat}
    (hpi : ProbeInv slots) (hfe : find_entry slots k = some f)
    (hempty : slots.getD f none = none) (hflt : f < slots.length) :
    ht_get (slots.set f (some (k, v))) k = some v ∧
      ∀ k', k' ≠ k → ht_get (slots.set f (some (k, v))) k' = ht_get slots k' := by
  have hpi2 := probeInv_set_new (v := v) hpi hfe hempty hflt
  constructor
  · rw [ht_get_some_iff hpi2]
    exact ⟨f, getD_set_self hflt _ _⟩
  · intro k' hk'
    cases hk : ht_get slots k' with
    | some w =>
      obtain ⟨j, hj⟩ := (ht_get_some_iff hpi).mp hk
      have hjf : j ≠ f := by
        intro he
        rw [he, hempty] at hj
        cases hj
      rw [ht_get_some_iff hpi2]
      exact ⟨j, by rw [getD_set_ne (fun he => hjf he.symm)]; exact hj⟩
    | none =>
      cases hnew : ht_get (slots.set f (some (k, v))) k' with
      | none => rfl
      | some w =>
        obtain ⟨j, hj⟩ := (ht_get_some_iff hpi2).mp hnew
        by_cases hjf : j = f
        · subst hjf
          rw [getD_set_self hflt] at hj
          injection hj with hj2
          injection hj2 with hj3 hj4
          exact absurd hj3.symm hk'
        · rw [getD_set_ne (fun he => hjf he.symm)] at hj
          have : ht_get slots k' = some w := (ht_get_some_iff hpi).mpr ⟨j, hj⟩
          rw [this] at hk
          cases hk

/-- `ht_get` is determined by the entry multiset (under the probe invariant). -/
theorem ht_get_perm_congr {t1 t2 : Slots} (h1 : ProbeInv t1) (h2 : ProbeInv t2)
    (hperm : List.Perm (entriesList t1) (entriesList t2)) (k : List Nat) :
    ht_get t1 k = ht_get t2 k := by
  cases hg : ht_get t2 k with
  | some w =>
    obtain ⟨j, hj⟩ := (ht_get_some_iff h2).mp hg
    have hmem : (k, w) ∈ entriesList t1 := hperm.mem_iff.mpr (mem_entries_iff.mpr ⟨j, hj⟩)
    obtain ⟨j1, hj1⟩ := mem_entries_iff.mp hmem
    exact (ht_get_some_iff h1).mpr ⟨j1, hj1⟩
  | none =>
    cases hg1 : ht_get t1 k with
    | none => rfl
    | some w =>
      obtain ⟨j, hj⟩ := (ht_get_some_iff h1).mp hg1
      have hmem : (k, w) ∈ entriesList t2 := hperm.mem_iff.mp (mem_entries_iff.mpr ⟨j, hj⟩)
      obtain ⟨j2, hj2⟩ := mem_entries_iff.mp hmem
      have := (ht_get_some_iff h2).mpr ⟨j2, hj2⟩
      rw [this] at hg
      cases hg

/-- `ht_put` of an absent key: count increments, nothing is released, the
pair joins the entries, the key becomes retrievable, other keys are
untouched, and the invariant is preserved (growing first when the load
factor demands it). -/
theorem ht_put_new_spec {slots : Slots} {count : Nat} {k : List Nat}
    (hw : HTWF slots count) (hget : ht_get slots k = none) (v : JValue) :
    HTWF (ht_put slots count k v).1 (ht_put slots count k v).2.1 ∧
      (ht_put slots count k v).2.1 = count + 1 ∧
      (ht_put slots count k v).2.2 = none ∧
      List.Perm (entriesList (ht_put slots count k v).1) ((k, v) :: entriesList slots) ∧
      ht_get (ht_put slots count k v).1 k = some v ∧
      ∀ k', k' ≠ k → ht_get (ht_put slots count k v).1 k' = ht_get slots k' := by
  have hempty := exists_empty_index hw.entries_lt
  obtain ⟨f, hfe, hflt⟩ := find_entry_total hw.probeInv.pow2 hempty
  have hfempty : slots.getD f none = none := by
    rcases probe_result hfe with hnone | ⟨w, hw2⟩
    · exact hnone
    · have := (ht_get_some_iff hw.probeInv).mpr ⟨f, hw2⟩
      rw [this] at hget
      cases hget
  by_cases hgrow : count ≥ slots.length * 3 / 4
  · -- growth path
    obtain ⟨hpi2, hlen2, hperm2⟩ := growTable_spec hw
    have hempty2 : ∃ j, j < (growTable slots).length ∧ (growTable slots).getD j none = none := by
      apply exists_empty_index
      rw [hperm2.length_eq, hlen2]
      have := hw.entries_lt
      omega
    obtain ⟨f2, hfe2, hf2lt⟩ := find_entry_total hpi2.pow2 hempty2
    have hf2empty : (growTable slots).getD f2 none = none := by
      rcases probe_result hfe2 with hnone | ⟨w, hw2⟩
      · exact hnone
      · have hg2 : ht_get (growTable slots) k = some w := (ht_get_some_iff hpi2).mpr ⟨f2, hw2⟩
        rw [ht_get_perm_congr hpi2 hw.probeInv hperm2 k] at hg2
        rw [hg2] at hget
        cases hget
    have hpute : ht_put slots count k v
        = ((growTable slots).set f2 (some (k, v)), count + 1, none) := by
      unfold ht_put
      rw [hfe]
      simp only
      rw [hfempty]
      simp only
      rw [if_pos hgrow, hfe2]
    obtain ⟨hgk, hgo⟩ := set_new_get hpi2 hfe2 hf2empty hf2lt (v := v)
    have hperm3 : List.Perm (entriesList ((growTable slots).set f2 (some (k, v))))
        ((k, v) :: entriesList slots) :=
      (entries_set_new hf2lt hf2empty).trans (hperm2.cons (k, v))
    rw [hpute]
    simp only []
    refine ⟨?_, trivial, trivial, hperm3, hgk, ?_⟩
    · constructor
      · obtain ⟨m, hm3, hmlen⟩ := hw.pow2
        refine ⟨m + 1, by omega, ?_⟩
        rw [List.length_set, hlen2, hmlen, Nat.pow_succ]
        omega
      · rw [hperm3.length_eq, List.length_cons, ← hw.cnt]
      · rw [List.length_set, hlen2]
        have h8 := hw.len8
        have := hw.load
        omega
      · exact (probeInv_set_new hpi2 hfe2 hf2empty hf2lt).inv
    · intro k' hk'
      rw [hgo k' hk']
      exact ht_get_perm_congr hpi2 hw.probeInv hperm2 k'
  · -- no-growth path
    have hpute : ht_put slots count k v = (slots.set f (some (k, v)), count + 1, none) := by
      unfold ht_put
      rw [hfe]
      simp only
      rw [hfempty]
      simp only
      rw [if_neg hgrow]
    obtain ⟨hgk, hgo⟩ := set_new_get hw.probeInv hfe hfempty hflt (v := v)
    have hperm3 : List.Perm (entriesList (slots.set f (some (k, v))))
        ((k, v) :: entriesList slots) := entries_set_new hflt hfempty
    rw [hpute]
    simp only []
    refine ⟨?_, trivial, trivial, hperm3, hgk, hgo⟩
    constructor
    · obtain ⟨m, hm3, hmlen⟩ := hw.pow2
      exact ⟨m, hm3, by rw [List.length_set]; exact hmlen⟩
    · rw [hperm3.length_eq, List.length_cons, ← hw.cnt]
    · rw [List.length_set]
      omega
    · exact (probeInv_set_new hw.probeInv hfe hfempty hflt).inv

end MiscJson

namespace MiscJson

/-- `ht_put` of a present key: the count is unchanged, the new value is
installed (the old one is released), other keys are untouched, and the
invariant is preserved. -/
theorem ht_put_replace_spec {slots : Slots} {count : Nat} {k : List Nat} {old : JValue}
    (hw : HTWF slots count) (hget : ht_get slots k = some old) (v : JValue) :
    HTWF (ht_put slots count k v).1 (ht_put slots count k v).2.1 ∧
      (ht_put slots count k v).2.1 = count ∧
      ht_get (ht_put slots count k v).1 k = some v ∧
      ∀ k', k' ≠ k → ht_get (ht_put slots count k v).1 k' = ht_get slots k' := by
  unfold ht_get at hget
  cases hfe : find_entry slots k with
  | none => rw [hfe] at hget; cases hget
  | some f =>
    rw [hfe] at hget
    simp only at hget
    cases hslot : slots.getD f none with
    | none => rw [hslot] at hget; cases hget
    | some p =>
      obtain ⟨k1, w1⟩ := p
      rw [hslot] at hget
      simp only [Option.some.injEq] at hget
      subst hget
      have hk1 : k1 = k := probe_occupied_key hfe hslot
      subst hk1
      have hflt : f < slots.length := by
        by_contra hge
        push_neg at hge
        rw [List.getD_eq_default _ _ hge] at hslot
        cases hslot
      have hpute : ht_put slots count k1 v = (slots.set f (some (k1, v)), count, some w1) := by
        unfold ht_put
        rw [hfe]
        simp only
        rw [hslot]
      have hkeys : ∀ i, keyAt (slots.set f (some (k1, v))) i = keyAt slots i := by
        intro i
        unfold keyAt
        by_cases hif : i = f
        · subst hif
          rw [getD_set_self hflt, hslot]
          rfl
        · rw [getD_set_ne (fun he => hif he.symm)]
      have hfec : ∀ name, find_entry (slots.set f (some (k1, v))) name = find_entry slots name := by
        intro name
        unfold find_entry
        rw [List.length_set]
        exact probe_keys_congr hkeys _ _
      have hpi2 : ProbeInv (slots.set f (some (k1, v))) := by
        constructor
        · rw [List.length_set]
          exact hw.probeInv.pow2
        · intro j k' w' hj
          rw [hfec]
          by_cases hjf : j = f
          · subst hjf
            rw [getD_set_self hflt] at hj
            injection hj with hj2
            injection hj2 with hj3 hj4
            subst hj3
            exact hfe
          · rw [getD_set_ne (fun he => hjf he.symm)] at hj
            exact hw.inv j k' w' hj
      rw [hpute]
      simp only []
      refine ⟨?_, trivial, ?_, ?_⟩
      · constructor
        · obtain ⟨m, hm3, hmlen⟩ := hw.pow2
          exact ⟨m, hm3, by rw [List.length_set]; exact hmlen⟩
        · rw [entries_set_replace hflt hslot, ← hw.cnt]
        · rw [List.length_set]
          exact hw.load
        · exact hpi2.inv
      · unfold ht_get
        rw [hfec, hfe]
        simp only
        rw [getD_set_self hflt]
      · intro k' hk'
        unfold ht_get
        rw [hfec]
        cases hfk : find_entry slots k' with
        | none => rfl
        | some j =>
          simp only
          by_cases hjf : j = f
          · subst hjf
            exact absurd (probe_occupied_key hfk hslot) (fun he => hk' he.symm)
          · rw [getD_set_ne (fun he => hjf he.symm)]

/-- A sequence of put operations on a table (the claim's workload). -/
def putList (ops : List (List Nat × JValue)) (t : Slots × Nat) : Slots × Nat :=
  ops.foldl (fun t p => ((ht_put t.1 t.2 p.1 p.2).1, (ht_put t.1 t.2 p.1 p.2).2.1)) t

/-- The fresh table of `ht_create` satisfies the invariant. -/
theorem htwf_create : HTWF (List.replicate 8 none) 0 := by
  constructor
  · exact ⟨3, by omega, by simp⟩
  · rw [entriesList_replicate]
    rfl
  · simp
  · intro j k w hj
    rw [getD_replicate_none] at hj
    cases hj

/-- Folding `ht_put` over a workload preserves the invariant, and `ht_get`
afterwards returns the most recently put value for each key (falling back
to the base table). -/
theorem putFold_spec : ∀ (ops : List (List Nat × JValue)) (slots : Slots) (count : Nat),
    HTWF slots count →
    HTWF (putList ops (slots, count)).1 (putList ops (slots, count)).2 ∧
      ∀ k, ht_get (putList ops (slots, count)).1 k
        = ops.foldl (fun acc p => if p.1 = k then some p.2 else acc) (ht_get slots k) := by
  intro ops
  induction ops with
  | nil => intro slots count hw; exact ⟨hw, fun k => rfl⟩
  | cons p rest ih =>
    intro slots count hw
    have hstep : putList (p :: rest) (slots, count)
        = putList rest ((ht_put slots count p.1 p.2).1, (ht_put slots count p.1 p.2).2.1) := rfl
    have hfacts : HTWF (ht_put slots count p.1 p.2).1 (ht_put slots count p.1 p.2).2.1 ∧
        ht_get (ht_put slots count p.1 p.2).1 p.1 = some p.2 ∧
        ∀ k', k' ≠ p.1 → ht_get (ht_put slots count p.1 p.2).1 k' = ht_get slots k' := by
      cases hg : ht_get slots p.1 with
      | none =>
        obtain ⟨h1, _, _, _, h5, h6⟩ := ht_put_new_spec hw hg p.2
        exact ⟨h1, h5, h6⟩
      | some old =>
        obtain ⟨h1, _, h3, h4⟩ := ht_put_replace_spec hw hg p.2
        exact ⟨h1, h3, h4⟩
    obtain ⟨hw2, hgk, hgo⟩ := hfacts
    obtain ⟨hwF, hgetF⟩ := ih _ _ hw2
    rw [hstep]
    refine ⟨hwF, fun k => ?_⟩
    rw [hgetF k, List.foldl_cons]
    congr 1
    by_cases hk : p.1 = k
    · subst hk
      rw [if_pos rfl]
      exact hgk
    · rw [if_neg hk]
      exact hgo k (fun he => hk he.symm)

/-- C5: for every sequence of put operations on a fresh MemberTable whose
final slot count is at least 64 (at least three growth events from the
initial 8), every inserted key is retrievable via `ht_get` with its most
recently put value; the slot count is a power of two `2^m` with `m ≥ 3`
(starting at 8), and the occupied count stays at or below 3/4 of the
capacity.  Growth doubles the capacity and reinserts every occupied slot,
preserving the entries. -/
theorem c5_growth_preserves_entries (ops : List (List Nat × JValue))
    (hgrow : 64 ≤ (putList ops (List.replicate 8 none, 0)).1.length) :
    (∀ k, ht_get (putList ops (List.replicate 8 none, 0)).1 k
        = ops.foldl (fun acc p => if p.1 = k then some p.2 else acc) none) ∧
      (∃ m, 3 ≤ m ∧ (putList ops (List.replicate 8 none, 0)).1.length = 2 ^ m) ∧
      (putList ops (List.replicate 8 none, 0)).2 * 4
        ≤ (putList ops (List.replicate 8 none, 0)).1.length * 3 ∧
      ∀ slots count, HTWF slots count →
        (growTable slots).length = 2 * slots.length ∧
          List.Perm (entriesList (growTable slots)) (entriesList slots) := by
  obtain ⟨hwF, hget⟩ := putFold_spec ops (List.replicate 8 none) 0 htwf_create
  refine ⟨?_, hwF.pow2, hwF.load, ?_⟩
  · intro k
    have := hget k
    have hbase : ht_get (List.replicate 8 none) k = none := by
      unfold ht_get
      cases hfe : find_entry (List.replicate 8 none) k with
      | none => rfl
      | some f =>
        simp only
        rw [getD_replicate_none]
    rw [hbase] at this
    exact this
  · intro slots count hw
    obtain ⟨_, h2, h3⟩ := growTable_spec hw
    exact ⟨h2, h3⟩

/-- The 25 distinct keys of the C5 witness (forcing growths 8→16→32→64). -/
def ops25 : List (List Nat × JValue) :=
  (List.range 25).map (fun i => (ascii "k" ++ natDigits i, JValue.jnum (.fin (i : Int) 0)))

/-- C5 (witness): 25 distinct keys force the slot count to 64 (three growth
events) and key `k7` is still retrievable with its value. -/
theorem c5_growth_preserves_entries_witness :
    64 ≤ (putList ops25 (List.replicate 8 none, 0)).1.length ∧
      ht_get (putList ops25 (List.replicate 8 none, 0)).1 (ascii "k" ++ natDigits 7)
        = some (.jnum (.fin 7 0)) := by
  have h64 : 64 ≤ (putList ops25 (List.replicate 8 none, 0)).1.length := by decide
  refine ⟨h64, ?_⟩
  rw [(c5_growth_preserves_entries ops25 h64).1 (ascii "k" ++ natDigits 7)]
  rfl

end MiscJson

namespace MiscJson

/-! ## Token-level lemmas about `getsym`

The round-trip proof works token by token: each lemma states what `getsym`
produces on input beginning with one serialized token.  Serialized compact
output contains no whitespace or comments between tokens, so only the
dispatch path of `getsym` is exercised. -/

/-- What follows a serialized value inside a compact document: nothing, or a
separator `,`, `]`, `}`. -/
def stopOk (rest : List Nat) : Prop :=
  rest = [] ∨ ∃ c t, rest = c :: t ∧ (c = 44 ∨ c = 93 ∨ c = 125)

/-- The symbol the lexer yields at a separator position. -/
def sepSym : List Nat → Int
  | [] => P_END
  | c :: _ => (c : Int)

theorem getsymAux_succ (f : Nat) (pc : PC) :
    getsymAux (f+1) pc =
      if pc.inp = [] then { pc with sym := P_END }
      else
        let p := skipSpace pc.inp pc.lineno
        if p.1.getD 0 0 = 47 && p.1.getD 1 0 = 47 then
          getsymAux f { pc with inp := skipLine (p.1.drop 2), lineno := p.2 }
        else if p.1.getD 0 0 = 47 && p.1.getD 1 0 = 42 then
          match skipBlock (p.1.drop 2) p.2 with
          | .eof ln2 =>
            { pc with
              inp := []
              lineno := ln2
              sym := P_ERROR
              buf := (ascii "unexpected end of file").take 63 }
          | .done inp2 ln2 => getsymAux f { pc with inp := inp2, lineno := ln2 }
        else lexDispatch { pc with inp := p.1, lineno := p.2, buf := [] } := by
  conv_lhs => rw [getsymAux]

theorem skipSpace_nospace {c : Nat} {t : List Nat} (h : isspace c = false) (ln : Nat) :
    skipSpace (c :: t) ln = (c :: t, ln) := by
  unfold skipSpace
  rw [h]
  simp

theorem getsym_end {pc : PC} (h : pc.inp = []) : getsym pc = { pc with sym := P_END } := by
  unfold getsym
  rw [h]
  simp only [List.length_nil]
  rw [getsymAux_succ, if_pos h, h]

theorem getsym_dispatch {pc : PC} {c : Nat} {t : List Nat} (h : pc.inp = c :: t)
    (hns : isspace c = false) (hnc : c ≠ 47) :
    getsym pc = lexDispatch { pc with buf := [] } := by
  unfold getsym
  rw [h, List.length_cons, getsymAux_succ, if_neg (by rw [h]; simp)]
  simp only [h, skipSpace_nospace hns]
  rw [if_neg (by simp [hnc]), if_neg (by simp [hnc])]

/-- A punctuation byte lexes to itself as the symbol, consuming one byte and
clearing the buffer. -/
theorem getsym_punct {c : Nat} (hc : c = 123 ∨ c = 125 ∨ c = 91 ∨ c = 93 ∨ c = 58 ∨ c = 44)
    (t : List Nat) (s0 : Int) (ln : Nat) (b : List Nat) (errs : List (List Nat)) :
    getsym ⟨c :: t, s0, ln, b, errs⟩ = ⟨t, (c : Int), ln, [], errs⟩ := by
  have hns : isspace c = false := by rcases hc with h | h | h | h | h | h <;> subst h <;> rfl
  have hnc : c ≠ 47 := by rcases hc with h | h | h | h | h | h <;> subst h <;> decide
  rw [getsym_dispatch rfl hns hnc]
  rcases hc with h | h | h | h | h | h <;> subst h <;> rfl

/-- A separator position lexes to `sepSym` (also covering end of input,
where the buffer is left alone). -/
theorem getsym_sep {rest : List Nat} (hs : stopOk rest) (s0 : Int) (ln : Nat)
    (b : List Nat) (errs : List (List Nat)) :
    ∃ b2, getsym ⟨rest, s0, ln, b, errs⟩ = ⟨rest.drop 1, sepSym rest, ln, b2, errs⟩ := by
  rcases hs with hnil | ⟨c, t, hct, hc⟩
  · subst hnil
    exact ⟨b, getsym_end rfl⟩
  · subst hct
    refine ⟨[], ?_⟩
    rw [getsym_punct (by omega) t s0 ln b errs]
    rfl

end MiscJson

namespace MiscJson

theorem takeAlpha_append {run : List Nat} (hrun : ∀ c ∈ run, isalpha c = true) :
    ∀ {rest : List Nat}, isalpha (rest.getD 0 0) = false →
      takeAlpha (run ++ rest) = (run, rest) := by
  induction run with
  | nil =>
    intro rest hrest
    rw [List.nil_append]
    cases rest with
    | nil => rfl
    | cons r t =>
      rw [List.getD_cons_zero] at hrest
      unfold takeAlpha
      rw [hrest]
      simp
  | cons c cs ih =>
    intro rest hrest
    have hc : isalpha c = true := hrun c (List.mem_cons_self c cs)
    rw [List.cons_append]
    unfold takeAlpha
    rw [hc]
    simp only [if_true]
    rw [ih (fun x hx => hrun x (List.mem_cons_of_mem c hx)) hrest]

/-- Keyword tokens: `true`, `false`, `null` followed by a non-alphabetic
byte lex to their symbols with the keyword in the buffer. -/
theorem getsym_kw_true {rest : List Nat} (hrest : isalpha (rest.getD 0 0) = false)
    (s0 : Int) (ln : Nat) (b : List Nat) (errs : List (List Nat)) :
    getsym ⟨ascii "true" ++ rest, s0, ln, b, errs⟩ = ⟨rest, P_TRUE, ln, ascii "true", errs⟩ := by
  rw [getsym_dispatch (show (ascii "true" ++ rest : List Nat) = 116 :: (ascii "rue" ++ rest) from rfl) (by decide) (by decide)]
  unfold lexDispatch
  simp only
  rw [if_pos (show isalpha ((ascii "true" ++ rest : List Nat).getD 0 0) = true from rfl)]
  rw [takeAlpha_append (by decide) hrest]
  rw [if_neg (show ¬ (ascii "true" = ascii "null") from by decide)]
  rw [if_pos rfl]

theorem getsym_kw_false {rest : List Nat} (hrest : isalpha (rest.getD 0 0) = false)
    (s0 : Int) (ln : Nat) (b : List Nat) (errs : List (List Nat)) :
    getsym ⟨ascii "false" ++ rest, s0, ln, b, errs⟩ = ⟨rest, P_FALSE, ln, ascii "false", errs⟩ := by
  rw [getsym_dispatch (show (ascii "false" ++ rest : List Nat) = 102 :: (ascii "alse" ++ rest) from rfl) (by decide) (by decide)]
  unfold lexDispatch
  simp only
  rw [if_pos (show isalpha ((ascii "false" ++ rest : List Nat).getD 0 0) = true from rfl)]
  rw [takeAlpha_append (by decide) hrest]
  rw [if_neg (show ¬ (ascii "false" = ascii "null") from by decide)]
  rw [if_neg (show ¬ (ascii "false" = ascii "true") from by decide)]
  rw [if_pos rfl]

theorem getsym_kw_null {rest : List Nat} (hrest : isalpha (rest.getD 0 0) = false)
    (s0 : Int) (ln : Nat) (b : List Nat) (errs : List (List Nat)) :
    getsym ⟨ascii "null" ++ rest, s0, ln, b, errs⟩ = ⟨rest, P_NULL, ln, ascii "null", errs⟩ := by
  rw [getsym_dispatch (show (ascii "null" ++ rest : List Nat) = 110 :: (ascii "ull" ++ rest) from rfl) (by decide) (by decide)]
  unfold lexDispatch
  simp only
  rw [if_pos (show isalpha ((ascii "null" ++ rest : List Nat).getD 0 0) = true from rfl)]
  rw [takeAlpha_append (by decide) hrest]
  rw [if_pos rfl]

end MiscJson

namespace MiscJson

theorem lexStr_quote (f : Nat) (inp buf : List Nat) :
    lexStr (f+1) (34 :: inp) buf = StrRes.ok buf inp := rfl

theorem lexStr_e34 (f : Nat) (inp buf : List Nat) :
    lexStr (f+1) (92 :: 34 :: inp) buf = lexStr f inp (buf ++ [34]) := rfl

theorem lexStr_e92 (f : Nat) (inp buf : List Nat) :
    lexStr (f+1) (92 :: 92 :: inp) buf = lexStr f inp (buf ++ [92]) := rfl

theorem lexStr_e47 (f : Nat) (inp buf : List Nat) :
    lexStr (f+1) (92 :: 47 :: inp) buf = lexStr f inp (buf ++ [47]) := rfl

theorem lexStr_e98 (f : Nat) (inp buf : List Nat) :
    lexStr (f+1) (92 :: 98 :: inp) buf = lexStr f inp (buf ++ [8]) := rfl

theorem lexStr_e102 (f : Nat) (inp buf : List Nat) :
    lexStr (f+1) (92 :: 102 :: inp) buf = lexStr f inp (buf ++ [12]) := rfl

theorem lexStr_e110 (f : Nat) (inp buf : List Nat) :
    lexStr (f+1) (92 :: 110 :: inp) buf = lexStr f inp (buf ++ [10]) := rfl

theorem lexStr_e114 (f : Nat) (inp buf : List Nat) :
    lexStr (f+1) (92 :: 114 :: inp) buf = lexStr f inp (buf ++ [13]) := rfl

theorem lexStr_e116 (f : Nat) (inp buf : List Nat) :
    lexStr (f+1) (92 :: 116 :: inp) buf = lexStr f inp (buf ++ [9]) := rfl

theorem lexStr_char {c : Nat} (h34 : c ≠ 34) (h10 : c ≠ 10) (h92 : c ≠ 92)
    (f : Nat) (inp buf : List Nat) :
    lexStr (f+1) (c :: inp) buf = lexStr f inp (buf ++ [c]) := by
  rw [lexStr.eq_def]
  simp only
  rw [if_neg h34, if_neg h10, if_neg h92]

/-- Each byte of a string contributes at least one byte to its escaped form. -/
theorem ssb_length (s : List Nat) : s.length ≤ (serialize_string_body s).length := by
  induction s with
  | nil => simp [serialize_string_body]
  | cons c cs ih =>
    rw [serialize_string_body, List.length_append, List.length_cons]
    have h1 : 1 ≤ (if strchrB [34, 92, 47, 8, 12, 10, 13, 9] c = true then
        92 ::
          (if c = 34 then [34]
           else if c = 92 then [92]
           else if c = 47 then [47]
           else if c = 8 then [98]
           else if c = 12 then [102]
           else if c = 10 then [110]
           else if c = 13 then [114]
           else if c = 9 then [116]
           else [])
       else [c]).length := by
      split
      · simp
      · simp
    omega

/-- The string lexer undoes the serializer's escaping: reading the escaped
body followed by the closing quote appends the original bytes to the buffer
and stops at the quote. -/
theorem lexStr_body : ∀ (s : List Nat), strOk s = true →
    ∀ (buf rest : List Nat) (fuel : Nat), s.length + 1 ≤ fuel →
      lexStr fuel (serialize_string_body s ++ 34 :: rest) buf = StrRes.ok (buf ++ s) rest := by
  intro s
  induction s with
  | nil =>
    intro _ buf rest fuel hf
    obtain ⟨f, rfl⟩ : ∃ f, fuel = f + 1 := ⟨fuel - 1, by omega⟩
    rw [show serialize_string_body ([] : List Nat) ++ 34 :: rest = 34 :: rest from rfl]
    rw [lexStr_quote, List.append_nil]
  | cons c cs ih =>
    intro hs buf rest fuel hf
    have hc : (1 ≤ c && c ≤ 255) = true := by
      have := hs
      unfold strOk at this
      rw [List.all_cons, Bool.and_eq_true] at this
      exact this.1
    have hc1 : 1 ≤ c := by
      rw [Bool.and_eq_true, decide_eq_true_eq, decide_eq_true_eq] at hc
      exact hc.1
    have hcs : strOk cs = true := by
      have := hs
      unfold strOk at this
      rw [List.all_cons, Bool.and_eq_true] at this
      exact this.2
    obtain ⟨f, rfl⟩ : ∃ f, fuel = f + 1 := ⟨fuel - 1, by omega⟩
    have hff : cs.length + 1 ≤ f := by
      rw [List.length_cons] at hf
      omega
    by_cases hmem : c = 34 ∨ c = 92 ∨ c = 47 ∨ c = 8 ∨ c = 12 ∨ c = 10 ∨ c = 13 ∨ c = 9
    · rcases hmem with rfl | rfl | rfl | rfl | rfl | rfl | rfl | rfl
      · rw [show serialize_string_body (34 :: cs) ++ 34 :: rest
              = 92 :: 34 :: (serialize_string_body cs ++ 34 :: rest) from rfl,
            lexStr_e34, ih hcs (buf ++ [34]) rest f hff, List.append_assoc, List.singleton_append]
      · rw [show serialize_string_body (92 :: cs) ++ 34 :: rest
              = 92 :: 92 :: (serialize_string_body cs ++ 34 :: rest) from rfl,
            lexStr_e92, ih hcs (buf ++ [92]) rest f hff, List.append_assoc, List.singleton_append]
      · rw [show serialize_string_body (47 :: cs) ++ 34 :: rest
              = 92 :: 47 :: (serialize_string_body cs ++ 34 :: rest) from rfl,
            lexStr_e47, ih hcs (buf ++ [47]) rest f hff, List.append_assoc, List.singleton_append]
      · rw [show serialize_string_body (8 :: cs) ++ 34 :: rest
              = 92 :: 98 :: (serialize_string_body cs ++ 34 :: rest) from rfl,
            lexStr_e98, ih hcs (buf ++ [8]) rest f hff, List.append_assoc, List.singleton_append]
      · rw [show serialize_string_body (12 :: cs) ++ 34 :: rest
              = 92 :: 102 :: (serialize_string_body cs ++ 34 :: rest) from rfl,
            lexStr_e102, ih hcs (buf ++ [12]) rest f hff, List.append_assoc, List.singleton_append]
      · rw [show serialize_string_body (10 :: cs) ++ 34 :: rest
              = 92 :: 110 :: (serialize_string_body cs ++ 34 :: rest) from rfl,
            lexStr_e110, ih hcs (buf ++ [10]) rest f hff, List.append_assoc, List.singleton_append]
      · rw [show serialize_string_body (13 :: cs) ++ 34 :: rest
              = 92 :: 114 :: (serialize_string_body cs ++ 34 :: rest) from rfl,
            lexStr_e114, ih hcs (buf ++ [13]) rest f hff, List.append_assoc, List.singleton_append]
      · rw [show serialize_string_body (9 :: cs) ++ 34 :: rest
              = 92 :: 116 :: (serialize_string_body cs ++ 34 :: rest) from rfl,
            lexStr_e116, ih hcs (buf ++ [9]) rest f hff, List.append_assoc, List.singleton_append]
    · push_neg at hmem
      obtain ⟨h34, h92, h47, h8, h12, h10, h13, h9⟩ := hmem
      have hescF : strchrB [34, 92, 47, 8, 12, 10, 13, 9] c = false := by
        simp [strchrB]
        omega
      rw [serialize_string_body, hescF]
      rw [if_neg (by decide : ¬ (false = true)), List.singleton_append, List.cons_append]
      rw [lexStr_char h34 h10 h92, ih hcs (buf ++ [c]) rest f hff, List.append_assoc, List.singleton_append]

/-- Dispatch on an opening quote runs the string-literal loop. -/
theorem lexDispatch_quote {inp2 : List Nat} (pc : PC) (h : pc.inp = 34 :: inp2) :
    lexDispatch pc =
      match lexStr pc.inp.length inp2 [] with
      | .ok buf rest => { pc with inp := rest, buf := buf, sym := P_STRING }
      | .err msg rest => { pc with inp := rest, buf := msg, sym := P_ERROR } := by
  unfold lexDispatch
  rw [h]
  simp only [List.getD_cons_zero, List.drop_succ_cons, List.drop_zero]
  rw [if_neg (show ¬ isalpha 34 = true from by decide)]
  rw [if_neg (show ¬ (isdigit 34 || decide (34 = 45)) = true from by decide)]
  rw [if_pos True.intro]

/-- A serialized string followed by anything lexes to one String token
carrying exactly the original bytes. -/
theorem getsym_string {s : List Nat} (hs : strOk s = true) (rest : List Nat)
    (s0 : Int) (ln : Nat) (b : List Nat) (errs : List (List Nat)) :
    getsym ⟨serialize_string s ++ rest, s0, ln, b, errs⟩ = ⟨rest, P_STRING, ln, s, errs⟩ := by
  rw [getsym_dispatch (show (serialize_string s ++ rest : List Nat)
        = 34 :: ((serialize_string_body s ++ [34]) ++ rest) from rfl)
      (by decide) (by decide)]
  rw [lexDispatch_quote _ (show _ = 34 :: ((serialize_string_body s ++ [34]) ++ rest) from rfl)]
  rw [List.append_assoc, List.singleton_append]
  rw [lexStr_body s hs [] rest _ (by
    show s.length + 1 ≤ (serialize_string s ++ rest).length
    have := ssb_length s
    simp [serialize_string]
    omega)]
  rfl

end MiscJson

namespace MiscJson

theorem isalpha_stop {rest : List Nat} (hs : stopOk rest) :
    isalpha (rest.getD 0 0) = false := by
  rcases hs with rfl | ⟨c, t, rfl, hc | hc | hc⟩ <;> subst_vars <;> rfl

theorem sepSym_ne_err {rest : List Nat} (hs : stopOk rest) : sepSym rest ≠ P_ERROR := by
  rcases hs with rfl | ⟨c, t, rfl, hc | hc | hc⟩ <;> subst_vars <;> simp [sepSym, P_ERROR, P_END]

theorem digit_class {c : Nat} (h : isdigit c = true) :
    isalpha c = false ∧ isspace c = false ∧ c ≠ 47 ∧ c ≠ 45 ∧ c ≠ 46 ∧ c ≠ 0
      ∧ tolower c ≠ 101 ∧ c ≠ 34 ∧ c ≠ 92 ∧ c ≠ 101 := by
  unfold isdigit at h
  rw [Bool.and_eq_true, decide_eq_true_eq, decide_eq_true_eq] at h
  unfold isalpha isspace tolower
  constructor
  · simp only [Bool.or_eq_false_iff, Bool.and_eq_false_iff]
    constructor
    · left; simp only [decide_eq_false_iff_not]; omega
    · left; simp only [decide_eq_false_iff_not]; omega
  refine ⟨?_, by omega, by omega, by omega, by omega, ?_, by omega, by omega, by omega⟩
  · simp only [Bool.or_eq_false_iff, Bool.and_eq_false_iff]
    constructor
    · simp only [decide_eq_false_iff_not]; omega
    · right; simp only [decide_eq_false_iff_not]; omega
  · split
    · rename_i hcond
      rw [Bool.and_eq_true, decide_eq_true_eq, decide_eq_true_eq] at hcond
      omega
    · omega

theorem jdepthList_mem {u : JValue} : ∀ {vs : List JValue}, u ∈ vs →
    jdepth u ≤ jdepthList vs := by
  intro vs
  induction vs with
  | nil => intro h; cases h
  | cons v vs ih =>
    intro h
    rw [jdepthList]
    rcases List.mem_cons.mp h with rfl | hm
    · exact le_max_left _ _
    · exact le_trans (ih hm) (le_max_right _ _)

theorem wfList_mem {u : JValue} : ∀ {vs : List JValue}, wfList vs = true → u ∈ vs →
    wfB u = true := by
  intro vs
  induction vs with
  | nil => intro _ h; cases h
  | cons v vs ih =>
    intro hwf h
    rw [wfList, Bool.and_eq_true] at hwf
    rcases List.mem_cons.mp h with rfl | hm
    · exact hwf.1
    · exact ih hwf.2 hm

theorem goodNumsList_mem {u : JValue} : ∀ {vs : List JValue}, goodNumsList vs = true →
    u ∈ vs → goodNums u = true := by
  intro vs
  induction vs with
  | nil => intro _ h; cases h
  | cons v vs ih =>
    intro hg h
    rw [goodNumsList, Bool.and_eq_true] at hg
    rcases List.mem_cons.mp h with rfl | hm
    · exact hg.1
    · exact ih hg.2 hm

theorem entriesList_cons_none (ss : Slots) : entriesList (none :: ss) = entriesList ss := rfl

theorem entriesList_cons_some (p : List Nat × JValue) (ss : Slots) :
    entriesList (some p :: ss) = p :: entriesList ss := rfl

theorem jdepthSlots_mem {k : List Nat} {v : JValue} : ∀ {slots : Slots},
    (k, v) ∈ entriesList slots → jdepth v ≤ jdepthSlots slots := by
  intro slots
  induction slots with
  | nil => intro h; cases h
  | cons s ss ih =>
    intro h
    cases s with
    | none =>
      rw [entriesList_cons_none] at h
      rw [jdepthSlots]
      exact ih h
    | some p =>
      rw [entriesList_cons_some] at h
      obtain ⟨k1, v1⟩ := p
      rw [jdepthSlots]
      rcases List.mem_cons.mp h with heq | hm
      · injection heq with h1 h2
        subst h2
        exact le_max_left _ _
      · exact le_trans (ih hm) (le_max_right _ _)

theorem wfSlots_mem {k : List Nat} {v : JValue} : ∀ {slots : Slots}, wfSlots slots = true →
    (k, v) ∈ entriesList slots → strOk k = true ∧ k ≠ [] ∧ wfB v = true := by
  intro slots
  induction slots with
  | nil => intro _ h; cases h
  | cons s ss ih =>
    intro hwf h
    cases s with
    | none =>
      rw [entriesList_cons_none] at h
      rw [wfSlots] at hwf
      exact ih hwf h
    | some p =>
      rw [entriesList_cons_some] at h
      obtain ⟨k1, v1⟩ := p
      rw [wfSlots, Bool.and_eq_true, Bool.and_eq_true, Bool.and_eq_true] at hwf
      rcases List.mem_cons.mp h with heq | hm
      · injection heq with h1 h2
        subst h1
        subst h2
        exact ⟨hwf.1.1.1, by simpa using hwf.1.1.2, hwf.1.2⟩
      · exact ih hwf.2 hm

theorem goodNumsSlots_mem {k : List Nat} {v : JValue} : ∀ {slots : Slots},
    goodNumsSlots slots = true → (k, v) ∈ entriesList slots → goodNums v = true := by
  intro slots
  induction slots with
  | nil => intro _ h; cases h
  | cons s ss ih =>
    intro hg h
    cases s with
    | none =>
      rw [entriesList_cons_none] at h
      rw [goodNumsSlots] at hg
      exact ih hg h
    | some p =>
      rw [entriesList_cons_some] at h
      obtain ⟨k1, v1⟩ := p
      rw [goodNumsSlots, Bool.and_eq_true] at hg
      rcases List.mem_cons.mp h with heq | hm
      · injection heq with h1 h2
        subst h2
        exact hg.1
      · exact ih hg.2 hm

theorem sepJoin_len {x : List Nat} : ∀ {items : List (List Nat)}, x ∈ items →
    x.length ≤ (sepJoin false items).length := by
  intro items
  induction items with
  | nil => intro h; cases h
  | cons a items ih =>
    intro h
    cases items with
    | nil =>
      rcases List.mem_cons.mp h with rfl | hm
      · rw [sepJoin]
        simp
      · cases hm
    | cons b items2 =>
      rw [sepJoin]
      rcases List.mem_cons.mp h with rfl | hm
      · simp
      · have := ih hm
        simp only [List.length_append]
        omega

theorem cstr_eq {s : List Nat} (h : ∀ c ∈ s, c ≠ 0) : cstr s = s := by
  unfold cstr
  induction s with
  | nil => rfl
  | cons c cs ih =>
    rw [List.takeWhile_cons, decide_eq_true (h c (List.mem_cons_self c cs))]
    rw [ih (fun x hx => h x (List.mem_cons_of_mem c hx))]
    rw [if_pos rfl]

theorem cstr_strOk {s : List Nat} (h : strOk s = true) : cstr s = s := by
  apply cstr_eq
  intro c hc
  unfold strOk at h
  rw [List.all_eq_true] at h
  have := h c hc
  rw [Bool.and_eq_true, decide_eq_true_eq, decide_eq_true_eq] at this
  omega

theorem decValEq_symm (m1 e1 m2 e2 : Int) :
    decValEq m1 e1 m2 e2 = decValEq m2 e2 m1 e1 := by
  unfold decValEq
  by_cases h12 : e1 ≥ e2
  · by_cases h21 : e2 ≥ e1
    · have he : e1 = e2 := le_antisymm h21 h12
      subst he
      rw [if_pos h12, if_pos h12]
      simp only [sub_self, Int.toNat_zero, pow_zero, mul_one]
      exact decide_eq_decide.mpr eq_comm
    · rw [if_pos h12, if_neg h21]
      exact decide_eq_decide.mpr eq_comm
  · have h21 : e2 ≥ e1 := le_of_not_le h12
    rw [if_neg h12, if_pos h21]
    exact decide_eq_decide.mpr eq_comm

theorem dvalEq_symm (a b : DVal) : dvalEq a b = dvalEq b a := by
  cases a <;> cases b <;> first
    | rfl
    | exact decValEq_symm _ _ _ _

theorem ht_get_fresh (k : List Nat) : ht_get (List.replicate 8 none) k = none := by
  unfold ht_get
  cases hfe : find_entry (List.replicate 8 none) k with
  | none => rfl
  | some f =>
    simp only
    rw [getD_replicate_none]

/-- Folding `ht_put` with pairwise-distinct absent keys over a well-formed
table: the invariant is kept and the entries are exactly the old ones plus
the new pairs. -/
theorem putList_fresh_entries : ∀ (ops : List (List Nat × JValue)) (slots : Slots) (count : Nat),
    HTWF slots count →
    (∀ p ∈ ops, ht_get slots p.1 = none) →
    (ops.map Prod.fst).Nodup →
    HTWF (putList ops (slots, count)).1 (putList ops (slots, count)).2 ∧
      List.Perm (entriesList (putList ops (slots, count)).1) (ops ++ entriesList slots) := by
  intro ops
  induction ops with
  | nil =>
    intro slots count hw _ _
    exact ⟨hw, List.Perm.refl _⟩
  | cons p rest ih =>
    intro slots count hw habs hnd
    obtain ⟨hw2, _, _, hperm2, _, hgo⟩ := ht_put_new_spec hw (habs p (List.mem_cons_self p rest)) p.2
    rw [List.map_cons, List.nodup_cons] at hnd
    have habs2 : ∀ q ∈ rest, ht_get (ht_put slots count p.1 p.2).1 q.1 = none := by
      intro q hq
      have hne : q.1 ≠ p.1 := by
        intro he
        exact hnd.1 (he ▸ List.mem_map_of_mem Prod.fst hq)
      rw [hgo q.1 hne]
      exact habs q (List.mem_cons_of_mem p hq)
    obtain ⟨hwF, hpermF⟩ := ih _ _ hw2 habs2 hnd.2
    have hstep : putList (p :: rest) (slots, count)
        = putList rest ((ht_put slots count p.1 p.2).1, (ht_put slots count p.1 p.2).2.1) := rfl
    rw [hstep]
    refine ⟨hwF, ?_⟩
    refine hpermF.trans ?_
    refine ((List.Perm.append_left rest hperm2).trans ?_)
    rw [show (p :: rest) ++ entriesList slots = p :: (rest ++ entriesList slots) from rfl]
    exact List.perm_middle

theorem accept_hit {pc : PC} {s : Int} (h : pc.sym = s) (hne : (getsym pc).sym ≠ P_ERROR) :
    accept pc s = (true, getsym pc) := by
  unfold accept
  rw [if_pos h, if_neg hne]

theorem accept_miss {pc : PC} {s : Int} (h : pc.sym ≠ s) : accept pc s = (false, pc) := by
  unfold accept
  rw [if_neg h]

end MiscJson

namespace MiscJson

theorem stopOk_not_digit {rest : List Nat} (hs : stopOk rest) :
    isdigit (rest.getD 0 0) = false := by
  rcases hs with rfl | ⟨c, t, rfl, hc | hc | hc⟩ <;> subst_vars <;> rfl

theorem digit_mod (n : Nat) : isdigit (n % 10 + 48) = true := by
  unfold isdigit
  rw [Bool.and_eq_true, decide_eq_true_eq, decide_eq_true_eq]
  omega

theorem sixDigits_all {M : Nat} : ∀ c ∈ sixDigits M, isdigit c = true := by
  intro c hc
  unfold sixDigits at hc
  simp only [List.mem_cons, List.not_mem_nil, or_false] at hc
  rcases hc with rfl | rfl | rfl | rfl | rfl | rfl <;> exact digit_mod _

theorem stripZeros_subset {l : List Nat} : ∀ c ∈ stripZeros l, c ∈ l := by
  intro c hc
  unfold stripZeros at hc
  rw [List.mem_reverse] at hc
  have := (List.dropWhile_sublist (l := l.reverse) (p := fun c => decide (c = 48))).subset hc
  rw [List.mem_reverse] at this
  exact this

theorem natDigsAux_all : ∀ (f n : Nat) {acc : List Nat}, (∀ c ∈ acc, isdigit c = true) →
    ∀ c ∈ natDigsAux f n acc, isdigit c = true := by
  intro f
  induction f with
  | zero =>
    intro n acc hacc c hc
    rw [natDigsAux] at hc
    rcases List.mem_cons.mp hc with rfl | hm
    · exact digit_mod n
    · exact hacc c hm
  | succ f ih =>
    intro n acc hacc c hc
    rw [natDigsAux] at hc
    by_cases hlt : n < 10
    · rw [if_pos hlt] at hc
      rcases List.mem_cons.mp hc with rfl | hm
      · unfold isdigit
        rw [Bool.and_eq_true, decide_eq_true_eq, decide_eq_true_eq]
        omega
      · exact hacc c hm
    · rw [if_neg hlt] at hc
      refine ih (n / 10) ?_ c hc
      intro x hx
      rcases List.mem_cons.mp hx with rfl | hm
      · exact digit_mod n
      · exact hacc x hm

theorem natDigsAux_ne_nil : ∀ (f n : Nat) (acc : List Nat), natDigsAux f n acc ≠ [] := by
  intro f
  induction f with
  | zero => intro n acc h; rw [natDigsAux] at h; cases h
  | succ f ih =>
    intro n acc h
    rw [natDigsAux] at h
    by_cases hlt : n < 10
    · rw [if_pos hlt] at h; cases h
    · rw [if_neg hlt] at h
      exact ih _ _ h

theorem expDigits_all {n : Nat} : ∀ c ∈ expDigits n, isdigit c = true := by
  intro c hc
  unfold expDigits at hc
  by_cases hlt : n < 10
  · rw [if_pos hlt] at hc
    simp only [List.mem_cons, List.not_mem_nil, or_false] at hc
    rcases hc with rfl | rfl
    · rfl
    · unfold isdigit
      rw [Bool.and_eq_true, decide_eq_true_eq, decide_eq_true_eq]
      omega
  · rw [if_neg hlt] at hc
    exact natDigsAux_all n n (by intro x hx; cases hx) c hc

theorem expDigits_ne_nil (n : Nat) : expDigits n ≠ [] := by
  unfold expDigits
  by_cases hlt : n < 10
  · rw [if_pos hlt]; intro h; cases h
  · rw [if_neg hlt]
    exact natDigsAux_ne_nil n n []

/-- Shape of a `%g` token: optional minus, a digit run, an optional dotted
fraction, an optional signed two-plus-digit exponent. -/
def numShape (sgn ids frac ex : List Nat) : Prop :=
  (sgn = [] ∨ sgn = [45]) ∧ ids ≠ [] ∧ (∀ c ∈ ids, isdigit c = true) ∧
    (frac = [] ∨ ∃ fds, frac = 46 :: fds ∧ ∀ c ∈ fds, isdigit c = true) ∧
    (ex = [] ∨ ∃ sg eds, ex = 101 :: sg :: eds ∧ (sg = 43 ∨ sg = 45)
      ∧ ∀ c ∈ eds, isdigit c = true)

theorem digits_48 : ∀ c ∈ [(48 : Nat)], isdigit c = true := by
  intro c hc
  simp only [List.mem_singleton] at hc
  subst hc
  rfl

theorem gBody_shape (M : Nat) (X : Int) : ∃ ids frac ex,
    gBody M X = ids ++ (frac ++ ex) ∧ numShape [] ids frac ex := by
  unfold gBody
  dsimp only
  by_cases h1 : 0 ≤ X ∧ X < 6
  · rw [if_pos h1]
    have hfracOk : (if stripZeros ((sixDigits M).drop (X.toNat + 1)) = [] then ([] : List Nat)
        else 46 :: stripZeros ((sixDigits M).drop (X.toNat + 1))) = [] ∨
        ∃ fds, (if stripZeros ((sixDigits M).drop (X.toNat + 1)) = [] then ([] : List Nat)
          else 46 :: stripZeros ((sixDigits M).drop (X.toNat + 1))) = 46 :: fds
          ∧ ∀ c ∈ fds, isdigit c = true := by
      by_cases hfp : stripZeros ((sixDigits M).drop (X.toNat + 1)) = []
      · rw [if_pos hfp]; exact Or.inl rfl
      · rw [if_neg hfp]
        refine Or.inr ⟨_, rfl, ?_⟩
        intro c hc
        exact sixDigits_all c (List.drop_subset _ _ (stripZeros_subset _ hc))
    refine ⟨(sixDigits M).take (X.toNat + 1),
      (if stripZeros ((sixDigits M).drop (X.toNat + 1)) = [] then ([] : List Nat)
       else 46 :: stripZeros ((sixDigits M).drop (X.toNat + 1))), [],
      by rw [List.append_nil], ?_⟩
    refine ⟨Or.inl rfl, ?_, ?_, hfracOk, Or.inl rfl⟩
    · intro h
      rw [List.take_eq_nil_iff] at h
      rcases h with h | h
      · cases h
      · cases h
    · intro c hc
      exact sixDigits_all c (List.take_subset _ _ hc)
  · rw [if_neg h1]
    by_cases h2 : -4 ≤ X ∧ X < 0
    · rw [if_pos h2]
      refine ⟨[48], 46 :: (List.replicate (X.natAbs - 1) 48 ++ stripZeros (sixDigits M)),
        [], by rw [List.append_nil]; rfl, ?_⟩
      refine ⟨Or.inl rfl, ?_, digits_48, Or.inr ⟨_, rfl, ?_⟩, Or.inl rfl⟩
      · intro h; cases h
      intro c hc
      rcases List.mem_append.mp hc with h | h
      · rw [List.eq_of_mem_replicate h]
        rfl
      · exact sixDigits_all c (stripZeros_subset _ h)
    · rw [if_neg h2]
      have hfracOk : (if stripZeros ((sixDigits M).drop 1) = [] then ([] : List Nat)
          else 46 :: stripZeros ((sixDigits M).drop 1)) = [] ∨
          ∃ fds, (if stripZeros ((sixDigits M).drop 1) = [] then ([] : List Nat)
            else 46 :: stripZeros ((sixDigits M).drop 1)) = 46 :: fds
            ∧ ∀ c ∈ fds, isdigit c = true := by
        by_cases hfp : stripZeros ((sixDigits M).drop 1) = []
        · rw [if_pos hfp]; exact Or.inl rfl
        · rw [if_neg hfp]
          refine Or.inr ⟨_, rfl, ?_⟩
          intro c hc
          exact sixDigits_all c (List.drop_subset _ _ (stripZeros_subset _ hc))
      refine ⟨(sixDigits M).take 1,
        (if stripZeros ((sixDigits M).drop 1) = [] then ([] : List Nat)
         else 46 :: stripZeros ((sixDigits M).drop 1)),
        101 :: (if X < 0 then 45 else 43) :: expDigits X.natAbs, ?_, ?_⟩
      · simp only [List.append_assoc, List.cons_append, List.nil_append]
        by_cases hx : X < 0 <;> simp [hx]
      · refine ⟨Or.inl rfl, by simp [sixDigits], ?_, hfracOk, ?_⟩
        · intro c hc
          exact sixDigits_all c (List.take_subset _ _ hc)
        · refine Or.inr ⟨_, _, rfl, ?_, fun c hc => expDigits_all c hc⟩
          by_cases hx : X < 0
          · rw [if_pos hx]; exact Or.inr rfl
          · rw [if_neg hx]; exact Or.inl rfl

theorem fmt_g_numTok (m e : Int) : ∃ sgn ids frac ex,
    fmt_g m e = sgn ++ (ids ++ (frac ++ ex)) ∧ numShape sgn ids frac ex := by
  unfold fmt_g
  by_cases hm : m = 0
  · rw [if_pos hm]
    refine ⟨[], [48], [], [], rfl, Or.inl rfl, ?_, digits_48, Or.inl rfl, Or.inl rfl⟩
    intro h; cases h
  · rw [if_neg hm]
    dsimp only
    by_cases hM : (if (natDigits m.natAbs).length ≤ 6 then
        m.natAbs * 10 ^ (6 - (natDigits m.natAbs).length)
      else roundHalfEven m.natAbs (10 ^ ((natDigits m.natAbs).length - 6))) = 10 ^ 6
    · rw [if_pos hM]
      obtain ⟨ids, frac, ex, heq, hsh⟩ := gBody_shape (10 ^ 5)
        (((natDigits m.natAbs).length : Int) - 1 + e + 1)
      by_cases hneg : m < 0
      · rw [if_pos hneg]
        exact ⟨[45], ids, frac, ex, by rw [heq], Or.inr rfl, hsh.2.1, hsh.2.2.1,
          hsh.2.2.2.1, hsh.2.2.2.2⟩
      · rw [if_neg hneg]
        exact ⟨[], ids, frac, ex, by rw [heq], Or.inl rfl, hsh.2.1, hsh.2.2.1,
          hsh.2.2.2.1, hsh.2.2.2.2⟩
    · rw [if_neg hM]
      obtain ⟨ids, frac, ex, heq, hsh⟩ := gBody_shape _
        (((natDigits m.natAbs).length : Int) - 1 + e)
      by_cases hneg : m < 0
      · rw [if_pos hneg]
        exact ⟨[45], ids, frac, ex, by rw [heq], Or.inr rfl, hsh.2.1, hsh.2.2.1,
          hsh.2.2.2.1, hsh.2.2.2.2⟩
      · rw [if_neg hneg]
        exact ⟨[], ids, frac, ex, by rw [heq], Or.inl rfl, hsh.2.1, hsh.2.2.1,
          hsh.2.2.2.1, hsh.2.2.2.2⟩

end MiscJson

namespace MiscJson

/-- Sign stage of the number rule (first match of `lexNumber`). -/
def lexNumSign (inp : List Nat) : List Nat × List Nat :=
  match inp with | 45 :: r => ([45], r) | _ => ([], inp)

/-- Fraction stage of the number rule. -/
def lexNumFrac (s2 : List Nat) : List Nat × List Nat :=
  match s2 with
  | 46 :: r =>
    let (ds, r2) := takeDigits r
    (46 :: ds, r2)
  | _ => ([], s2)

/-- Exponent stage of the number rule. -/
def lexNumExp (s3 : List Nat) : List Nat × List Nat :=
  match s3 with
  | c :: r =>
    if tolower c = 101 then
      let c2 := r.getD 0 0
      let (sg, r2) : List Nat × List Nat :=
        if strchrB [43, 45] c2 then ([c2], r.drop 1) else ([], r)
      let (eds, r3) := takeDigits r2
      (c :: (sg ++ eds), r3)
    else ([], s3)
  | [] => ([], [])

theorem lexNumber_stages (inp : List Nat) :
    lexNumber inp =
      ((lexNumSign inp).1 ++ (takeDigits (lexNumSign inp).2).1
        ++ (lexNumFrac (takeDigits (lexNumSign inp).2).2).1
        ++ (lexNumExp (lexNumFrac (takeDigits (lexNumSign inp).2).2).2).1,
       (lexNumExp (lexNumFrac (takeDigits (lexNumSign inp).2).2).2).2) := rfl

theorem lexNumSign_45 (r : List Nat) : lexNumSign (45 :: r) = ([45], r) := rfl

theorem lexNumSign_other {c : Nat} (h : c ≠ 45) (t : List Nat) :
    lexNumSign (c :: t) = ([], c :: t) := by
  unfold lexNumSign
  split
  · rename_i heq
    injection heq with h1 h2
    exact absurd h1 h
  · rfl

theorem lexNumSign_digits {ids Y : List Nat} (hne : ids ≠ [])
    (hdig : ∀ c ∈ ids, isdigit c = true) :
    lexNumSign (ids ++ Y) = ([], ids ++ Y) := by
  obtain ⟨d, ids2, rfl⟩ := List.exists_cons_of_ne_nil hne
  rw [List.cons_append]
  exact lexNumSign_other ((digit_class (hdig d (List.mem_cons_self d ids2))).2.2.2.1) _

theorem takeDigits_append {ids : List Nat} (hdig : ∀ c ∈ ids, isdigit c = true) :
    ∀ {Y : List Nat}, isdigit (Y.getD 0 0) = false → takeDigits (ids ++ Y) = (ids, Y) := by
  induction ids with
  | nil =>
    intro Y hY
    rw [List.nil_append]
    cases Y with
    | nil => rfl
    | cons r t =>
      rw [List.getD_cons_zero] at hY
      unfold takeDigits
      rw [hY]
      simp
  | cons c cs ih =>
    intro Y hY
    have hc : isdigit c = true := hdig c (List.mem_cons_self c cs)
    rw [List.cons_append]
    unfold takeDigits
    rw [hc]
    simp only [if_true]
    rw [ih (fun x hx => hdig x (List.mem_cons_of_mem c hx)) hY]

theorem lexNumFrac_dot (r : List Nat) :
    lexNumFrac (46 :: r) = (46 :: (takeDigits r).1, (takeDigits r).2) := rfl

theorem lexNumFrac_other {c : Nat} (h : c ≠ 46) (t : List Nat) :
    lexNumFrac (c :: t) = ([], c :: t) := by
  unfold lexNumFrac
  split
  · rename_i heq
    injection heq with h1 h2
    exact absurd h1 h
  · rfl

theorem lexNumFrac_nil : lexNumFrac [] = ([], []) := rfl

theorem lexNumExp_nil : lexNumExp [] = ([], []) := rfl

theorem lexNumExp_other {c : Nat} (h : tolower c ≠ 101) (t : List Nat) :
    lexNumExp (c :: t) = ([], c :: t) := by
  unfold lexNumExp
  simp only
  rw [if_neg h]

theorem lexNumExp_e {sg : Nat} (hsg : sg = 43 ∨ sg = 45) {eds : List Nat}
    (heds : ∀ c ∈ eds, isdigit c = true) {rest : List Nat} (hrest : stopOk rest) :
    lexNumExp (101 :: sg :: (eds ++ rest)) = (101 :: sg :: eds, rest) := by
  unfold lexNumExp
  simp only
  rw [if_pos (show tolower 101 = 101 from rfl)]
  have hsgch : strchrB [43, 45] ((sg :: (eds ++ rest)).getD 0 0) = true := by
    rw [List.getD_cons_zero]
    rcases hsg with rfl | rfl <;> rfl
  rw [if_pos hsgch]
  simp only [List.getD_cons_zero, List.drop_succ_cons, List.drop_zero]
  rw [takeDigits_append heds (stopOk_not_digit hrest)]
  simp

theorem lexNumber_inv {sgn ids frac ex : List Nat} (hsh : numShape sgn ids frac ex)
    {rest : List Nat} (hrest : stopOk rest) :
    lexNumber ((sgn ++ (ids ++ (frac ++ ex))) ++ rest)
      = (sgn ++ (ids ++ (frac ++ ex)), rest) := by
  obtain ⟨hsgn, hne, hdig, hfrac, hex⟩ := hsh
  have hafter_frac : isdigit ((ex ++ rest).getD 0 0) = false := by
    rcases hex with rfl | ⟨sg, eds, rfl, _, _⟩
    · rw [List.nil_append]
      exact stopOk_not_digit hrest
    · rfl
  have hafter_ids : isdigit ((frac ++ (ex ++ rest)).getD 0 0) = false := by
    rcases hfrac with rfl | ⟨fds, rfl, _⟩
    · rw [List.nil_append]
      exact hafter_frac
    · rfl
  rw [lexNumber_stages]
  have hinp : (sgn ++ (ids ++ (frac ++ ex))) ++ rest
      = sgn ++ (ids ++ (frac ++ (ex ++ rest))) := by
    simp [List.append_assoc]
  rw [hinp]
  rcases hsgn with rfl | rfl
  · simp only [List.nil_append]
    rw [lexNumSign_digits hne hdig]
    simp only
    rw [takeDigits_append hdig hafter_ids]
    simp only
    rcases hfrac with rfl | ⟨fds, rfl, hfds⟩
    · simp only [List.nil_append]
      rcases hex with rfl | ⟨sg, eds, rfl, hsg, heds⟩
      · simp only [List.nil_append]
        rcases hrest with rfl | ⟨c, t, rfl, hc⟩
        · rw [lexNumFrac_nil]
          simp only
          rw [lexNumExp_nil]
          simp
        · have hc46 : c ≠ 46 := by rcases hc with rfl | rfl | rfl <;> decide
          have hce : tolower c ≠ 101 := by rcases hc with rfl | rfl | rfl <;> decide
          rw [lexNumFrac_other hc46]
          simp only
          rw [lexNumExp_other hce]
          simp
      · simp only [List.cons_append, List.nil_append]
        rw [lexNumFrac_other (by decide) _]
        simp only
        rw [lexNumExp_e hsg heds hrest]
        simp [List.append_assoc]
    · simp only [List.cons_append, List.nil_append]
      rw [lexNumFrac_dot]
      simp only
      rw [takeDigits_append hfds hafter_frac]
      simp only
      rcases hex with rfl | ⟨sg, eds, rfl, hsg, heds⟩
      · simp only [List.nil_append]
        rcases hrest with rfl | ⟨c, t, rfl, hc⟩
        · rw [lexNumExp_nil]
          simp [List.append_assoc]
        · have hce : tolower c ≠ 101 := by rcases hc with rfl | rfl | rfl <;> decide
          rw [lexNumExp_other hce]
          simp [List.append_assoc]
      · simp only [List.cons_append, List.nil_append]
        rw [lexNumExp_e hsg heds hrest]
        simp [List.append_assoc]
  · rw [show ([45] ++ (ids ++ (frac ++ (ex ++ rest))) : List Nat)
        = 45 :: (ids ++ (frac ++ (ex ++ rest))) from rfl]
    rw [lexNumSign_45]
    simp only
    rw [takeDigits_append hdig hafter_ids]
    simp only
    rcases hfrac with rfl | ⟨fds, rfl, hfds⟩
    · simp only [List.nil_append]
      rcases hex with rfl | ⟨sg, eds, rfl, hsg, heds⟩
      · simp only [List.nil_append]
        rcases hrest with rfl | ⟨c, t, rfl, hc⟩
        · rw [lexNumFrac_nil]
          simp only
          rw [lexNumExp_nil]
          simp
        · have hc46 : c ≠ 46 := by rcases hc with rfl | rfl | rfl <;> decide
          have hce : tolower c ≠ 101 := by rcases hc with rfl | rfl | rfl <;> decide
          rw [lexNumFrac_other hc46]
          simp only
          rw [lexNumExp_other hce]
          simp
      · simp only [List.cons_append, List.nil_append]
        rw [lexNumFrac_other (by decide) _]
        simp only
        rw [lexNumExp_e hsg heds hrest]
        simp [List.append_assoc]
    · simp only [List.cons_append, List.nil_append]
      rw [lexNumFrac_dot]
      simp only
      rw [takeDigits_append hfds hafter_frac]
      simp only
      rcases hex with rfl | ⟨sg, eds, rfl, hsg, heds⟩
      · simp only [List.nil_append]
        rcases hrest with rfl | ⟨c, t, rfl, hc⟩
        · rw [lexNumExp_nil]
          simp [List.append_assoc]
        · have hce : tolower c ≠ 101 := by rcases hc with rfl | rfl | rfl <;> decide
          rw [lexNumExp_other hce]
          simp [List.append_assoc]
      · simp only [List.cons_append, List.nil_append]
        rw [lexNumExp_e hsg heds hrest]
        simp [List.append_assoc]

end MiscJson

namespace MiscJson

theorem numShape_head {sgn ids frac ex : List Nat} (hsh : numShape sgn ids frac ex) :
    ∃ c t, sgn ++ (ids ++ (frac ++ ex)) = c :: t ∧ isalpha c = false ∧ isspace c = false
      ∧ c ≠ 47 ∧ (isdigit c || decide (c = 45)) = true := by
  obtain ⟨hsgn, hne, hdig, _, _⟩ := hsh
  rcases hsgn with rfl | rfl
  · obtain ⟨d, ids2, rfl⟩ := List.exists_cons_of_ne_nil hne
    have hd := hdig d (List.mem_cons_self d ids2)
    have hdc := digit_class hd
    refine ⟨d, ids2 ++ (frac ++ ex), by simp, hdc.1, hdc.2.1, hdc.2.2.1, ?_⟩
    rw [hd, Bool.true_or]
  · refine ⟨45, ids ++ (frac ++ ex), by simp, by decide, by decide, by decide, by decide⟩

theorem lexDispatch_num {c : Nat} {inp2 : List Nat} (pc : PC) (h : pc.inp = c :: inp2)
    (hna : isalpha c = false) (hnum : (isdigit c || decide (c = 45)) = true) :
    lexDispatch pc
      = { pc with inp := (lexNumber pc.inp).2, buf := (lexNumber pc.inp).1, sym := P_NUMBER } := by
  unfold lexDispatch
  rw [h]
  simp only [List.getD_cons_zero]
  rw [if_neg (by rw [hna]; exact Bool.false_ne_true)]
  rw [if_pos hnum]

/-- A `numShape` token followed by a stop byte lexes to one Number token
carrying exactly the token text. -/
theorem getsym_numShape {sgn ids frac ex : List Nat} (hsh : numShape sgn ids frac ex)
    {rest : List Nat} (hrest : stopOk rest) (s0 : Int) (ln : Nat) (b : List Nat)
    (errs : List (List Nat)) :
    getsym ⟨(sgn ++ (ids ++ (frac ++ ex))) ++ rest, s0, ln, b, errs⟩
      = ⟨rest, P_NUMBER, ln, sgn ++ (ids ++ (frac ++ ex)), errs⟩ := by
  obtain ⟨c, t, hct, hna, hns, hn47, hnum⟩ := numShape_head hsh
  have hinv := lexNumber_inv hsh hrest
  rw [hct, List.cons_append] at hinv
  rw [hct, List.cons_append]
  rw [getsym_dispatch (show (c :: (t ++ rest) : List Nat) = c :: (t ++ rest) from rfl) hns hn47]
  rw [lexDispatch_num _ (show _ = c :: (t ++ rest) from rfl) hna hnum]
  simp only
  rw [hinv]

/-- The text of `%g` for a finite double lexes back as one Number token. -/
theorem getsym_fmt_g (m e : Int) {rest : List Nat} (hrest : stopOk rest)
    (s0 : Int) (ln : Nat) (b : List Nat) (errs : List (List Nat)) :
    getsym ⟨fmt_g m e ++ rest, s0, ln, b, errs⟩ = ⟨rest, P_NUMBER, ln, fmt_g m e, errs⟩ := by
  obtain ⟨sgn, ids, frac, ex, heq, hsh⟩ := fmt_g_numTok m e
  rw [heq]
  exact getsym_numShape hsh hrest s0 ln b errs

/-- No byte of a `numShape` token is NUL (so `cstr` keeps the whole buffer). -/
theorem numShape_no_nul {sgn ids frac ex : List Nat} (hsh : numShape sgn ids frac ex) :
    ∀ c ∈ sgn ++ (ids ++ (frac ++ ex)), c ≠ 0 := by
  obtain ⟨hsgn, _, hdig, hfrac, hex⟩ := hsh
  intro c hc
  rcases List.mem_append.mp hc with h | h
  · rcases hsgn with rfl | rfl
    · cases h
    · rcases List.mem_cons.mp h with rfl | h
      · omega
      · cases h
  rcases List.mem_append.mp h with h | h
  · have := (digit_class (hdig c h)).2.2.2.2.2.1
    exact this
  rcases List.mem_append.mp h with h | h
  · rcases hfrac with rfl | ⟨fds, rfl, hfds⟩
    · cases h
    · rcases List.mem_cons.mp h with rfl | h
      · omega
      · exact (digit_class (hfds c h)).2.2.2.2.2.1
  · rcases hex with rfl | ⟨sg, eds, rfl, hsg, heds⟩
    · cases h
    · rcases List.mem_cons.mp h with rfl | h
      · omega
      rcases List.mem_cons.mp h with rfl | h
      · rcases hsg with rfl | rfl <;> omega
      · exact (digit_class (heds c h)).2.2.2.2.2.1

theorem cstr_fmt_g (m e : Int) : cstr (fmt_g m e) = fmt_g m e := by
  obtain ⟨sgn, ids, frac, ex, heq, hsh⟩ := fmt_g_numTok m e
  rw [heq]
  exact cstr_eq (numShape_no_nul hsh)

end MiscJson

namespace MiscJson

/-- Keys of the occupied slots at index `h` or later, in slot order. -/
def keysFrom (slots : Slots) (h : Nat) : List (List Nat) :=
  ((slots.drop h).filterMap id).map Prod.fst

theorem getD_eq_getElem {slots : Slots} {h : Nat} (hlt : h < slots.length) :
    slots.getD h none = slots[h] := by
  rw [List.getD_eq_getElem?_getD, List.getElem?_eq_getElem hlt]
  rfl

theorem keysFrom_cons_none {slots : Slots} {h : Nat} (hlt : h < slots.length)
    (hs : slots.getD h none = none) : keysFrom slots h = keysFrom slots (h + 1) := by
  unfold keysFrom
  rw [List.drop_eq_getElem_cons hlt]
  rw [getD_eq_getElem hlt] at hs
  rw [hs, List.filterMap_cons]
  rfl

theorem keysFrom_cons_some {slots : Slots} {h : Nat} {p : List Nat × JValue}
    (hlt : h < slots.length) (hs : slots.getD h none = some p) :
    keysFrom slots h = p.1 :: keysFrom slots (h + 1) := by
  unfold keysFrom
  rw [List.drop_eq_getElem_cons hlt]
  rw [getD_eq_getElem hlt] at hs
  rw [hs, List.filterMap_cons]
  rfl

theorem keysFrom_nil {slots : Slots} {h : Nat} (hge : slots.length ≤ h) :
    keysFrom slots h = [] := by
  unfold keysFrom
  rw [List.drop_eq_nil_of_le hge]
  rfl

theorem htScan_spec {slots : Slots} : ∀ {fuel h : Nat}, slots.length ≤ h + fuel →
    h < slots.length → htScan slots fuel h = (keysFrom slots h).head? := by
  intro fuel
  induction fuel with
  | zero => intro h hfe hlt; omega
  | succ f ih =>
    intro h hfe hlt
    rw [htScan]
    cases hs : slots.getD h none with
    | some p =>
      obtain ⟨k, w⟩ := p
      rw [keysFrom_cons_some hlt hs]
      rfl
    | none =>
      rw [keysFrom_cons_none hlt hs]
      simp only
      by_cases hend : h + 1 ≥ slots.length
      · rw [if_pos hend]
        rw [keysFrom_nil hend]
        rfl
      · rw [if_neg hend]
        exact ih (by omega) (by omega)

theorem htFindKey_found {slots : Slots} {mask : Nat} {name : List Nat} :
    ∀ {fuel h j : Nat}, probe slots mask name fuel h = some j →
      slots.getD j none ≠ none → htFindKey slots mask name fuel h = some j := by
  intro fuel
  induction fuel with
  | zero => intro h j hp _; rw [probe_zero] at hp; cases hp
  | succ f ih =>
    intro h j hp hocc
    rw [probe_succ] at hp
    rw [htFindKey]
    cases hs : slots.getD h none with
    | none =>
      rw [hs] at hp
      simp only [Option.some.injEq] at hp
      subst hp
      exact absurd hs hocc
    | some p =>
      obtain ⟨k, w⟩ := p
      rw [hs] at hp
      simp only at hp
      simp only
      by_cases hk : k = name
      · rw [if_pos hk] at hp
        rw [if_pos hk]
        exact hp
      · rw [if_neg hk] at hp
        rw [if_neg hk]
        exact ih hp hocc

theorem htChainAux_none (slots : Slots) : ∀ f, htChainAux slots f none = [] := by
  intro f
  cases f <;> rfl

theorem htChainAux_some (slots : Slots) (g : Nat) (k : List Nat) :
    htChainAux slots (g+1) (some k) = k :: htChainAux slots g (ht_next slots (some k)) := rfl

theorem htChainAux_keysFrom {slots : Slots} (hpi : ProbeInv slots) :
    ∀ (m h : Nat), slots.length - h ≤ m → ∀ {fuel : Nat}, slots.length - h < fuel →
      htChainAux slots fuel ((keysFrom slots h).head?) = keysFrom slots h := by
  intro m
  induction m with
  | zero =>
    intro h hm fuel _
    have hge : slots.length ≤ h := by omega
    rw [keysFrom_nil hge]
    exact htChainAux_none slots fuel
  | succ m ih =>
    intro h hm fuel hfuel
    by_cases hh : h < slots.length
    · cases hs : slots.getD h none with
      | none =>
        rw [keysFrom_cons_none hh hs]
        exact ih (h + 1) (by omega) (by omega)
      | some p =>
        obtain ⟨k, w⟩ := p
        rw [keysFrom_cons_some hh hs]
        obtain ⟨g, rfl⟩ : ∃ g, fuel = g + 1 := ⟨fuel - 1, by omega⟩
        rw [List.head?_cons, htChainAux_some]
        have hnext : ht_next slots (some k)
            = if h + 1 ≥ slots.length then none else htScan slots slots.length (h+1) := by
          unfold ht_next
          simp only
          have hfe : find_entry slots k = some h := hpi.inv h k w hs
          unfold find_entry at hfe
          rw [htFindKey_found hfe (by rw [hs]; intro hc; cases hc)]
        rw [hnext]
        by_cases hend : h + 1 ≥ slots.length
        · rw [if_pos hend]
          rw [htChainAux_none]
          rw [keysFrom_nil hend]
        · rw [if_neg hend]
          rw [htScan_spec (by omega) (by omega)]
          rw [ih (h + 1) (by omega) (by omega)]
    · rw [keysFrom_nil (by omega)]
      exact htChainAux_none slots fuel

/-- The serializer's key iteration visits exactly the occupied slots' keys in
slot order. -/
theorem htChain_entries {slots : Slots} (hpi : ProbeInv slots)
    (hlen : 0 < slots.length) :
    htChain slots = (entriesList slots).map Prod.fst := by
  unfold htChain
  have h0 : ht_next slots none = (keysFrom slots 0).head? := by
    unfold ht_next
    exact htScan_spec (by omega) hlen
  rw [h0]
  rw [htChainAux_keysFrom hpi slots.length 0 (by omega) (by omega)]
  unfold keysFrom
  rw [List.drop_zero]
  rfl

end MiscJson

namespace MiscJson

theorem ser_null (g : Nat) (bad pretty : Bool) (ind : Nat) :
    serialize_value (g+1) bad pretty ind .jnull = ascii "null" := rfl

theorem ser_true (g : Nat) (bad pretty : Bool) (ind : Nat) :
    serialize_value (g+1) bad pretty ind .jtrue = ascii "true" := rfl

theorem ser_false (g : Nat) (bad pretty : Bool) (ind : Nat) :
    serialize_value (g+1) bad pretty ind .jfalse = ascii "false" := rfl

theorem ser_str (g : Nat) (bad pretty : Bool) (ind : Nat) (s : List Nat) :
    serialize_value (g+1) bad pretty ind (.jstr s) = serialize_string s := rfl

theorem ser_fin (g : Nat) (bad pretty : Bool) (ind : Nat) (m e : Int) :
    serialize_value (g+1) bad pretty ind (.jnum (.fin m e)) = fmt_g m e := rfl

/-- Compact serialization of an array in terms of its elements. -/
theorem ser_arr_eq (g ind : Nat) (elems : List JValue) :
    serialize_value (g+1) false false ind (.jarr elems)
      = 91 :: ((if elems.isEmpty then []
          else sepJoin false (elems.map (fun w => serialize_value g false false (ind+1) w)))
          ++ [93]) := by
  conv_lhs => rw [serialize_value]
  simp only [Bool.false_eq_true, if_false, List.nil_append, List.append_nil]

/-- Compact serialization of an empty object. -/
theorem ser_obj_empty {slots : Slots} (count : Nat) (hpi : ProbeInv slots)
    (hlen : 0 < slots.length) (g ind : Nat) (hne : entriesList slots = []) :
    serialize_value (g+1) false false ind (.jobj slots count) = [123, 125] := by
  conv_lhs => rw [serialize_value]
  simp only [Bool.false_eq_true, if_false, List.nil_append, List.append_nil]
  rw [htChain_entries hpi hlen, hne]
  rfl

/-- Compact serialization of a non-empty object in terms of its entry list. -/
theorem ser_obj_ne {slots : Slots} (count : Nat) (hpi : ProbeInv slots)
    (hlen : 0 < slots.length) (g ind : Nat) (hne : entriesList slots ≠ []) :
    serialize_value (g+1) false false ind (.jobj slots count)
      = 123 :: (sepJoin false ((entriesList slots).map (fun p =>
            serialize_string p.1 ++ 58 :: serialize_value g false false (ind+1) p.2))
          ++ [125]) := by
  conv_lhs => rw [serialize_value]
  simp only [Bool.false_eq_true, if_false, List.nil_append, List.append_nil]
  rw [htChain_entries hpi hlen]
  rw [if_neg (fun h => hne (by simpa using (List.map_eq_nil_iff.mp h)))]
  rw [List.map_map]
  congr 2
  congr 1
  apply List.map_congr_left
  intro p hp
  obtain ⟨j, hj⟩ := mem_entries_iff.mp hp
  have hget : ht_get slots p.1 = some p.2 := (ht_get_some_iff hpi).mpr ⟨j, hj⟩
  simp only [Function.comp]
  rw [hget]
  simp

end MiscJson

namespace MiscJson

/-- The token codes a value's first token can carry. -/
def valSym (s : Int) : Prop :=
  s = 123 ∨ s = 91 ∨ s = P_NUMBER ∨ s = P_STRING ∨ s = P_TRUE ∨ s = P_FALSE ∨ s = P_NULL

theorem valSym_ne_err {s : Int} (h : valSym s) : s ≠ P_ERROR := by
  unfold valSym at h
  unfold P_ERROR
  rcases h with rfl | rfl | rfl | rfl | rfl | rfl | rfl <;> decide

theorem valSym_ne_93 {s : Int} (h : valSym s) : s ≠ 93 := by
  unfold valSym at h
  rcases h with rfl | rfl | rfl | rfl | rfl | rfl | rfl <;> decide

/-- Any serialized value is at least one byte. -/
theorem ser_len_pos (g ind : Nat) (v : JValue) :
    1 ≤ (serialize_value (g+1) false false ind v).length := by
  cases v with
  | jnull => rw [ser_null]; decide
  | jtrue => rw [ser_true]; decide
  | jfalse => rw [ser_false]; decide
  | jstr s => rw [ser_str]; unfold serialize_string; simp
  | jnum d =>
    cases d with
    | fin m e =>
      rw [ser_fin]
      obtain ⟨sgn, ids, frac, ex, heq, hsh⟩ := fmt_g_numTok m e
      obtain ⟨d0, ids2, rfl⟩ := List.exists_cons_of_ne_nil hsh.2.1
      rw [heq]
      simp
      omega
    | nan => rw [show serialize_value (g+1) false false ind (.jnum .nan) = ascii "null" from rfl]; decide
    | inf => rw [show serialize_value (g+1) false false ind (.jnum .inf) = ascii "null" from rfl]; decide
    | ninf => rw [show serialize_value (g+1) false false ind (.jnum .ninf) = ascii "null" from rfl]; decide
  | jarr elems => rw [ser_arr_eq]; simp
  | jobj slots count =>
    conv_rhs => rw [serialize_value]
    simp

/-- The statement of the compact-serialization round trip for one value:
parsing the serialized bytes (followed by any stop byte) succeeds, consumes
exactly the value, leaves the lexer on the following token, and yields a
deep-equal tree. -/
def RTStmt (v : JValue) : Prop :=
  wfB v = true → goodNums v = true →
  ∀ (sf ind : Nat), jdepth v < sf →
  ∀ (rest : List Nat), stopOk rest →
  ∀ (s0 : Int) (ln : Nat) (b : List Nat) (errs : List (List Nat)) (pfuel : Nat),
  (serialize_value sf false false ind v ++ rest).length
      + (serialize_value sf false false ind v).length + 1 ≤ pfuel →
  valSym (getsym ⟨serialize_value sf false false ind v ++ rest, s0, ln, b, errs⟩).sym ∧
  ∃ w pcf,
    json_parse_value pfuel (getsym ⟨serialize_value sf false false ind v ++ rest, s0, ln, b, errs⟩)
      = (some w, pcf) ∧
    pcf.inp = rest.drop 1 ∧ pcf.sym = sepSym rest ∧ pcf.lineno = ln ∧ pcf.errs = errs ∧
    ∀ df, jdepth v < df → deepEq df v w = true

theorem rt_null : RTStmt .jnull := by
  intro hwf hgn sf ind hsf rest hstop s0 ln b errs pfuel hfuel
  obtain ⟨t, rfl⟩ : ∃ t, sf = t + 1 := ⟨sf - 1, by omega⟩
  rw [ser_null] at hfuel ⊢
  rw [getsym_kw_null (isalpha_stop hstop)]
  constructor
  · exact Or.inr (Or.inr (Or.inr (Or.inr (Or.inr (Or.inr rfl)))))
  obtain ⟨q, rfl⟩ : ∃ q, pfuel = q + 1 := ⟨pfuel - 1, by omega⟩
  obtain ⟨b2, hsep⟩ := getsym_sep hstop P_NULL ln (ascii "null") errs
  rw [json_parse_value]
  simp only
  rw [if_neg (by decide), if_neg (by decide), if_neg (by decide), if_neg (by decide),
    if_neg (by decide), if_neg (by decide)]
  simp only [if_true]
  rw [hsep]
  simp only
  rw [if_neg (sepSym_ne_err hstop)]
  refine ⟨.jnull, ⟨rest.drop 1, sepSym rest, ln, b2, errs⟩, rfl, rfl, rfl, rfl, rfl, ?_⟩
  intro df hdf
  obtain ⟨r, rfl⟩ : ∃ r, df = r + 1 := ⟨df - 1, by omega⟩
  rfl

end MiscJson

namespace MiscJson

theorem rt_true : RTStmt .jtrue := by
  intro hwf hgn sf ind hsf rest hstop s0 ln b errs pfuel hfuel
  obtain ⟨t, rfl⟩ : ∃ t, sf = t + 1 := ⟨sf - 1, by omega⟩
  rw [ser_true] at hfuel ⊢
  rw [getsym_kw_true (isalpha_stop hstop)]
  constructor
  · exact Or.inr (Or.inr (Or.inr (Or.inr (Or.inl rfl))))
  obtain ⟨q, rfl⟩ : ∃ q, pfuel = q + 1 := ⟨pfuel - 1, by omega⟩
  obtain ⟨b2, hsep⟩ := getsym_sep hstop P_TRUE ln (ascii "true") errs
  rw [json_parse_value]
  simp only
  rw [if_neg (by decide), if_neg (by decide), if_neg (by decide), if_neg (by decide)]
  simp only [if_true]
  rw [hsep]
  simp only
  rw [if_neg (sepSym_ne_err hstop)]
  refine ⟨.jtrue, ⟨rest.drop 1, sepSym rest, ln, b2, errs⟩, rfl, rfl, rfl, rfl, rfl, ?_⟩
  intro df hdf
  obtain ⟨r, rfl⟩ : ∃ r, df = r + 1 := ⟨df - 1, by omega⟩
  rfl

theorem rt_false : RTStmt .jfalse := by
  intro hwf hgn sf ind hsf rest hstop s0 ln b errs pfuel hfuel
  obtain ⟨t, rfl⟩ : ∃ t, sf = t + 1 := ⟨sf - 1, by omega⟩
  rw [ser_false] at hfuel ⊢
  rw [getsym_kw_false (isalpha_stop hstop)]
  constructor
  · exact Or.inr (Or.inr (Or.inr (Or.inr (Or.inr (Or.inl rfl)))))
  obtain ⟨q, rfl⟩ : ∃ q, pfuel = q + 1 := ⟨pfuel - 1, by omega⟩
  obtain ⟨b2, hsep⟩ := getsym_sep hstop P_FALSE ln (ascii "false") errs
  rw [json_parse_value]
  simp only
  rw [if_neg (by decide), if_neg (by decide), if_neg (by decide), if_neg (by decide),
    if_neg (by decide)]
  simp only [if_true]
  rw [hsep]
  simp only
  rw [if_neg (sepSym_ne_err hstop)]
  refine ⟨.jfalse, ⟨rest.drop 1, sepSym rest, ln, b2, errs⟩, rfl, rfl, rfl, rfl, rfl, ?_⟩
  intro df hdf
  obtain ⟨r, rfl⟩ : ∃ r, df = r + 1 := ⟨df - 1, by omega⟩
  rfl

theorem rt_str (s : List Nat) : RTStmt (.jstr s) := by
  intro hwf hgn sf ind hsf rest hstop s0 ln b errs pfuel hfuel
  obtain ⟨t, rfl⟩ : ∃ t, sf = t + 1 := ⟨sf - 1, by omega⟩
  have hs : strOk s = true := hwf
  rw [ser_str] at hfuel ⊢
  rw [getsym_string hs]
  constructor
  · exact Or.inr (Or.inr (Or.inr (Or.inl rfl)))
  obtain ⟨q, rfl⟩ : ∃ q, pfuel = q + 1 := ⟨pfuel - 1, by omega⟩
  obtain ⟨b2, hsep⟩ := getsym_sep hstop P_STRING ln s errs
  rw [json_parse_value]
  simp only
  rw [if_neg (by decide), if_neg (by decide), if_neg (by decide)]
  simp only [if_true]
  rw [hsep]
  simp only
  rw [if_neg (sepSym_ne_err hstop)]
  refine ⟨.jstr (cstr s), ⟨rest.drop 1, sepSym rest, ln, b2, errs⟩, rfl, rfl, rfl, rfl, rfl, ?_⟩
  intro df hdf
  obtain ⟨r, rfl⟩ : ∃ r, df = r + 1 := ⟨df - 1, by omega⟩
  rw [cstr_strOk hs]
  simp [deepEq]

theorem rt_num (d : DVal) : RTStmt (.jnum d) := by
  intro hwf hgn sf ind hsf rest hstop s0 ln b errs pfuel hfuel
  cases d with
  | nan => cases hgn
  | inf => cases hgn
  | ninf => cases hgn
  | fin m e =>
  have hge : dvalEq (atof_num (fmt_g m e)) (.fin m e) = true := hgn
  obtain ⟨t, rfl⟩ : ∃ t, sf = t + 1 := ⟨sf - 1, by omega⟩
  rw [ser_fin] at hfuel ⊢
  rw [getsym_fmt_g m e hstop]
  constructor
  · exact Or.inr (Or.inr (Or.inl rfl))
  obtain ⟨q, rfl⟩ : ∃ q, pfuel = q + 1 := ⟨pfuel - 1, by omega⟩
  obtain ⟨b2, hsep⟩ := getsym_sep hstop P_NUMBER ln (fmt_g m e) errs
  rw [json_parse_value]
  simp only
  rw [if_neg (by decide), if_neg (by decide)]
  simp only [if_true]
  rw [hsep]
  simp only
  rw [if_neg (sepSym_ne_err hstop)]
  refine ⟨.jnum (atof_num (cstr (fmt_g m e))), ⟨rest.drop 1, sepSym rest, ln, b2, errs⟩,
    rfl, rfl, rfl, rfl, rfl, ?_⟩
  intro df hdf
  obtain ⟨r, rfl⟩ : ∃ r, df = r + 1 := ⟨df - 1, by omega⟩
  rw [cstr_fmt_g]
  show dvalEq (.fin m e) (atof_num (fmt_g m e)) = true
  rw [dvalEq_symm]
  exact hge

end MiscJson

namespace MiscJson

theorem rt_elems (sf ind : Nat) :
    ∀ (vs : List JValue), (∀ u ∈ vs, RTStmt u) → vs ≠ [] →
    (∀ u ∈ vs, wfB u = true) → (∀ u ∈ vs, goodNums u = true) →
    (∀ u ∈ vs, jdepth u < sf) →
    ∀ (REST : List Nat) (s0 : Int) (ln : Nat) (b : List Nat) (errs : List (List Nat))
      (efuel : Nat) (acc : List JValue),
    (∀ u ∈ vs, (sepJoin false (vs.map (fun u2 => serialize_value sf false false ind u2))
        ++ 93 :: REST).length + (serialize_value sf false false ind u).length + 2 ≤ efuel) →
    valSym (getsym ⟨sepJoin false (vs.map (fun u2 => serialize_value sf false false ind u2))
        ++ 93 :: REST, s0, ln, b, errs⟩).sym ∧
    ∃ ws pcf,
      json_parse_elems efuel
          (getsym ⟨sepJoin false (vs.map (fun u2 => serialize_value sf false false ind u2))
            ++ 93 :: REST, s0, ln, b, errs⟩) acc
        = (some (acc ++ ws), pcf) ∧
      List.Forall₂ (fun u w => ∀ df, jdepth u < df → deepEq df u w = true) vs ws ∧
      pcf.inp = REST ∧ pcf.sym = (93 : Int) ∧ pcf.lineno = ln ∧ pcf.errs = errs := by
  intro vs
  induction vs with
  | nil => intro _ hne; exact absurd rfl hne
  | cons v tl ih =>
    intro hRT hne hwf hgn hdepth REST s0 ln b errs efuel acc hfuel
    have hvmem := List.mem_cons_self v tl
    have hsf1 : 0 < sf := by have := hdepth v hvmem; omega
    obtain ⟨t, rfl⟩ : ∃ t, sf = t + 1 := ⟨sf - 1, by omega⟩
    have hslen := ser_len_pos t ind v
    cases tl with
    | nil =>
      have hB : sepJoin false (([v] : List JValue).map
            (fun u2 => serialize_value (t+1) false false ind u2)) ++ 93 :: REST
          = serialize_value (t+1) false false ind v ++ 93 :: REST := by
        simp [sepJoin]
      rw [hB] at hfuel ⊢
      have hstop93 : stopOk (93 :: REST) := Or.inr ⟨93, REST, rfl, Or.inr (Or.inl rfl)⟩
      obtain ⟨g, rfl⟩ : ∃ g, efuel = g + 1 :=
        ⟨efuel - 1, by have := hfuel v hvmem; omega⟩
      obtain ⟨hvsym, w, pcf, hparse, hinp, hsym, hln, herrs, hdeep⟩ :=
        hRT v hvmem (hwf v hvmem) (hgn v hvmem) (t+1) ind (hdepth v hvmem)
          (93 :: REST) hstop93 s0 ln b errs g
          (by have := hfuel v hvmem; simp only [List.length_append] at this ⊢; omega)
      refine ⟨hvsym, ?_⟩
      rw [json_parse_elems]
      simp only
      rw [hparse]
      simp only
      rw [accept_miss (by rw [hsym]; exact (show ((93 : Nat) : Int) ≠ 44 from by decide))]
      simp only [if_neg (by decide : ¬ false = true)]
      refine ⟨[w], pcf, rfl, List.Forall₂.cons hdeep List.Forall₂.nil, ?_, ?_, hln, herrs⟩
      · rw [hinp]
        rfl
      · rw [hsym]
        rfl
    | cons v2 tl2 =>
      have hB : sepJoin false (((v :: v2 :: tl2) : List JValue).map
            (fun u2 => serialize_value (t+1) false false ind u2)) ++ 93 :: REST
          = serialize_value (t+1) false false ind v
            ++ 44 :: (sepJoin false (((v2 :: tl2) : List JValue).map
              (fun u2 => serialize_value (t+1) false false ind u2)) ++ 93 :: REST) := by
        simp [sepJoin]
      rw [hB] at hfuel ⊢
      have hstop44 : stopOk (44 :: (sepJoin false (((v2 :: tl2) : List JValue).map
          (fun u2 => serialize_value (t+1) false false ind u2)) ++ 93 :: REST)) :=
        Or.inr ⟨44, _, rfl, Or.inl rfl⟩
      obtain ⟨g, rfl⟩ : ∃ g, efuel = g + 1 :=
        ⟨efuel - 1, by have := hfuel v hvmem; omega⟩
      obtain ⟨hvsym, w, pcf, hparse, hinp, hsym, hln, herrs, hdeep⟩ :=
        hRT v hvmem (hwf v hvmem) (hgn v hvmem) (t+1) ind (hdepth v hvmem)
          _ hstop44 s0 ln b errs g
          (by have := hfuel v hvmem; simp only [List.length_append, List.length_cons] at this ⊢; omega)
      refine ⟨hvsym, ?_⟩
      rw [json_parse_elems]
      simp only
      rw [hparse]
      simp only
      obtain ⟨pi, ps, pl, pb, pe⟩ := pcf
      simp only at hinp hsym hln herrs
      subst hln
      subst herrs
      rw [show ((44 : Nat) :: (sepJoin false (((v2 :: tl2) : List JValue).map
          (fun u2 => serialize_value (t+1) false false ind u2)) ++ 93 :: REST)).drop 1
          = sepJoin false (((v2 :: tl2) : List JValue).map
            (fun u2 => serialize_value (t+1) false false ind u2)) ++ 93 :: REST from rfl] at hinp
      subst hinp
      rw [show sepSym ((44 : Nat) :: (sepJoin false (((v2 :: tl2) : List JValue).map
          (fun u2 => serialize_value (t+1) false false ind u2)) ++ 93 :: REST)) = (44 : Int)
          from rfl] at hsym
      subst hsym
      have hmemtl : ∀ u ∈ v2 :: tl2, u ∈ v :: v2 :: tl2 :=
        fun u hu => List.mem_cons_of_mem v hu
      obtain ⟨hsym2, ws', pcf', hparse2, hfa2, hinp2, hsym2on, hln2, herrs2⟩ :=
        ih (fun u hu => hRT u (hmemtl u hu)) (by intro h; cases h)
          (fun u hu => hwf u (hmemtl u hu)) (fun u hu => hgn u (hmemtl u hu))
          (fun u hu => hdepth u (hmemtl u hu)) REST 44 pl pb pe g (acc ++ [w])
          (by
            intro u hu
            have h1 := hfuel u (hmemtl u hu)
            simp only [List.length_append, List.length_cons] at h1 ⊢
            omega)
      rw [accept_hit rfl (valSym_ne_err hsym2)]
      simp only [if_pos (rfl : true = true)]
      rw [hparse2]
      rw [List.append_assoc, List.singleton_append]
      exact ⟨w :: ws', pcf', rfl, List.Forall₂.cons hdeep hfa2, hinp2, hsym2on, hln2, herrs2⟩

end MiscJson

namespace MiscJson

theorem ser_arr_nil (g : Nat) (ind : Nat) :
    serialize_value (g+1) false false ind (.jarr []) = [91, 93] := rfl

theorem rt_arr (elems : List JValue) (hall : ∀ u ∈ elems, RTStmt u) :
    RTStmt (.jarr elems) := by
  intro hwf hgn sf ind hsf rest hstop s0 ln b errs pfuel hfuel
  have hdv : jdepth (.jarr elems) = jdepthList elems + 1 := rfl
  obtain ⟨g, rfl⟩ : ∃ g, sf = g + 1 := ⟨sf - 1, by omega⟩
  cases elems with
  | nil =>
    rw [ser_arr_nil] at hfuel ⊢
    rw [show ([91, 93] : List Nat) ++ rest = 91 :: 93 :: rest from rfl] at hfuel ⊢
    rw [getsym_punct (Or.inr (Or.inr (Or.inl rfl)))]
    constructor
    · exact Or.inr (Or.inl rfl)
    obtain ⟨q, rfl⟩ : ∃ q, pfuel = q + 1 := ⟨pfuel - 1, by simp at hfuel; omega⟩
    rw [json_parse_value]
    simp only
    rw [if_neg (by decide), if_pos (show ((91 : Nat) : Int) = 91 from by decide)]
    obtain ⟨q2, rfl⟩ : ∃ q2, q = q2 + 1 := ⟨q - 1, by simp at hfuel; omega⟩
    rw [json_parse_array]
    simp only
    have hacc1 := @accept_hit ⟨93 :: rest, ((91 : Nat) : Int), ln, [], errs⟩ 91 rfl
      (by rw [getsym_punct (Or.inr (Or.inr (Or.inr (Or.inl rfl))))]
          exact (show ((93 : Nat) : Int) ≠ P_ERROR from by decide))
    rw [hacc1]
    rw [getsym_punct (Or.inr (Or.inr (Or.inr (Or.inl rfl))))]
    simp only
    rw [if_neg (by simp)]
    simp only
    obtain ⟨b2, hsep⟩ := getsym_sep hstop ((93 : Nat) : Int) ln [] errs
    have hacc2 := @accept_hit ⟨rest, ((93 : Nat) : Int), ln, [], errs⟩ 93 rfl
      (by rw [hsep]; exact sepSym_ne_err hstop)
    rw [hacc2]
    rw [hsep]
    simp only [if_pos (rfl : true = true)]
    refine ⟨.jarr [], ⟨rest.drop 1, sepSym rest, ln, b2, errs⟩, rfl, rfl, rfl, rfl, rfl, ?_⟩
    intro df hdf
    obtain ⟨r, rfl⟩ : ∃ r, df = r + 1 := ⟨df - 1, by omega⟩
    rfl
  | cons v tl =>
    rw [ser_arr_eq] at hfuel ⊢
    rw [show ((v :: tl : List JValue).isEmpty) = false from rfl] at hfuel ⊢
    rw [if_neg (by decide : ¬ (false = true))] at hfuel ⊢
    rw [show (91 : Nat) :: (sepJoin false ((v :: tl).map
          (fun w => serialize_value g false false (ind+1) w)) ++ [93]) ++ rest
        = 91 :: ((sepJoin false ((v :: tl).map
          (fun w => serialize_value g false false (ind+1) w)) ++ [93]) ++ rest)
        from rfl] at hfuel ⊢
    rw [List.append_assoc, List.singleton_append] at hfuel ⊢
    rw [getsym_punct (Or.inr (Or.inr (Or.inl rfl)))]
    constructor
    · exact Or.inr (Or.inl rfl)
    have hself : ∀ u ∈ v :: tl, (serialize_value g false false (ind+1) u).length
        ≤ (sepJoin false ((v :: tl).map
          (fun w => serialize_value g false false (ind+1) w))).length := by
      intro u hu
      exact sepJoin_len (List.mem_map_of_mem _ hu)
    obtain ⟨q, rfl⟩ : ∃ q, pfuel = q + 1 :=
      ⟨pfuel - 1, by simp only [List.length_append, List.length_cons] at hfuel; omega⟩
    rw [json_parse_value]
    simp only
    rw [if_neg (by decide), if_pos (show ((91 : Nat) : Int) = 91 from by decide)]
    obtain ⟨q2, rfl⟩ : ∃ q2, q = q2 + 1 :=
      ⟨q - 1, by simp only [List.length_append, List.length_cons] at hfuel; omega⟩
    rw [json_parse_array]
    simp only
    obtain ⟨hesym, ws, pcf, hparse, hfa, hinp, hsym, hln, herrs⟩ :=
      rt_elems g (ind+1) (v :: tl) hall (by intro h; cases h)
        (fun u hu => wfList_mem hwf hu) (fun u hu => goodNumsList_mem hgn hu)
        (fun u hu => by have := jdepthList_mem hu; rw [hdv] at hsf; omega)
        rest ((91 : Nat) : Int) ln [] errs q2 []
        (by
          intro u hu
          have h1 := hself u hu
          have h2 := ser_len_pos g (ind+1) u
          simp only [List.length_append, List.length_cons] at hfuel ⊢
          omega)
    have hacc1 := @accept_hit
      ⟨sepJoin false ((v :: tl).map (fun w => serialize_value g false false (ind+1) w))
        ++ 93 :: rest, ((91 : Nat) : Int), ln, [], errs⟩ 91 rfl (valSym_ne_err hesym)
    rw [hacc1]
    rw [if_pos (by intro hc; exact valSym_ne_93 hesym hc)]
    rw [hparse]
    simp only [List.nil_append]
    obtain ⟨pi, ps, pl, pb, pe⟩ := pcf
    simp only at hinp hsym hln herrs
    subst hinp
    subst hsym
    subst hln
    subst herrs
    obtain ⟨b2, hsep⟩ := getsym_sep hstop (93 : Int) pl pb pe
    have hacc2 := @accept_hit ⟨pi, (93 : Int), pl, pb, pe⟩ 93 rfl
      (by rw [hsep]; exact sepSym_ne_err hstop)
    rw [hacc2]
    rw [hsep]
    simp only [if_pos (rfl : true = true)]
    refine ⟨.jarr ws, ⟨pi.drop 1, sepSym pi, pl, b2, pe⟩, rfl, rfl, rfl, rfl, rfl, ?_⟩
    intro df hdf
    obtain ⟨r, rfl⟩ : ∃ r, df = r + 1 := ⟨df - 1, by omega⟩
    show ((decide ((v :: tl).length = ws.length)) &&
      ((v :: tl).zip ws).all (fun p => deepEq r p.1 p.2)) = true
    rw [Bool.and_eq_true]
    constructor
    · rw [decide_eq_true_eq]
      exact hfa.length_eq
    · rw [List.all_eq_true]
      intro p hp
      obtain ⟨u, w⟩ := p
      have hP := (List.forall₂_iff_zip.mp hfa).2 hp
      have hmem := (List.mem_zip hp).1
      have hdl := jdepthList_mem hmem
      rw [hdv] at hdf
      exact hP r (by omega)

end MiscJson

namespace MiscJson

theorem rt_members (sf ind : Nat) :
    ∀ (ms : List (List Nat × JValue)),
    (∀ p ∈ ms, RTStmt p.2) → ms ≠ [] →
    (∀ p ∈ ms, strOk p.1 = true) →
    (∀ p ∈ ms, wfB p.2 = true) → (∀ p ∈ ms, goodNums p.2 = true) →
    (∀ p ∈ ms, jdepth p.2 < sf) →
    ∀ (REST : List Nat) (s0 : Int) (ln : Nat) (b : List Nat) (errs : List (List Nat))
      (mfuel : Nat) (slots : Slots) (count : Nat),
    (∀ p ∈ ms, (sepJoin false (ms.map (fun p2 => serialize_string p2.1
          ++ 58 :: serialize_value sf false false ind p2.2)) ++ 125 :: REST).length
        + (serialize_value sf false false ind p.2).length + 4 ≤ mfuel) →
    (getsym ⟨sepJoin false (ms.map (fun p2 => serialize_string p2.1
        ++ 58 :: serialize_value sf false false ind p2.2)) ++ 125 :: REST,
        s0, ln, b, errs⟩).sym = P_STRING ∧
    ∃ ws pcf,
      json_parse_members mfuel
          (getsym ⟨sepJoin false (ms.map (fun p2 => serialize_string p2.1
            ++ 58 :: serialize_value sf false false ind p2.2)) ++ 125 :: REST,
            s0, ln, b, errs⟩) slots count
        = (some (putList ((ms.map Prod.fst).zip ws) (slots, count)), pcf) ∧
      List.Forall₂ (fun u w => ∀ df, jdepth u < df → deepEq df u w = true)
        (ms.map Prod.snd) ws ∧
      pcf.inp = REST ∧ pcf.sym = (125 : Int) ∧ pcf.lineno = ln ∧ pcf.errs = errs := by
  intro ms
  induction ms with
  | nil => intro _ hne; exact absurd rfl hne
  | cons p tl ih =>
    intro hRT hne hstr hwf hgn hdepth REST s0 ln b errs mfuel slots count hfuel
    have hpmem := List.mem_cons_self p tl
    obtain ⟨t, rfl⟩ : ∃ t, sf = t + 1 := ⟨sf - 1, by have := hdepth p hpmem; omega⟩
    have hslen := ser_len_pos t ind p.2
    have hkey := hstr p hpmem
    have hkeylen : 1 ≤ (serialize_string p.1).length := by
      unfold serialize_string
      simp
    cases tl with
    | nil =>
      have hB : sepJoin false (([p] : List (List Nat × JValue)).map
            (fun p2 => serialize_string p2.1 ++ 58 :: serialize_value (t+1) false false ind p2.2))
            ++ 125 :: REST
          = serialize_string p.1
            ++ (58 :: (serialize_value (t+1) false false ind p.2 ++ 125 :: REST)) := by
        simp [sepJoin]
      rw [hB] at hfuel ⊢
      rw [getsym_string hkey]
      refine ⟨rfl, ?_⟩
      have hstop125 : stopOk ((125 : Nat) :: REST) := Or.inr ⟨125, REST, rfl, Or.inr (Or.inr rfl)⟩
      obtain ⟨mf, rfl⟩ : ∃ mf, mfuel = mf + 1 :=
        ⟨mfuel - 1, by have := hfuel p hpmem; omega⟩
      obtain ⟨hvsym, w, pcf, hparse, hinp, hsym, hln, herrs, hdeep⟩ :=
        hRT p hpmem (hwf p hpmem) (hgn p hpmem) (t+1) ind (hdepth p hpmem)
          ((125 : Nat) :: REST) hstop125 ((58 : Nat) : Int) ln [] errs mf
          (by
            have := hfuel p hpmem
            simp only [List.length_append, List.length_cons] at this ⊢
            omega)
      rw [json_parse_members]
      simp only
      rw [if_neg (by simp)]
      rw [getsym_punct (Or.inr (Or.inr (Or.inr (Or.inr (Or.inl rfl)))))]
      simp only
      rw [if_neg (show ¬ (((58 : Nat) : Int) = P_ERROR) from by decide)]
      have hacc1 := @accept_hit
        ⟨serialize_value (t+1) false false ind p.2 ++ 125 :: REST,
          ((58 : Nat) : Int), ln, [], errs⟩ 58 rfl (valSym_ne_err hvsym)
      rw [hacc1]
      simp only
      rw [if_neg (by simp)]
      rw [hparse]
      simp only
      rw [cstr_strOk hkey]
      have haccm := @accept_miss pcf 44 (by rw [hsym]; exact (show ((125 : Nat) : Int) ≠ 44 from by decide))
      rw [haccm]
      simp only [if_neg (by decide : ¬ (false = true))]
      refine ⟨[w], pcf, rfl, List.Forall₂.cons hdeep List.Forall₂.nil, ?_, ?_, hln, herrs⟩
      · rw [hinp]
        rfl
      · rw [hsym]
        rfl
    | cons p2 tl2 =>
      have hB : sepJoin false (((p :: p2 :: tl2) : List (List Nat × JValue)).map
            (fun q => serialize_string q.1 ++ 58 :: serialize_value (t+1) false false ind q.2))
            ++ 125 :: REST
          = serialize_string p.1
            ++ (58 :: (serialize_value (t+1) false false ind p.2
              ++ 44 :: (sepJoin false (((p2 :: tl2) : List (List Nat × JValue)).map
                (fun q => serialize_string q.1 ++ 58 :: serialize_value (t+1) false false ind q.2))
                ++ 125 :: REST))) := by
        simp [sepJoin]
      rw [hB] at hfuel ⊢
      rw [getsym_string hkey]
      refine ⟨rfl, ?_⟩
      have hstop44 : stopOk ((44 : Nat) :: (sepJoin false
          (((p2 :: tl2) : List (List Nat × JValue)).map
            (fun q => serialize_string q.1 ++ 58 :: serialize_value (t+1) false false ind q.2))
          ++ 125 :: REST)) := Or.inr ⟨44, _, rfl, Or.inl rfl⟩
      obtain ⟨mf, rfl⟩ : ∃ mf, mfuel = mf + 1 :=
        ⟨mfuel - 1, by have := hfuel p hpmem; omega⟩
      obtain ⟨hvsym, w, pcf, hparse, hinp, hsym, hln, herrs, hdeep⟩ :=
        hRT p hpmem (hwf p hpmem) (hgn p hpmem) (t+1) ind (hdepth p hpmem)
          _ hstop44 ((58 : Nat) : Int) ln [] errs mf
          (by
            have := hfuel p hpmem
            simp only [List.length_append, List.length_cons] at this ⊢
            omega)
      rw [json_parse_members]
      simp only
      rw [if_neg (by simp)]
      rw [getsym_punct (Or.inr (Or.inr (Or.inr (Or.inr (Or.inl rfl)))))]
      simp only
      rw [if_neg (show ¬ (((58 : Nat) : Int) = P_ERROR) from by decide)]
      have hacc1 := @accept_hit
        ⟨serialize_value (t+1) false false ind p.2
          ++ 44 :: (sepJoin false (((p2 :: tl2) : List (List Nat × JValue)).map
            (fun q => serialize_string q.1 ++ 58 :: serialize_value (t+1) false false ind q.2))
            ++ 125 :: REST),
          ((58 : Nat) : Int), ln, [], errs⟩ 58 rfl (valSym_ne_err hvsym)
      rw [hacc1]
      simp only
      rw [if_neg (by simp)]
      rw [hparse]
      simp only
      rw [cstr_strOk hkey]
      obtain ⟨pi, ps, pl, pb, pe⟩ := pcf
      simp only at hinp hsym hln herrs
      rw [show ((44 : Nat) :: (sepJoin false (((p2 :: tl2) : List (List Nat × JValue)).map
          (fun q => serialize_string q.1 ++ 58 :: serialize_value (t+1) false false ind q.2))
          ++ 125 :: REST)).drop 1
          = sepJoin false (((p2 :: tl2) : List (List Nat × JValue)).map
            (fun q => serialize_string q.1 ++ 58 :: serialize_value (t+1) false false ind q.2))
            ++ 125 :: REST from rfl] at hinp
      rw [show sepSym ((44 : Nat) :: (sepJoin false (((p2 :: tl2) : List (List Nat × JValue)).map
          (fun q => serialize_string q.1 ++ 58 :: serialize_value (t+1) false false ind q.2))
          ++ 125 :: REST)) = ((44 : Nat) : Int) from rfl] at hsym
      subst hinp
      subst hsym
      subst hln
      subst herrs
      have hmemtl : ∀ q ∈ p2 :: tl2, q ∈ p :: p2 :: tl2 :=
        fun q hq => List.mem_cons_of_mem p hq
      obtain ⟨hsym2, ws', pcf', hparse2, hfa2, hinp2, hsym2on, hln2, herrs2⟩ :=
        ih (fun q hq => hRT q (hmemtl q hq)) (by intro h; cases h)
          (fun q hq => hstr q (hmemtl q hq))
          (fun q hq => hwf q (hmemtl q hq)) (fun q hq => hgn q (hmemtl q hq))
          (fun q hq => hdepth q (hmemtl q hq)) REST ((44 : Nat) : Int) pl pb pe mf
          (ht_put slots count p.1 w).1 (ht_put slots count p.1 w).2.1
          (by
            intro q hq
            have h1 := hfuel q (hmemtl q hq)
            simp only [List.length_append, List.length_cons] at h1 ⊢
            omega)
      have hacc2 := @accept_hit
        ⟨sepJoin false (((p2 :: tl2) : List (List Nat × JValue)).map
            (fun q => serialize_string q.1 ++ 58 :: serialize_value (t+1) false false ind q.2))
            ++ 125 :: REST, ((44 : Nat) : Int), pl, pb, pe⟩ 44 rfl
        (by rw [hsym2]; decide)
      rw [hacc2]
      simp only [if_pos (rfl : true = true)]
      rw [hparse2]
      refine ⟨w :: ws', pcf', rfl, List.Forall₂.cons hdeep hfa2, hinp2, hsym2on, hln2, herrs2⟩

end MiscJson

namespace MiscJson

/-- The Boolean table invariant implies the propositional one. -/
theorem htWfB_to_HTWF {slots : Slots} {count : Nat} (h : htWfB slots count = true) :
    HTWF slots count := by
  unfold htWfB at h
  rw [Bool.and_eq_true, Bool.and_eq_true, Bool.and_eq_true] at h
  obtain ⟨⟨⟨hpow, hcnt⟩, hload⟩, hinv⟩ := h
  constructor
  · rw [List.any_eq_true] at hpow
    obtain ⟨m, _, hprop⟩ := hpow
    rw [Bool.and_eq_true, decide_eq_true_eq, decide_eq_true_eq] at hprop
    exact ⟨m, hprop.1, hprop.2⟩
  · rw [decide_eq_true_eq] at hcnt
    exact hcnt
  · rw [decide_eq_true_eq] at hload
    exact hload
  · intro j k w hj
    rw [List.all_eq_true] at hinv
    by_cases hjlt : j < slots.length
    · have hthis := hinv j (List.mem_range.mpr hjlt)
      rw [hj] at hthis
      simp only at hthis
      rw [decide_eq_true_eq] at hthis
      exact hthis
    · rw [List.getD_eq_default _ _ (by omega)] at hj
      cases hj

end MiscJson

namespace MiscJson

theorem forall₂_mem_left {α β : Type} {P : α → β → Prop} : ∀ {l1 : List α} {l2 : List β},
    List.Forall₂ P l1 l2 → ∀ a ∈ l1, ∃ b ∈ l2, P a b := by
  intro l1
  induction l1 with
  | nil => intro l2 _ a ha; cases ha
  | cons x tl ih =>
    intro l2 h a ha
    cases h with
    | cons hx htl =>
      rcases List.mem_cons.mp ha with rfl | hm
      · exact ⟨_, List.mem_cons_self _ _, hx⟩
      · obtain ⟨b2, hb, hPb⟩ := ih htl a hm
        exact ⟨b2, List.mem_cons_of_mem _ hb, hPb⟩

theorem forall₂_zip_pairs {α β γ : Type} {P : β → γ → Prop} :
    ∀ (ms : List (α × β)) (ws : List γ), List.Forall₂ P (ms.map Prod.snd) ws →
      List.Forall₂ (fun (p : α × β) (q : α × γ) => q.1 = p.1 ∧ P p.2 q.2)
        ms ((ms.map Prod.fst).zip ws) := by
  intro ms
  induction ms with
  | nil =>
    intro ws h
    cases h
    exact List.Forall₂.nil
  | cons p tl ih =>
    intro ws h
    rw [List.map_cons] at h
    cases h with
    | cons hpw htail =>
      exact List.Forall₂.cons ⟨rfl, hpw⟩ (ih _ htail)

theorem serialize_string_len (s : List Nat) : 2 ≤ (serialize_string s).length := by
  unfold serialize_string
  simp

theorem rt_obj (slots : Slots) (count : Nat)
    (hall : ∀ p ∈ entriesList slots, RTStmt p.2) : RTStmt (.jobj slots count) := by
  intro hwf hgn sf ind hsf rest hstop s0 ln b errs pfuel hfuel
  have hwf2 : (htWfB slots count && wfSlots slots) = true := hwf
  rw [Bool.and_eq_true] at hwf2
  obtain ⟨hhtb, hws⟩ := hwf2
  have hw := htWfB_to_HTWF hhtb
  have hpi := hw.probeInv
  have hlen : 0 < slots.length := pow2_pos hpi.pow2
  have hgns : goodNumsSlots slots = true := hgn
  have hdv : jdepth (.jobj slots count) = jdepthSlots slots + 1 := rfl
  obtain ⟨g, rfl⟩ : ∃ g, sf = g + 1 := ⟨sf - 1, by omega⟩
  by_cases hne : entriesList slots = []
  · rw [ser_obj_empty count hpi hlen g ind hne] at hfuel ⊢
    rw [show ([123, 125] : List Nat) ++ rest = 123 :: 125 :: rest from rfl] at hfuel ⊢
    rw [getsym_punct (Or.inl rfl)]
    constructor
    · exact Or.inl rfl
    obtain ⟨q, rfl⟩ : ∃ q, pfuel = q + 1 := ⟨pfuel - 1, by simp at hfuel; omega⟩
    rw [json_parse_value]
    simp only
    rw [if_pos (show ((123 : Nat) : Int) = 123 from by decide)]
    obtain ⟨q2, rfl⟩ : ∃ q2, q = q2 + 1 := ⟨q - 1, by simp at hfuel; omega⟩
    rw [json_parse_object]
    simp only
    have hacc1 := @accept_hit ⟨125 :: rest, ((123 : Nat) : Int), ln, [], errs⟩ 123 rfl
      (by rw [getsym_punct (Or.inr (Or.inl rfl))]
          exact (show ((125 : Nat) : Int) ≠ P_ERROR from by decide))
    rw [hacc1]
    rw [getsym_punct (Or.inr (Or.inl rfl))]
    simp only
    rw [if_neg (by simp)]
    simp only
    obtain ⟨b2, hsep⟩ := getsym_sep hstop ((125 : Nat) : Int) ln [] errs
    have hacc2 := @accept_hit ⟨rest, ((125 : Nat) : Int), ln, [], errs⟩ 125 rfl
      (by rw [hsep]; exact sepSym_ne_err hstop)
    rw [hacc2]
    rw [hsep]
    simp only [if_pos (rfl : true = true)]
    refine ⟨.jobj (List.replicate 8 none) 0, ⟨rest.drop 1, sepSym rest, ln, b2, errs⟩,
      rfl, rfl, rfl, rfl, rfl, ?_⟩
    intro df hdf
    obtain ⟨r, rfl⟩ : ∃ r, df = r + 1 := ⟨df - 1, by omega⟩
    show ((entriesList slots).all _ && (entriesList (List.replicate 8 none)).all _) = true
    rw [hne, entriesList_replicate]
    rfl
  · rw [ser_obj_ne count hpi hlen g ind hne] at hfuel ⊢
    rw [show ((123 : Nat) :: (sepJoin false ((entriesList slots).map
          (fun p => serialize_string p.1 ++ 58 :: serialize_value g false false (ind+1) p.2))
          ++ [125])) ++ rest
        = 123 :: ((sepJoin false ((entriesList slots).map
          (fun p => serialize_string p.1 ++ 58 :: serialize_value g false false (ind+1) p.2))
          ++ [125]) ++ rest) from rfl] at hfuel ⊢
    rw [List.append_assoc, List.singleton_append] at hfuel ⊢
    rw [getsym_punct (Or.inl rfl)]
    constructor
    · exact Or.inl rfl
    have hself : ∀ p ∈ entriesList slots,
        (serialize_string p.1 ++ 58 :: serialize_value g false false (ind+1) p.2).length
        ≤ (sepJoin false ((entriesList slots).map
          (fun p => serialize_string p.1 ++ 58 :: serialize_value g false false (ind+1) p.2))).length := by
      intro p hp
      exact sepJoin_len (List.mem_map_of_mem _ hp)
    obtain ⟨q, rfl⟩ : ∃ q, pfuel = q + 1 :=
      ⟨pfuel - 1, by simp only [List.length_append, List.length_cons] at hfuel; omega⟩
    rw [json_parse_value]
    simp only
    rw [if_pos (show ((123 : Nat) : Int) = 123 from by decide)]
    obtain ⟨q2, rfl⟩ : ∃ q2, q = q2 + 1 :=
      ⟨q - 1, by simp only [List.length_append, List.length_cons] at hfuel; omega⟩
    rw [json_parse_object]
    simp only
    obtain ⟨hmsym, ws, pcf, hparsem, hfa, hinp, hsym, hln, herrs⟩ :=
      rt_members g (ind+1) (entriesList slots) hall hne
        (fun p hp => (wfSlots_mem hws hp).1)
        (fun p hp => (wfSlots_mem hws hp).2.2)
        (fun p hp => goodNumsSlots_mem hgns hp)
        (fun p hp => by have := jdepthSlots_mem hp; rw [hdv] at hsf; omega)
        rest ((123 : Nat) : Int) ln [] errs q2 (List.replicate 8 none) 0
        (by
          intro p hp
          have h1 := hself p hp
          have h2 := serialize_string_len p.1
          have h3 := ser_len_pos g (ind+1) p.2
          simp only [List.length_append, List.length_cons] at hfuel h1 ⊢
          omega)
    have hacc1 := @accept_hit
      ⟨sepJoin false ((entriesList slots).map
          (fun p => serialize_string p.1 ++ 58 :: serialize_value g false false (ind+1) p.2))
        ++ 125 :: rest, ((123 : Nat) : Int), ln, [], errs⟩ 123 rfl
      (by rw [hmsym]; decide)
    rw [hacc1]
    rw [if_pos (by rw [hmsym]; decide)]
    rw [hparsem]
    simp only
    obtain ⟨pi, ps, pl, pb, pe⟩ := pcf
    simp only at hinp hsym hln herrs
    subst hinp
    subst hsym
    subst hln
    subst herrs
    obtain ⟨b2, hsep⟩ := getsym_sep hstop (125 : Int) pl pb pe
    have hacc2 := @accept_hit ⟨pi, (125 : Int), pl, pb, pe⟩ 125 rfl
      (by rw [hsep]; exact sepSym_ne_err hstop)
    rw [hacc2]
    rw [hsep]
    simp only [if_pos (rfl : true = true)]
    refine ⟨.jobj (putList (((entriesList slots).map Prod.fst).zip ws) (List.replicate 8 none, 0)).1
        (putList (((entriesList slots).map Prod.fst).zip ws) (List.replicate 8 none, 0)).2,
      ⟨pi.drop 1, sepSym pi, pl, b2, pe⟩, rfl, rfl, rfl, rfl, rfl, ?_⟩
    intro df hdf
    obtain ⟨r, rfl⟩ : ∃ r, df = r + 1 := ⟨df - 1, by omega⟩
    obtain ⟨hwF, hpermF⟩ := putList_fresh_entries
      (((entriesList slots).map Prod.fst).zip ws) (List.replicate 8 none) 0 htwf_create
      (fun p _ => ht_get_fresh p.1)
      (by
        rw [List.map_fst_zip]
        · exact entries_keys_nodup hpi
        · rw [List.length_map]
          have := hfa.length_eq
          rw [List.length_map] at this
          omega)
    rw [entriesList_replicate, List.append_nil] at hpermF
    have hzip := forall₂_zip_pairs (entriesList slots) ws hfa
    show ((entriesList slots).all _ && _) = true
    rw [Bool.and_eq_true]
    rw [hdv] at hdf
    constructor
    · rw [List.all_eq_true]
      intro pp hpp
      obtain ⟨q, hqops, hq1, hqP⟩ := forall₂_mem_left hzip pp hpp
      rw [List.any_eq_true]
      refine ⟨q, hpermF.mem_iff.mpr hqops, ?_⟩
      rw [Bool.and_eq_true]
      refine ⟨decide_eq_true hq1.symm, ?_⟩
      have hjd := jdepthSlots_mem hpp
      exact hqP r (by omega)
    · rw [List.all_eq_true]
      intro q hq
      have hqops := hpermF.mem_iff.mp hq
      obtain ⟨pp, hppms, hq1, hqP⟩ := forall₂_mem_left hzip.flip q hqops
      rw [List.any_eq_true]
      refine ⟨pp, hppms, ?_⟩
      rw [Bool.and_eq_true]
      refine ⟨decide_eq_true hq1.symm, ?_⟩
      have hjd := jdepthSlots_mem hppms
      exact hqP r (by omega)

end MiscJson

namespace MiscJson

/-- Every value of bounded depth satisfies the round-trip statement. -/
theorem rt_val : ∀ (d : Nat) (v : JValue), jdepth v ≤ d → RTStmt v := by
  intro d
  induction d with
  | zero =>
    intro v hd
    cases v with
    | jnull => exact rt_null
    | jtrue => exact rt_true
    | jfalse => exact rt_false
    | jnum dv => exact rt_num dv
    | jstr s => exact rt_str s
    | jarr elems =>
      rw [show jdepth (.jarr elems) = jdepthList elems + 1 from rfl] at hd
      omega
    | jobj slots count =>
      rw [show jdepth (.jobj slots count) = jdepthSlots slots + 1 from rfl] at hd
      omega
  | succ d ih =>
    intro v hd
    cases v with
    | jnull => exact rt_null
    | jtrue => exact rt_true
    | jfalse => exact rt_false
    | jnum dv => exact rt_num dv
    | jstr s => exact rt_str s
    | jarr elems =>
      refine rt_arr elems (fun u hu => ih u ?_)
      have h1 := jdepthList_mem hu
      rw [show jdepth (.jarr elems) = jdepthList elems + 1 from rfl] at hd
      omega
    | jobj slots count =>
      refine rt_obj slots count (fun p hp => ih p.2 ?_)
      have h1 := jdepthSlots_mem hp
      rw [show jdepth (.jobj slots count) = jdepthSlots slots + 1 from rfl] at hd
      omega

/-- First byte of a serialized value (never the first byte of a UTF-8 BOM). -/
theorem ser_head (g ind : Nat) (v : JValue) :
    ∃ c t, serialize_value (g+1) false false ind v = c :: t ∧ c ≠ 239 := by
  cases v with
  | jnull => exact ⟨110, _, rfl, by decide⟩
  | jtrue => exact ⟨116, _, rfl, by decide⟩
  | jfalse => exact ⟨102, _, rfl, by decide⟩
  | jstr s => exact ⟨34, serialize_string_body s ++ [34], by rw [ser_str]; rfl, by decide⟩
  | jnum d =>
    cases d with
    | fin m e =>
      rw [ser_fin]
      obtain ⟨sgn, ids, frac, ex, heq, hsh⟩ := fmt_g_numTok m e
      obtain ⟨c, t, hct, _, _, _, hnum⟩ := numShape_head hsh
      refine ⟨c, t, by rw [heq, hct], ?_⟩
      rw [Bool.or_eq_true, decide_eq_true_eq] at hnum
      rcases hnum with hd | h45
      · unfold isdigit at hd
        rw [Bool.and_eq_true, decide_eq_true_eq, decide_eq_true_eq] at hd
        omega
      · omega
    | nan => exact ⟨110, _, rfl, by decide⟩
    | inf => exact ⟨110, _, rfl, by decide⟩
    | ninf => exact ⟨110, _, rfl, by decide⟩
  | jarr elems =>
    rw [ser_arr_eq]
    exact ⟨91, _, rfl, by decide⟩
  | jobj slots count =>
    simp only [serialize_value]
    exact ⟨123, _, rfl, by decide⟩

/-- C1 (amended): for every well-formed Value tree (NUL-free strings and
intact hash-table invariants, as the construction API guarantees) whose
numbers are finite and numerically survive the `%g`-text/`atof` round trip,
`json_parse (json_serialize v)` yields a tree deep-equal to `v` (same tag;
equal numbers; byte-equal strings; same-length arrays with pairwise-equal
elements; objects with the same keys bound to equal values irrespective of
order). -/
theorem c1_roundtrip_deep_equal (v : JValue) (hwf : wfB v = true)
    (hgn : goodNums v = true) :
    ∃ w, json_parse (json_serialize v) = some w ∧ deepEqTop v w = true := by
  rw [show json_serialize v = serialize_value (jdepth v + 1) false false 1 v from rfl]
  obtain ⟨c, t, hct, hc239⟩ := ser_head (jdepth v) 1 v
  have hbomne : ¬ ((serialize_value (jdepth v + 1) false false 1 v).take 3
      = [239, 187, 191]) := by
    rw [hct]
    rw [show ((c :: t : List Nat)).take 3 = c :: t.take 2 from rfl]
    intro hb
    injection hb with h1 _
    exact hc239 h1
  unfold json_parse json_parse_full
  simp only
  rw [if_neg hbomne]
  rw [show (serialize_value (jdepth v + 1) false false 1 v : List Nat)
      = serialize_value (jdepth v + 1) false false 1 v ++ [] from (List.append_nil _).symm]
  obtain ⟨hsym, w, pcf, hparse, _, _, _, _, hdeep⟩ :=
    rt_val (jdepth v) v le_rfl hwf hgn (jdepth v + 1) 1 (by omega) [] (Or.inl rfl)
      0 1 [] []
      (2 * (serialize_value (jdepth v + 1) false false 1 v ++ []).length + 8)
      (by simp only [List.append_nil, List.length_append]; omega)
  rw [if_neg (valSym_ne_err hsym)]
  rw [hparse]
  exact ⟨w, rfl, hdeep (jdepth v + 1) (by omega)⟩

/-- A sample tree for the round-trip: an object built by `ht_put` holding a
number and a mixed array. -/
def c1Table : Slots × Nat :=
  putList [(ascii "a", .jnum (.fin 1 0)),
    (ascii "b", .jarr [.jtrue, .jfalse, .jnull, .jstr (ascii "x")])] ht_create

/-- The sample tree. -/
def c1Demo : JValue := .jobj c1Table.1 c1Table.2

theorem c1_roundtrip_deep_equal_witness :
    wfB c1Demo = true ∧ goodNums c1Demo = true ∧
      ∃ w, json_parse (json_serialize c1Demo) = some w ∧ deepEqTop c1Demo w = true :=
  ⟨by decide, by decide, c1_roundtrip_deep_equal c1Demo (by decide) (by decide)⟩

end MiscJson
